import Mathlib

/-!
# The minutes-synthesis pipeline of `backend/server.js`

A shallow embedding of `addBusinessDays`, `improveSpeakersWithLLM` and
`generateActaIfReady`, and the properties of them that the specification states.

Conventions of the embedding.

* A JavaScript string is the list of its UTF-16 code units (`JSString`), so that
  `length`, `trim`, `split` and the regular expressions (none of which carries the
  `u` flag) act on code units as they do in the source.
* The completion service, the storage engine and the clock are external: what they
  answer is an input of the embedded functions, what is sent to them is recorded in
  a list of effects.
* `String.prototype.toLowerCase` is a parameter `lower` of the functions that call it.
-/

namespace Meeting

set_option maxRecDepth 100000
set_option exponentiation.threshold 100000

/-! ## Strings -/

/-- A JavaScript string, as its UTF-16 code units. -/
abbrev JSString := List Nat

/-- The UTF-16 code units of one Unicode scalar value. -/
def charUnits (c : Char) : List Nat :=
  if c.toNat < 65536 then [c.toNat]
  else [55296 + (c.toNat - 65536) / 1024, 56320 + (c.toNat - 65536) % 1024]

/-- The JavaScript string written by a string literal. -/
def utf16 (s : String) : JSString := s.toList.flatMap charUnits

/-- The class `\s` of a regular expression, which is also the set of code units removed by
`trim()`: WhiteSpace and LineTerminator of ECMAScript. -/
def isSpace (c : Nat) : Bool :=
  c == 9 || c == 10 || c == 11 || c == 12 || c == 13 || c == 32 || c == 160 || c == 5760 ||
  (8192 ≤ c && c ≤ 8202) || c == 8232 || c == 8233 || c == 8239 || c == 8287 ||
  c == 12288 || c == 65279

/-- LineTerminator: the code units that `.` does not match. -/
def isLineTerminator (c : Nat) : Bool :=
  c == 10 || c == 13 || c == 8232 || c == 8233

/-- The class `\d`. -/
def isDigit (c : Nat) : Bool := 48 ≤ c && c ≤ 57

/-- The class `\w`: `[A-Za-z0-9_]`. -/
def isWord (c : Nat) : Bool :=
  (65 ≤ c && c ≤ 90) || (97 ≤ c && c ≤ 122) || (48 ≤ c && c ≤ 57) || c == 95

/-- `s.trimStart()`. -/
def trimStart (s : JSString) : JSString := s.dropWhile isSpace

/-- `s.trim()`. -/
def trim (s : JSString) : JSString := (trimStart (trimStart s).reverse).reverse

/-- `s.split(sep)` for a separator of one code unit. -/
def split (sep : Nat) : JSString → List JSString
  | [] => [[]]
  | c :: cs =>
    if c = sep then [] :: split sep cs
    else
      match split sep cs with
      | [] => [[c]]
      | l :: ls => (c :: l) :: ls

/-- The decimal digits of a number, as in a template literal. -/
def natToString (n : Nat) : JSString := (Nat.toDigits 10 n).map Char.toNat

/-- Consume one given code unit at the head of the input. -/
def eat (c : Nat) : JSString → Option JSString
  | [] => none
  | d :: r => if d = c then some r else none

/-! ## The two line patterns of speaker refinement -/

/-- The capture groups of a successful `line.match(...)`: `match[1]`, `match[2]`, and
`match[3]` when the pattern has a third group. -/
structure Match where
  g1 : JSString
  g2 : JSString
  g3 : Option JSString
deriving DecidableEq, Repr

/-- One attempt of `/\[(\d+)\]:\s*\[([^\]]+)\]:\s*(.*)$/` with the match starting at the head
of `s`. Every quantifier is followed by a code unit outside its class, so each run is the
maximal one; `(.*)$` succeeds exactly when no line terminator is left. -/
def nestedAt (s : JSString) : Option Match := do
  let r ← eat 91 s
  let ds := r.takeWhile isDigit
  if ds.isEmpty then none
  let r ← eat 93 (r.dropWhile isDigit)
  let r ← eat 58 r
  let r ← eat 91 (r.dropWhile isSpace)
  let lab := r.takeWhile (fun c => c != 93)
  if lab.isEmpty then none
  let r ← eat 93 (r.dropWhile (fun c => c != 93))
  let r ← eat 58 r
  let rest := r.dropWhile isSpace
  if rest.any isLineTerminator then none
  pure ⟨ds, lab, some rest⟩

/-- One attempt of `/\[([^\]]+)\]:\s*(.*)$/` with the match starting at the head of `s`. -/
def flatAt (s : JSString) : Option Match := do
  let r ← eat 91 s
  let lab := r.takeWhile (fun c => c != 93)
  if lab.isEmpty then none
  let r ← eat 93 (r.dropWhile (fun c => c != 93))
  let r ← eat 58 r
  let rest := r.dropWhile isSpace
  if rest.any isLineTerminator then none
  pure ⟨lab, rest, none⟩

/-- The leftmost match: `String.prototype.match` with a pattern without the `g` flag tries
the start positions from left to right. -/
def search (p : JSString → Option Match) : JSString → Option Match
  | [] => none
  | c :: cs =>
    match p (c :: cs) with
    | some m => some m
    | none => search p cs

/-- The expression `line.match(nested) || line.match(flat)`. -/
def matchLine (line : JSString) : Option Match :=
  match search nestedAt line with
  | some m => some m
  | none => search flatAt line

/-! ## Speaker refinement -/

/-- The value of a segment's `speaker` property. A row read from storage holds a string.
Refinement reads `speakerMap[label]` from an object literal, whose prototype answers for the
names in `protoKeys`: such a read yields a member of `Object.prototype`, not a string. -/
inductive Speaker where
  | str (s : JSString)
  | inherited (key : JSString)
deriving DecidableEq, Repr

/-- A row of `transcriptions` as selected by `generateActaIfReady`. -/
structure Segment where
  id : Nat
  text : JSString
  speaker : Speaker
  chunk_number : Int
deriving DecidableEq, Repr

/-- The property names of `Object.prototype`. -/
def protoKeys : List JSString :=
  [utf16 "constructor", utf16 "__defineGetter__", utf16 "__defineSetter__",
   utf16 "hasOwnProperty", utf16 "__lookupGetter__", utf16 "__lookupSetter__",
   utf16 "isPrototypeOf", utf16 "propertyIsEnumerable", utf16 "toString", utf16 "valueOf",
   utf16 "__proto__", utf16 "toLocaleString"]

/-- The read `speakerMap[key]` on the object `speakerMap`, whose own properties are `m`. -/
def speakerMapGet (m : List (JSString × JSString)) (key : JSString) : Option Speaker :=
  match m.lookup key with
  | some v => some (Speaker.str v)
  | none => if key ∈ protoKeys then some (Speaker.inherited key) else none

/-- The template literal of the canonical token with number `k`. -/
def speakerToken (k : Nat) : JSString := utf16 "Speaker" ++ natToString k

/-- The `for` loop of `improveSpeakersWithLLM` over `i < lines.length && i < transcriptions.length`,
with the map and the counter as they stand at position `i`; the value is what the loop pushes
onto `result`. -/
def refineLoop : List JSString → List Segment → List (JSString × JSString) → Nat → List Segment
  | [], _, _, _ => []
  | _, [], _, _ => []
  | line :: lines, t :: ts, m, k =>
    match matchLine line with
    | some mt =>
      let speakerLabel := if mt.g2.isEmpty then mt.g1 else mt.g2
      let text :=
        match mt.g3 with
        | some g3 => if g3.isEmpty then (if mt.g2.isEmpty then line else mt.g2) else g3
        | none => if mt.g2.isEmpty then line else mt.g2
      match speakerMapGet m speakerLabel with
      | some sp =>
        { t with speaker := sp, text := trim text } :: refineLoop lines ts m k
      | none =>
        { t with speaker := Speaker.str (speakerToken k), text := trim text } ::
          refineLoop lines ts ((speakerLabel, speakerToken k) :: m) (k + 1)
    | none => t :: refineLoop lines ts m k

/-- The `while` loop that pushes `transcriptions[result.length]` until `result` is as long as
`transcriptions`. -/
def padResult (result transcriptions : List Segment) : List Segment :=
  result ++ transcriptions.drop result.length

/-- What the awaited chat completion does: it throws, or it returns a response whose
`choices?.[0]?.message?.content` is a string or is missing. -/
inductive Completion where
  | throws
  | returns (content : Option JSString)
deriving DecidableEq, Repr

/-- The function `improveSpeakersWithLLM`. `configured` says that `GROQ_API_KEY` is set;
`completion` is the outcome of the completion call, consulted only when the call is made. -/
def improveSpeakersWithLLM (configured : Bool) (completion : Completion)
    (transcriptions : List Segment) : List Segment :=
  if !configured || transcriptions.length == 0 then transcriptions
  else
    match completion with
    | Completion.throws => transcriptions
    | Completion.returns c =>
      let content := c.getD []
      let lines := (split 10 content).filter (fun l => !l.isEmpty)
      let result := padResult (refineLoop lines transcriptions [] 1) transcriptions
      if result.length != 0 then result else transcriptions

/-! ## The business-day calendar -/

/-- Milliseconds in a day. -/
def msPerDay : Int := 86400000

/-- The day number (days since 1970-01-01) of a date of the proleptic Gregorian calendar. -/
def daysFromCivil (y m d : Int) : Int :=
  let y1 := if m ≤ 2 then y - 1 else y
  let era := y1 / 400
  let yoe := y1 - era * 400
  let doy := (153 * (if m > 2 then m - 3 else m + 9) + 2) / 5 + d - 1
  let doe := yoe * 365 + yoe / 4 - yoe / 100 + doy
  era * 146097 + doe - 719468

/-- The year, month and day of a day number. -/
def civilFromDays (z : Int) : Int × Int × Int :=
  let z1 := z + 719468
  let era := z1 / 146097
  let doe := z1 - era * 146097
  let yoe := (doe - doe / 1460 + doe / 36524 - doe / 146096) / 365
  let doy := doe - (365 * yoe + yoe / 4 - yoe / 100)
  let mp := (5 * doy + 2) / 153
  let d := doy - (153 * mp + 2) / 5 + 1
  let m := if mp < 10 then mp + 3 else mp - 9
  (if m ≤ 2 then yoe + era * 400 + 1 else yoe + era * 400, m, d)

/-- Leap years of the Gregorian calendar. -/
def isLeap (y : Int) : Bool := (y % 4 == 0 && y % 100 != 0) || y % 400 == 0

/-- Number of days of a month. -/
def daysInMonth (y m : Int) : Int :=
  if m == 2 then (if isLeap y then 29 else 28)
  else if m == 4 || m == 6 || m == 9 || m == 11 then 30 else 31

/-- The number written by a run of decimal digits. -/
def digitsToNat (ds : List Nat) : Nat := ds.foldl (fun a c => 10 * a + (c - 48)) 0

/-- The time value of `new Date(s)` for a date-only string `YYYY-MM-DD` naming a day of the
calendar, which ECMAScript reads as midnight UTC. Every start date the pipeline passes has
this form, being the date part of a `toISOString()`. Strings in forms other than this one and
the one of `parseDateTime` are parsed in an implementation-defined way and are outside this
embedding. -/
def parseDate (s : JSString) : Option Int :=
  match s with
  | [y1, y2, y3, y4, s1, m1, m2, s2, d1, d2] =>
    if s1 = 45 ∧ s2 = 45 ∧ [y1, y2, y3, y4, m1, m2, d1, d2].all isDigit then
      let y : Int := digitsToNat [y1, y2, y3, y4]
      let m : Int := digitsToNat [m1, m2]
      let d : Int := digitsToNat [d1, d2]
      if 1 ≤ m ∧ m ≤ 12 ∧ 1 ≤ d ∧ d ≤ daysInMonth y m then
        some (daysFromCivil y m d * msPerDay)
      else none
    else none
  | _ => none

/-- A number in decimal, padded with zeros on the left to the width `w`. -/
def padStart (w : Nat) (n : Nat) : JSString :=
  List.replicate (w - (natToString n).length) 48 ++ natToString n

/-- The date part of `toISOString()`, that is `date.toISOString().split('T')[0]`, of a valid
time value: years 0 to 9999 have four digits, the others a sign and six digits. -/
def isoDate (t : Int) : JSString :=
  match civilFromDays (t / msPerDay) with
  | (y, m, d) =>
    (if 0 ≤ y ∧ y ≤ 9999 then padStart 4 y.toNat
     else (if y < 0 then 45 else 43) :: padStart 6 y.natAbs) ++
    [45] ++ padStart 2 m.toNat ++ [45] ++ padStart 2 d.toNat

/-- The time value of `new Date(s)` for a string of the form `YYYY-MM-DDTHH:mm:ss.sssZ`, the
form `toISOString()` writes and `/startMeeting` and `/endMeeting` store. -/
def parseDateTime (s : JSString) : Option Int :=
  match s with
  | [y1, y2, y3, y4, s1, m1, m2, s2, d1, d2, t, h1, h2, c1, n1, n2, c2, e1, e2, p, f1, f2, f3,
      z] =>
    if t = 84 ∧ c1 = 58 ∧ c2 = 58 ∧ p = 46 ∧ z = 90 ∧
        [h1, h2, n1, n2, e1, e2, f1, f2, f3].all isDigit ∧
        digitsToNat [h1, h2] ≤ 23 ∧ digitsToNat [n1, n2] ≤ 59 ∧ digitsToNat [e1, e2] ≤ 59 then
      match parseDate [y1, y2, y3, y4, s1, m1, m2, s2, d1, d2] with
      | some day =>
        some (day + ((digitsToNat [h1, h2] * 60 + digitsToNat [n1, n2]) * 60 +
          digitsToNat [e1, e2]) * 1000 + digitsToNat [f1, f2, f3])
      | none => none
    else none
  | _ => none

/-- The time value of `new Date(s)` for a string in one of the two ISO forms the program
produces; `none` is an Invalid Date. -/
def newDate (s : JSString) : Option Int :=
  match parseDate s with
  | some t => some t
  | none => parseDateTime s

/-- TimeClip: a time value beyond 8.64e15 ms becomes NaN (`none`). -/
def timeClip (t : Int) : Option Int :=
  if t.natAbs ≤ 8640000000000000 then some t else none

/-- The time zone of the environment. Local time is UTC plus `base` minutes before the first
of the `changes`; a change `(u, o)` puts local time at UTC plus `o` minutes from the time value
`u` on, as the start and the end of daylight saving do. The changes are listed in ascending
order of `u`. -/
structure Zone where
  base : Int
  changes : List (Int × Int)
deriving DecidableEq, Repr

/-- A zone whose local time is UTC plus `tz` minutes throughout. -/
def Zone.fixed (tz : Int) : Zone := ⟨tz, []⟩

/-- The offset from UTC, in minutes, in force at the time value `t`. -/
def Zone.offsetAt (z : Zone) (t : Int) : Int :=
  z.changes.foldl (fun off c => if c.1 ≤ t then c.2 else off) z.base

/-- The operation LocalTime: the local time value of the time value `t`. -/
def Zone.localTime (z : Zone) (t : Int) : Int := t + z.offsetAt t * 60000

/-- The offset from UTC, in minutes, with which the local time value `l` is read. A local time
that a change skips, or that occurs twice because of a change, is read with the offset in force
before that change. -/
def Zone.offsetOfLocal (z : Zone) (l : Int) : Int :=
  z.changes.foldl (fun off c => if c.1 + max off c.2 * 60000 ≤ l then c.2 else off) z.base

/-- The operation UTC: the time value of the local time value `l`. -/
def Zone.utc (z : Zone) (l : Int) : Int := l - z.offsetOfLocal l * 60000

/-- The value of `date.getDay()`, the weekday in local time (0 is Sunday). -/
def getDay (z : Zone) (t : Int) : Int := (z.localTime t / msPerDay + 4) % 7

/-- The time value that `date.setDate(date.getDate() + 1)` sets on a date of time value `t`,
before TimeClip: the same local time of day on the next local day. -/
def nextDay (z : Zone) (t : Int) : Int := z.utc (z.localTime t + msPerDay)

/-- The `while (added < days)` loop of `addBusinessDays`: `date` is the time value of the Date
object (`none` when it is NaN), `added` the counter. Each turn moves the local date one day on,
`date.setDate(date.getDate() + 1)`, and counts the day unless `getDay()` is 0 or 6; on an
Invalid Date `getDay()` is NaN, which differs from both. The first argument after `days` bounds
the number of turns; `none` is returned when it is exhausted. -/
def addLoop (z : Zone) (days : Nat) : Nat → Option Int → Nat → Option (Option Int)
  | 0, date, added => if added < days then none else some date
  | fuel + 1, date, added =>
    if added < days then
      let date1 := date.bind (fun t => timeClip (nextDay z t))
      let counted :=
        match date1 with
        | none => true
        | some t => getDay z t != 0 && getDay z t != 6
      addLoop z days fuel date1 (if counted then added + 1 else added)
    else some date

/-- The function `addBusinessDays(startDate, days)` in an environment of time zone `z`. The
start is read as a time value (midnight UTC for a date-only string), stepped and tested in
local time, and written as the UTC date of the time value reached. The value `none` stands for
the RangeError that `toISOString()` raises on an Invalid Date. Seven turns of the loop per
requested day are allowed. -/
def addBusinessDays (z : Zone) (startDate : JSString) (days : Nat) : Option JSString :=
  match newDate startDate with
  | none => none
  | some t0 =>
    match addLoop z days (7 * days) (some t0) 0 with
    | some (some t) => some (isoDate t)
    | _ => none

/-! ## JSON values and `JSON.parse` -/

/-- A JSON number as written: sign, decimal digits and power of ten, denoting
`± mantissa * 10 ^ exp10`. The double it is rounded to is not computed, except for the test
whether that double is zero (`JNumber.isZero`). -/
structure JNumber where
  neg : Bool
  mantissa : Nat
  exp10 : Int
deriving DecidableEq, Repr

/-- A value produced by `JSON.parse`. An object is the list of its own properties, each key
once. -/
inductive JSON where
  | null
  | bool (b : Bool)
  | num (n : JNumber)
  | str (s : JSString)
  | arr (items : List JSON)
  | obj (fields : List (JSString × JSON))
deriving Repr

mutual

/-- Equality of JSON values is decidable. -/
def JSON.decEq : (a b : JSON) → Decidable (a = b)
  | JSON.null, JSON.null => isTrue rfl
  | JSON.bool a, JSON.bool b =>
    if h : a = b then isTrue (congrArg JSON.bool h)
    else isFalse (fun e => h (JSON.bool.inj e))
  | JSON.num a, JSON.num b =>
    if h : a = b then isTrue (congrArg JSON.num h)
    else isFalse (fun e => h (JSON.num.inj e))
  | JSON.str a, JSON.str b =>
    if h : a = b then isTrue (congrArg JSON.str h)
    else isFalse (fun e => h (JSON.str.inj e))
  | JSON.arr a, JSON.arr b =>
    match JSON.decEqList a b with
    | isTrue h => isTrue (congrArg JSON.arr h)
    | isFalse h => isFalse (fun e => h (JSON.arr.inj e))
  | JSON.obj a, JSON.obj b =>
    match JSON.decEqFields a b with
    | isTrue h => isTrue (congrArg JSON.obj h)
    | isFalse h => isFalse (fun e => h (JSON.obj.inj e))
  | JSON.null, JSON.bool _
  | JSON.null, JSON.num _
  | JSON.null, JSON.str _
  | JSON.null, JSON.arr _
  | JSON.null, JSON.obj _
  | JSON.bool _, JSON.null
  | JSON.bool _, JSON.num _
  | JSON.bool _, JSON.str _
  | JSON.bool _, JSON.arr _
  | JSON.bool _, JSON.obj _
  | JSON.num _, JSON.null
  | JSON.num _, JSON.bool _
  | JSON.num _, JSON.str _
  | JSON.num _, JSON.arr _
  | JSON.num _, JSON.obj _
  | JSON.str _, JSON.null
  | JSON.str _, JSON.bool _
  | JSON.str _, JSON.num _
  | JSON.str _, JSON.arr _
  | JSON.str _, JSON.obj _
  | JSON.arr _, JSON.null
  | JSON.arr _, JSON.bool _
  | JSON.arr _, JSON.num _
  | JSON.arr _, JSON.str _
  | JSON.arr _, JSON.obj _
  | JSON.obj _, JSON.null
  | JSON.obj _, JSON.bool _
  | JSON.obj _, JSON.num _
  | JSON.obj _, JSON.str _
  | JSON.obj _, JSON.arr _ => isFalse (fun e => JSON.noConfusion e)

/-- Equality of lists of JSON values is decidable. -/
def JSON.decEqList : (a b : List JSON) → Decidable (a = b)
  | [], [] => isTrue rfl
  | a :: as, b :: bs =>
    match JSON.decEq a b, JSON.decEqList as bs with
    | isTrue h1, isTrue h2 => isTrue (by rw [h1, h2])
    | isFalse h1, _ => isFalse (fun e => h1 (List.cons.inj e).1)
    | _, isFalse h2 => isFalse (fun e => h2 (List.cons.inj e).2)
  | [], _ :: _ => isFalse (fun e => List.noConfusion e)
  | _ :: _, [] => isFalse (fun e => List.noConfusion e)

/-- Equality of property lists is decidable. -/
def JSON.decEqFields : (a b : List (JSString × JSON)) → Decidable (a = b)
  | [], [] => isTrue rfl
  | (k, a) :: as, (l, b) :: bs =>
    if hk : k = l then
      match JSON.decEq a b, JSON.decEqFields as bs with
      | isTrue h1, isTrue h2 => isTrue (by rw [hk, h1, h2])
      | isFalse h1, _ => isFalse (fun e => h1 (Prod.mk.inj (List.cons.inj e).1).2)
      | _, isFalse h2 => isFalse (fun e => h2 (List.cons.inj e).2)
    else isFalse (fun e => hk (Prod.mk.inj (List.cons.inj e).1).1)
  | [], _ :: _ => isFalse (fun e => List.noConfusion e)
  | _ :: _, [] => isFalse (fun e => List.noConfusion e)

end

instance : DecidableEq JSON := JSON.decEq

/-- The whitespace of the JSON grammar: space, tab, line feed, carriage return. -/
def isJsonSpace (c : Nat) : Bool := c == 32 || c == 9 || c == 10 || c == 13

/-- Skip JSON whitespace. -/
def skipWs (s : JSString) : JSString := s.dropWhile isJsonSpace

/-- The value of a hexadecimal digit. -/
def hexVal (c : Nat) : Option Nat :=
  if 48 ≤ c ∧ c ≤ 57 then some (c - 48)
  else if 97 ≤ c ∧ c ≤ 102 then some (c - 87)
  else if 65 ≤ c ∧ c ≤ 70 then some (c - 55)
  else none

/-- The code unit denoted by the escape `\c` of a JSON string, for `c` other than `u`. -/
def escapeUnit (c : Nat) : Option Nat :=
  if c = 34 then some 34
  else if c = 92 then some 92
  else if c = 47 then some 47
  else if c = 98 then some 8
  else if c = 102 then some 12
  else if c = 110 then some 10
  else if c = 114 then some 13
  else if c = 116 then some 9
  else none

/-- The characters of a JSON string after its opening quote: the string denoted and what
follows the closing quote. -/
def parseStringBody : JSString → Option (JSString × JSString)
  | [] => none
  | c :: r =>
    if c = 34 then some ([], r)
    else if c = 92 then
      match r with
      | [] => none
      | e :: r1 =>
        if e = 117 then
          match r1 with
          | h1 :: h2 :: h3 :: h4 :: r2 =>
            match hexVal h1, hexVal h2, hexVal h3, hexVal h4 with
            | some a, some b, some c1, some d =>
              match parseStringBody r2 with
              | some (str, rest) => some ((((a * 16 + b) * 16 + c1) * 16 + d) :: str, rest)
              | none => none
            | _, _, _, _ => none
          | _ => none
        else
          match escapeUnit e with
          | some u =>
            match parseStringBody r1 with
            | some (str, rest) => some (u :: str, rest)
            | none => none
          | none => none
    else if c < 32 then none
    else
      match parseStringBody r with
      | some (str, rest) => some (c :: str, rest)
      | none => none

/-- The fraction `(\.\d+)?` of a JSON number: its digits and what follows it. A point that no
digit follows is left in the rest. -/
def parseFraction (s : JSString) : JSString × JSString :=
  match s with
  | d :: r =>
    if d = 46 ∧ !(r.takeWhile isDigit).isEmpty then (r.takeWhile isDigit, r.dropWhile isDigit)
    else ([], s)
  | [] => ([], [])

/-- The exponent `[+-]?\d+` of a JSON number after its `e` or `E`: its value and what follows
it, if there is a digit. -/
def parseExponent (s : JSString) : Option (Int × JSString) :=
  let digits := if s.head? = some 43 ∨ s.head? = some 45 then s.drop 1 else s
  if (digits.takeWhile isDigit).isEmpty then none
  else
    some (if s.head? = some 45 then -(digitsToNat (digits.takeWhile isDigit) : Int)
      else digitsToNat (digits.takeWhile isDigit), digits.dropWhile isDigit)

/-- A JSON number at the head of the input, `-?(0|[1-9]\d*)(\.\d+)?([eE][+-]?\d+)?`, and what
follows it. A fraction or exponent that is begun and not completed is left in the rest, where
no enclosing production accepts it. -/
def parseNumber (s : JSString) : Option (JNumber × JSString) :=
  match (if s.head? = some 45 then s.drop 1 else s) with
  | [] => none
  | c :: r =>
    if !isDigit c then none
    else
      let neg : Bool := s.head? = some 45
      let intDigits := if c = 48 then [c] else c :: r.takeWhile isDigit
      let frac := parseFraction (if c = 48 then r else r.dropWhile isDigit)
      let mantissa := digitsToNat (intDigits ++ frac.1)
      let plain : JNumber × JSString := (⟨neg, mantissa, -(frac.1.length : Int)⟩, frac.2)
      match frac.2 with
      | e :: r1 =>
        if e = 101 ∨ e = 69 then
          match parseExponent r1 with
          | some (x, rest) => some (⟨neg, mantissa, x - frac.1.length⟩, rest)
          | none => some plain
        else some plain
      | [] => some plain

/-- Define the property `key` with the value `v` on an object, as `JSON.parse` does for each
member and as an assignment does: a key already present keeps its place and takes the new
value; a new key comes last. -/
def setProp (fields : List (JSString × JSON)) (key : JSString) (v : JSON) :
    List (JSString × JSON) :=
  match fields with
  | [] => [(key, v)]
  | (k, w) :: rest => if k = key then (k, v) :: rest else (k, w) :: setProp rest key v

mutual

/-- A JSON value at the head of the input (no leading whitespace) and what follows it. The
first argument bounds the number of nested calls; twice the length of the text, plus one, is
always enough. -/
def parseValue : Nat → JSString → Option (JSON × JSString)
  | 0, _ => none
  | fuel + 1, s =>
    match s with
    | [] => none
    | c :: r =>
      if c = 123 then
        match skipWs r with
        | d :: r1 => if d = 125 then some (JSON.obj [], r1) else parseMembers fuel (d :: r1) []
        | [] => none
      else if c = 91 then
        match skipWs r with
        | d :: r1 => if d = 93 then some (JSON.arr [], r1) else parseElements fuel (d :: r1) []
        | [] => none
      else if c = 34 then
        match parseStringBody r with
        | some (str, rest) => some (JSON.str str, rest)
        | none => none
      else if s.take 4 = utf16 "true" then some (JSON.bool true, s.drop 4)
      else if s.take 5 = utf16 "false" then some (JSON.bool false, s.drop 5)
      else if s.take 4 = utf16 "null" then some (JSON.null, s.drop 4)
      else
        match parseNumber s with
        | some (n, rest) => some (JSON.num n, rest)
        | none => none

/-- The members of an object after `{`, the input standing at the first code unit of a
member; `acc` holds the properties defined so far. -/
def parseMembers : Nat → JSString → List (JSString × JSON) → Option (JSON × JSString)
  | 0, _, _ => none
  | fuel + 1, s, acc =>
    match s with
    | [] => none
    | q :: r =>
      if q = 34 then
        match parseStringBody r with
        | some (key, r1) =>
          match skipWs r1 with
          | colon :: r2 =>
            if colon = 58 then
              match parseValue fuel (skipWs r2) with
              | some (v, r3) =>
                match skipWs r3 with
                | d :: r4 =>
                  if d = 44 then parseMembers fuel (skipWs r4) (setProp acc key v)
                  else if d = 125 then some (JSON.obj (setProp acc key v), r4)
                  else none
                | [] => none
              | none => none
            else none
          | [] => none
        | none => none
      else none

/-- The elements of an array after `[`, the input standing at the first code unit of an
element; `acc` holds the elements read so far. -/
def parseElements : Nat → JSString → List JSON → Option (JSON × JSString)
  | 0, _, _ => none
  | fuel + 1, s, acc =>
    match parseValue fuel s with
    | some (v, r) =>
      match skipWs r with
      | d :: r1 =>
        if d = 44 then parseElements fuel (skipWs r1) (acc ++ [v])
        else if d = 93 then some (JSON.arr (acc ++ [v]), r1)
        else none
      | [] => none
    | none => none

end

/-- The function `JSON.parse(text)`; `none` stands for the SyntaxError it throws. The bound
given to the parser is never reached (`JSON.parse_fuel`). -/
def JSON.parse (text : JSString) : Option JSON :=
  match parseValue (2 * text.length + 1) (skipWs text) with
  | some (v, rest) => if (skipWs rest).isEmpty then some v else none
  | none => none

/-- Whether the double denoted by a number literal is zero: the digits are all zero, or the
value is at most half the least positive double, 2^-1075. -/
def JNumber.isZero (n : JNumber) : Bool :=
  n.mantissa == 0 || (n.exp10 < 0 && n.mantissa * 2 ^ 1075 ≤ 10 ^ (-n.exp10).toNat)

/-- ToBoolean of a parsed value, and of `undefined` (`none`). -/
def truthy : Option JSON → Bool
  | none => false
  | some JSON.null => false
  | some (JSON.bool b) => b
  | some (JSON.num n) => !n.isZero
  | some (JSON.str s) => !s.isEmpty
  | some (JSON.arr _) => true
  | some (JSON.obj _) => true

/-- The read `v.key` of a property that neither `Object.prototype`, `Array.prototype` nor the
wrappers of primitives define (`descripcion`, `responsable`, `fecha_compromiso`,
`tareas_nuevas`, `identificacion`), on a value other than `null`; `none` is `undefined`. -/
def JSON.get (v : JSON) (key : JSString) : Option JSON :=
  match v with
  | JSON.obj fields => fields.lookup key
  | _ => none

/-! ## Repair of the completion text -/

/-- The method `s.replace(re, ...)` for a pattern with the `g` flag whose matches are never
empty. `p` attempts the pattern at the head of its argument and, on success, gives the
replacement text and the number of code units matched. The first argument is the number of
code units still to skip because they belong to the match just replaced. -/
def replaceAll (p : JSString → Option (JSString × Nat)) : Nat → JSString → JSString
  | _, [] => []
  | skip + 1, _ :: r => replaceAll p skip r
  | 0, c :: r =>
    match p (c :: r) with
    | some (rep, n) => rep ++ replaceAll p (n - 1) r
    | none => c :: replaceAll p 0 r

/-- The patterns `/,\s*}/` and `/,\s*]/` at the head of `s`, with the replacement `}` or `]`;
`close` is the closing bracket. -/
def trailingCommaAt (close : Nat) (s : JSString) : Option (JSString × Nat) :=
  match s with
  | [] => none
  | c :: r =>
    if c = 44 then
      match r.dropWhile isSpace with
      | d :: _ => if d = close then some ([close], (r.takeWhile isSpace).length + 2) else none
      | [] => none
    else none

/-- The pattern `/([{,]\s*)(\w+)(\s*:)/` at the head of `s`, with the replacement
`$1"$2"$3`. The classes of consecutive quantifiers are disjoint, so each run is maximal. -/
def bareKeyAt (s : JSString) : Option (JSString × Nat) :=
  match s with
  | [] => none
  | c :: r =>
    if c = 123 ∨ c = 44 then
      let ws1 := r.takeWhile isSpace
      let r1 := r.dropWhile isSpace
      let word := r1.takeWhile isWord
      let r2 := r1.dropWhile isWord
      let ws2 := r2.takeWhile isSpace
      if word.isEmpty then none
      else
        match r2.dropWhile isSpace with
        | d :: _ =>
          if d = 58 then
            some (c :: ws1 ++ [34] ++ word ++ [34] ++ ws2 ++ [58],
              1 + ws1.length + word.length + ws2.length + 1)
          else none
        | [] => none
    else none

/-- Number of code units before the first `*/` of `s`, if there is one. -/
def closeIndex : JSString → Option Nat
  | [] => none
  | c :: r =>
    if c = 42 ∧ r.head? = some 47 then some 0
    else (closeIndex r).map (fun n => n + 1)

/-- The pattern `/\/\*[\s\S]*?\*\//` at the head of `s`, with the empty replacement. -/
def blockCommentAt (s : JSString) : Option (JSString × Nat) :=
  match s with
  | a :: b :: r =>
    if a = 47 ∧ b = 42 then (closeIndex r).map (fun n => ([], n + 4)) else none
  | _ => none

/-- The pattern `/\/\/.*$/` with the `m` flag at the head of `s`, with the empty replacement:
`$` holds at the end of the text and before a line terminator. -/
def lineCommentAt (s : JSString) : Option (JSString × Nat) :=
  match s with
  | a :: b :: r =>
    if a = 47 ∧ b = 47 then
      some ([], (r.takeWhile (fun c => !isLineTerminator c)).length + 2)
    else none
  | _ => none

/-- The step `raw.match(/\{[\s\S]*\}/)` and `raw = jsonMatch[0]`: from the first `{` to the last
`}` after it; the text is left as it is when there is no such pair. -/
def extractObject (raw : JSString) : JSString :=
  let fromOpen := raw.dropWhile (fun c => c != 123)
  let toClose := (fromOpen.reverse.dropWhile (fun c => c != 125)).reverse
  if toClose.isEmpty then raw else toClose

/-- The two statements that remove commas before `}` and `]` and quote bare keys. -/
def normalizeText (raw : JSString) : JSString :=
  replaceAll bareKeyAt 0
    (replaceAll (trailingCommaAt 93) 0 (replaceAll (trailingCommaAt 125) 0 raw))

/-- The two statements of the first `catch` that remove block comments and line comments. -/
def stripComments (raw : JSString) : JSString :=
  replaceAll lineCommentAt 0 (replaceAll blockCommentAt 0 raw)

/-- The text on which `JSON.parse` is first called: the content trimmed, cut to its braces and
normalized. -/
def preparedText (content : JSString) : JSString :=
  normalizeText (extractObject (trim content))

/-- The sentence stored as summary of the default document. -/
def sentinelSummary : JSString :=
  utf16 "Error al generar acta automáticamente. Por favor revisa la transcripción."

/-- The object literal assigned in the innermost `catch`; `today` is
`new Date().toISOString().split('T')[0]`. -/
def defaultActa (today : JSString) : JSON :=
  JSON.obj
    [(utf16 "identificacion", JSON.obj
        [(utf16 "cliente", JSON.str []), (utf16 "proyecto", JSON.str []),
         (utf16 "fecha", JSON.str today), (utf16 "hora_inicio", JSON.str []),
         (utf16 "hora_fin", JSON.str []), (utf16 "responsable", JSON.str []),
         (utf16 "participantes", JSON.arr [])]),
     (utf16 "tareas_anteriores", JSON.arr []),
     (utf16 "tareas_nuevas", JSON.arr []),
     (utf16 "resumen_reunion", JSON.str sentinelSummary),
     (utf16 "observaciones_generales", JSON.str [])]

/-- The value of `actaJson` after the nested `try`/`catch` of lines 359-398: the parse of the
prepared text, else the parse of that text without comments, else the default document. -/
def repair (today : JSString) (content : JSString) : JSON :=
  match JSON.parse (preparedText content) with
  | some v => v
  | none =>
    match JSON.parse (stripComments (preparedText content)) with
    | some v => v
    | none => defaultActa today

/-! ## Identification -/

/-- A row of `meetings` as selected by `generateActaIfReady`; `none` is SQL NULL. -/
structure MeetingRow where
  cliente : Option JSString
  proyecto : Option JSString
  responsable : Option JSString
  participantes : Option JSString
  started_at : Option JSString
  ended_at : Option JSString
deriving DecidableEq, Repr

/-- The object `meta`: the canonical identification of a meeting. -/
structure Identificacion where
  cliente : JSString
  proyecto : JSString
  responsable : JSString
  participantes : List JSON
  fecha : JSString
  hora_inicio : JSString
  hora_fin : JSString
deriving DecidableEq

/-- The expression `x || ''` on a text column. -/
def orEmpty (x : Option JSString) : JSString := x.getD []

/-- The expression `x ? new Date(x) : null`: `none` is `null`, `some none` an Invalid Date. -/
def dateOrNull (x : Option JSString) : Option (Option Int) :=
  match x with
  | none => none
  | some str => if str.isEmpty then none else some (newDate str)

/-- The template literal of hours and minutes in local time, each `padStart(2, '0')`; on an
Invalid Date both numbers are NaN. -/
def hourMinute (z : Zone) (date : Option Int) : JSString :=
  match date with
  | none => utf16 "NaN:NaN"
  | some t =>
    padStart 2 ((z.localTime t / 3600000) % 24).toNat ++ [58] ++
      padStart 2 ((z.localTime t / 60000) % 60).toNat

/-- The value of `participantesArr` as used in `meta`: the parse of the column (of `'[]'` when
it is empty) if that is an array, the empty array otherwise. -/
def participantesOf (col : Option JSString) : List JSON :=
  match JSON.parse (if (orEmpty col).isEmpty then utf16 "[]" else orEmpty col) with
  | some (JSON.arr items) => items
  | _ => []

/-- The object `meta` built from the meeting row (lines 288-303). `none` stands for the
RangeError of `startedDate.toISOString()` on an Invalid Date. -/
def buildMeta (z : Zone) (meeting : MeetingRow) : Option Identificacion :=
  let fecha : Option JSString :=
    match dateOrNull meeting.started_at with
    | none => some []
    | some none => none
    | some (some t) => some (isoDate t)
  match fecha with
  | none => none
  | some f =>
    some
      { cliente := orEmpty meeting.cliente
        proyecto := orEmpty meeting.proyecto
        responsable := orEmpty meeting.responsable
        participantes := participantesOf meeting.participantes
        fecha := f
        hora_inicio :=
          match dateOrNull meeting.started_at with
          | none => []
          | some d => hourMinute z d
        hora_fin :=
          match dateOrNull meeting.ended_at with
          | none => []
          | some d => hourMinute z d }

/-- The object literal assigned to `actaJson.identificacion` (lines 400-408). -/
def Identificacion.toJSON (m : Identificacion) : JSON :=
  JSON.obj
    [(utf16 "cliente", JSON.str m.cliente), (utf16 "proyecto", JSON.str m.proyecto),
     (utf16 "responsable", JSON.str m.responsable),
     (utf16 "participantes", JSON.arr m.participantes),
     (utf16 "fecha", JSON.str m.fecha), (utf16 "hora_inicio", JSON.str m.hora_inicio),
     (utf16 "hora_fin", JSON.str m.hora_fin)]

/-- The value `actaJson` after the assignment `actaJson.identificacion = {...}`. On an object
the property is set. On an array it becomes a property beside the elements. On a boolean, a
number or a string the assignment does nothing, the script not being in strict mode. -/
inductive Acta where
  | object (fields : List (JSString × JSON))
  | array (items : List JSON) (identificacion : JSON)
  | primitive (v : JSON)
deriving DecidableEq

/-- The assignment `actaJson.identificacion = {...}`; `none` stands for the TypeError raised
when `actaJson` is `null`. -/
def assignIdentificacion (actaJson : JSON) (ident : JSON) : Option Acta :=
  match actaJson with
  | JSON.null => none
  | JSON.obj fields => some (Acta.object (setProp fields (utf16 "identificacion") ident))
  | JSON.arr items => some (Acta.array items ident)
  | v => some (Acta.primitive v)

/-- The value that `JSON.stringify(actaJson)` writes: the properties of an array other than
its elements are not serialized. -/
def Acta.stored : Acta → JSON
  | Acta.object fields => JSON.obj fields
  | Acta.array items _ => JSON.arr items
  | Acta.primitive v => v

/-- The read `actaJson.identificacion` on the value the promise resolves with. -/
def Acta.identificacion : Acta → Option JSON
  | Acta.object fields => fields.lookup (utf16 "identificacion")
  | Acta.array _ ident => some ident
  | Acta.primitive _ => none

/-- The read `actaJson.tareas_nuevas`. -/
def Acta.tareasNuevas : Acta → Option JSON
  | Acta.object fields => fields.lookup (utf16 "tareas_nuevas")
  | _ => none

/-! ## Effects and task extraction -/

/-- A request sent to the completion service or to the storage engine. -/
inductive Effect where
  /-- The chat completion of `improveSpeakersWithLLM`. -/
  | refinementCall
  /-- The chat completion that asks for the minutes. -/
  | synthesisCall
  /-- `UPDATE transcriptions SET speaker = ?, text = ? WHERE id = ?`. -/
  | updateSegment (id : Nat) (speaker : Speaker) (text : JSString)
  /-- `INSERT OR REPLACE INTO actas`, with the value whose serialization is stored. -/
  | upsertActa (acta : JSON)
  /-- `DELETE FROM tareas WHERE meeting_id = ?`. -/
  | deleteTareas
  /-- `INSERT INTO tareas`, of type `nueva` and state `pendiente`. -/
  | insertTarea (tarea_id : JSString) (descripcion : JSString) (responsable : JSString)
      (fecha_compromiso : JSON)
deriving DecidableEq

/-- The expression `(v || '').trim()`; `none` stands for the TypeError raised when `v` is
truthy and not a string, which then has no method `trim`. -/
def orEmptyTrim (v : Option JSON) : Option JSString :=
  if truthy v then
    match v with
    | some (JSON.str str) => some (trim str)
    | _ => none
  else some []

/-- The callback of `tareas_nuevas.filter`: `t.descripcion && t.descripcion.trim().length > 0`;
`none` stands for a TypeError (`t` is `null`, or the description is truthy and not a string). -/
def hasDescripcion (t : JSON) : Option Bool :=
  match t with
  | JSON.null => none
  | _ =>
    if truthy (t.get (utf16 "descripcion")) then
      match t.get (utf16 "descripcion") with
      | some (JSON.str str) => some (decide ((trim str).length > 0))
      | _ => none
    else some false

/-- The call `actaJson.tareas_nuevas.filter(...)`: the elements are visited in order. -/
def filterTareas : List JSON → Option (List JSON)
  | [] => some []
  | t :: ts =>
    match hasDescripcion t with
    | none => none
    | some keep =>
      match filterTareas ts with
      | none => none
      | some rest => some (if keep then t :: rest else rest)

/-- The value of `descNorm` for an entry: `(tarea.descripcion || '').trim().toLowerCase()`. -/
def descNorm (lower : JSString → JSString) (tarea : JSON) : Option JSString :=
  (orEmptyTrim (tarea.get (utf16 "descripcion"))).map lower

/-- The loop `for (const tarea of tareasToProcess)`, with the content of `seenDescriptions`
as it stands; the value is what the loop pushes onto `uniqueTareas`. -/
def uniqueLoop (lower : JSString → JSString) :
    List JSON → List JSString → Option (List JSON)
  | [], _ => some []
  | tarea :: rest, seen =>
    match descNorm lower tarea with
    | none => none
    | some d =>
      if !seen.contains d && decide (d.length > 5) then
        match uniqueLoop lower rest (d :: seen) with
        | some kept => some (tarea :: kept)
        | none => none
      else uniqueLoop lower rest seen

/-- The template literal of the task id with number `counter`. -/
def tareaId (counter : Nat) : JSString := utf16 "tarea_" ++ natToString counter

/-- The callback of `uniqueTareas.forEach`, from the entry at hand on, with `counter` as it
stands. `fallback` is the value of `addBusinessDays(meta.fecha || today, 3)`, `none` if that
call throws. The result is the list of inserts issued and whether an exception stopped the
loop. -/
def insertLoop (fallback : Option JSString) : List JSON → Nat → List Effect × Bool
  | [], _ => ([], false)
  | tarea :: rest, counter =>
    let fecha : Option JSON :=
      if truthy (tarea.get (utf16 "fecha_compromiso")) then tarea.get (utf16 "fecha_compromiso")
      else fallback.map JSON.str
    match fecha, orEmptyTrim (tarea.get (utf16 "descripcion")),
        orEmptyTrim (tarea.get (utf16 "responsable")) with
    | some f, some d, some r =>
      (Effect.insertTarea (tareaId counter) d r f :: (insertLoop fallback rest (counter + 1)).1,
        (insertLoop fallback rest (counter + 1)).2)
    | _, _, _ => ([], true)

/-- The body of the callback of `DELETE FROM tareas` (lines 419-452) for the new-tasks value
`tareasNuevas` (`none` when the property is missing): the inserts issued and whether an
exception escaped the callback. -/
def extractTareas (lower : JSString → JSString) (fallback : Option JSString)
    (tareasNuevas : Option JSON) : List Effect × Bool :=
  match tareasNuevas with
  | some (JSON.arr items) =>
    if items.length > 0 then
      match filterTareas items with
      | none => ([], true)
      | some tareasToProcess =>
        match uniqueLoop lower tareasToProcess [] with
        | none => ([], true)
        | some uniqueTareas => insertLoop fallback uniqueTareas 1
    else ([], false)
  | _ => ([], false)

/-! ## The regeneration `generateActaIfReady` -/

/-- How the promise returned by `generateActaIfReady` ends. -/
inductive Outcome where
  /-- The call `resolve(null)` (`none`) or `resolve(actaJson)`. -/
  | resolved (acta : Option Acta)
  /-- The call `reject(...)`. -/
  | rejected
  /-- An exception left the `async` callback outside its `try`: the promise stays pending. -/
  | pending
deriving DecidableEq

/-- What the environment answers during one call of `generateActaIfReady`. -/
structure World where
  /-- The time zone of the server. -/
  zone : Zone
  /-- The time value of `new Date()` during the call. -/
  now : Int
  /-- `GROQ_API_KEY` is set. -/
  configured : Bool
  /-- The answer of `db.get` on `meetings`: `none` an error, `some none` no row. -/
  meeting : Option (Option MeetingRow)
  /-- The answer of `db.all` on `transcriptions`: `none` an error. -/
  transcriptions : Option (List Segment)
  /-- What the refinement completion does, if it is called. -/
  refinement : Completion
  /-- What the synthesis completion does, if it is called. -/
  synthesis : Completion
  /-- `INSERT OR REPLACE INTO actas` reports an error. -/
  upsertFails : Bool

/-- The outcome of a call and the requests it issued, in order; `uncaught` says that an
exception escaped the callback of `DELETE FROM tareas`. -/
structure Run where
  outcome : Outcome
  effects : List Effect
  uncaught : Bool
deriving DecidableEq

/-- The loop of lines 279-285: one update per position whose stored row has a truthy id and
whose speaker or text differs from the refined one. -/
def segmentUpdates : List Segment → List Segment → List Effect
  | imp :: improved, orig :: transcriptions =>
    if orig.id != 0 && (imp.speaker != orig.speaker || imp.text != orig.text) then
      Effect.updateSegment orig.id imp.speaker imp.text :: segmentUpdates improved transcriptions
    else segmentUpdates improved transcriptions
  | _, _ => []

/-- The value of `fechaHoy`: `meta.fecha || today`. -/
def fechaHoy (w : World) (ident : Identificacion) : JSString :=
  if ident.fecha.isEmpty then isoDate w.now else ident.fecha

/-- The function `generateActaIfReady(meetingId)` in the world `w`. The texts of the two
prompts are not part of the embedding: the answers of the completion service are inputs. -/
def generateActaIfReady (lower : JSString → JSString) (w : World) : Run :=
  match w.meeting with
  | none => ⟨Outcome.rejected, [], false⟩
  | some none => ⟨Outcome.rejected, [], false⟩
  | some (some meeting) =>
    match w.transcriptions with
    | none => ⟨Outcome.rejected, [], false⟩
    | some transcriptions =>
      if transcriptions.length == 0 then ⟨Outcome.resolved none, [], false⟩
      else
        let improved := improveSpeakersWithLLM w.configured w.refinement transcriptions
        let e1 := (if w.configured then [Effect.refinementCall] else []) ++
          segmentUpdates improved transcriptions
        let today := isoDate w.now
        match buildMeta w.zone meeting with
        | none => ⟨Outcome.pending, e1, false⟩
        | some ident =>
          match addBusinessDays w.zone (fechaHoy w ident) 3 with
          | none => ⟨Outcome.pending, e1, false⟩
          | some _ =>
            if !w.configured then ⟨Outcome.resolved none, e1, false⟩
            else
              match w.synthesis with
              | Completion.throws => ⟨Outcome.resolved none, e1 ++ [Effect.synthesisCall], false⟩
              | Completion.returns none =>
                ⟨Outcome.resolved none, e1 ++ [Effect.synthesisCall], false⟩
              | Completion.returns (some content) =>
                if content.isEmpty then
                  ⟨Outcome.resolved none, e1 ++ [Effect.synthesisCall], false⟩
                else
                  match assignIdentificacion (repair today content) ident.toJSON with
                  | none => ⟨Outcome.resolved none, e1 ++ [Effect.synthesisCall], false⟩
                  | some acta =>
                    if w.upsertFails then
                      ⟨Outcome.rejected,
                        e1 ++ [Effect.synthesisCall, Effect.upsertActa acta.stored], false⟩
                    else
                      let tareas := extractTareas lower
                        (addBusinessDays w.zone (fechaHoy w ident) 3) acta.tareasNuevas
                      ⟨Outcome.resolved (some acta),
                        e1 ++ [Effect.synthesisCall, Effect.upsertActa acta.stored,
                          Effect.deleteTareas] ++ tareas.1,
                        tareas.2⟩

/-! ## Sample inputs and auxiliary notions -/

/-- `toLowerCase` on code units below 128. -/
def asciiLower (s : JSString) : JSString :=
  s.map (fun c => if 65 ≤ c ∧ c ≤ 90 then c + 32 else c)

/-- A meeting started on 2024-01-05 at 10:00 UTC, with one stored segment. -/
def sampleWorld (content : JSString) : World :=
  { zone := Zone.fixed 0
    now := 1704448800000
    configured := true
    meeting := some (some
      { cliente := some (utf16 "ACME"), proyecto := none, responsable := none,
        participantes := some (utf16 "[\"Ana\"]"),
        started_at := some (utf16 "2024-01-05T10:00:00.000Z"), ended_at := none })
    transcriptions := some [⟨1, utf16 "hola", Speaker.str (utf16 "speaker1"), 0⟩]
    refinement := Completion.throws
    synthesis := Completion.returns (some content)
    upsertFails := false }

/-- The conditions under which a call reaches the repair of the completion text `content`:
the meeting exists, `ts` are its segments and there is one at least, `meta` is built, the
completion service is configured and the synthesis call returns the non-empty `content`. -/
def ReachesRepair (w : World) (meeting : MeetingRow) (ts : List Segment)
    (ident : Identificacion) (content : JSString) : Prop :=
  w.meeting = some (some meeting) ∧ w.transcriptions = some ts ∧ (ts.length == 0) = false ∧
  buildMeta w.zone meeting = some ident ∧ (addBusinessDays w.zone (fechaHoy w ident) 3).isSome ∧
  w.configured = true ∧ w.synthesis = Completion.returns (some content) ∧
  content.isEmpty = false

/-- The conditions under which a call reaches `INSERT OR REPLACE INTO actas` with the value
`acta` and the statement succeeds. -/
def StoresActa (w : World) (meeting : MeetingRow) (ts : List Segment) (ident : Identificacion)
    (content : JSString) (acta : Acta) : Prop :=
  ReachesRepair w meeting ts ident content ∧
  assignIdentificacion (repair (isoDate w.now) content) ident.toJSON = some acta ∧
  w.upsertFails = false

/-- A completion text that names another client. -/
def sampleContent : JSString :=
  utf16 "\x7b\"identificacion\": \x7b\"cliente\": \"Otro\"\x7d, \"resumen_reunion\": \"ok\"\x7d"

/-- The canonical identification of the meeting of `sampleWorld`. -/
def sampleIdent : Identificacion :=
  { cliente := utf16 "ACME", proyecto := [], responsable := [],
    participantes := [JSON.str (utf16 "Ana")], fecha := utf16 "2024-01-05",
    hora_inicio := utf16 "10:00", hora_fin := [] }

/-- The text of a document object of the full shape asked for, with the summary `resumen`
(a text without quotes or backslashes). -/
def actaText (resumen : String) : JSString :=
  utf16 ("\x7b\"identificacion\": \x7b\"cliente\": \"ACME\"\x7d, \"tareas_anteriores\": [], " ++
    "\"tareas_nuevas\": [], \"resumen_reunion\": \"" ++ resumen ++
    "\", \"observaciones_generales\": \"\"\x7d")

/-- The value that `JSON.parse` gives for `actaText resumen`. -/
def actaValue (resumen : String) : JSON :=
  JSON.obj
    [(utf16 "identificacion", JSON.obj [(utf16 "cliente", JSON.str (utf16 "ACME"))]),
     (utf16 "tareas_anteriores", JSON.arr []),
     (utf16 "tareas_nuevas", JSON.arr []),
     (utf16 "resumen_reunion", JSON.str (utf16 resumen)),
     (utf16 "observaciones_generales", JSON.str [])]

/-! ## Task entries of the shape the prompt asks for, and the rule of the specification -/

/-- An entry of `tareas_nuevas` of the shape the prompt asks for: an object whose `id`,
`descripcion`, `responsable` and `fecha_compromiso`, when present, are strings. -/
structure TareaEntry where
  id : Option JSString
  descripcion : Option JSString
  responsable : Option JSString
  fecha_compromiso : Option JSString
deriving DecidableEq

/-- A property that is present when its value is. -/
def optField (key : JSString) (v : Option JSString) : List (JSString × JSON) :=
  match v with
  | some str => [(key, JSON.str str)]
  | none => []

/-- The parsed object of an entry. -/
def TareaEntry.toJSON (t : TareaEntry) : JSON :=
  JSON.obj (optField (utf16 "id") t.id ++ optField (utf16 "descripcion") t.descripcion ++
    optField (utf16 "responsable") t.responsable ++
    optField (utf16 "fecha_compromiso") t.fecha_compromiso)

/-- Specification, 4.7: the description of an entry, trimmed; it is empty exactly when the
description is missing, empty or made of whitespace only. -/
def TareaEntry.trimmed (t : TareaEntry) : JSString := trim (t.descripcion.getD [])

/-- Specification, 4.7: the normalized form of a description, trimmed and lower-cased. -/
def TareaEntry.normalized (lower : JSString → JSString) (t : TareaEntry) : JSString :=
  lower t.trimmed

/-- Specification, 4.7, as a function: going through the list in order, an entry is kept if
and only if its description is not empty or whitespace-only, its normalized form has more than
5 code units, and no entry kept before it (`before`) has the same normalized form. -/
def keptBySpec (lower : JSString → JSString) :
    List TareaEntry → List TareaEntry → List TareaEntry
  | [], _ => []
  | t :: rest, before =>
    if t.trimmed ≠ [] ∧ (t.normalized lower).length > 5 ∧
        ∀ u ∈ before, u.normalized lower ≠ t.normalized lower then
      t :: keptBySpec lower rest (before ++ [t])
    else keptBySpec lower rest before

/-- The inserts of a list of kept entries, numbered from `counter`: the description and the
owner trimmed, the due date of the entry when it has a non-empty one and `fallback`
otherwise. -/
def insertsFor (fallback : JSString) : List TareaEntry → Nat → List Effect
  | [], _ => []
  | t :: rest, counter =>
    Effect.insertTarea (tareaId counter) t.trimmed (trim (t.responsable.getD []))
      (JSON.str (if (t.fecha_compromiso.getD []).isEmpty then fallback
        else t.fecha_compromiso.getD [])) :: insertsFor fallback rest (counter + 1)

/-- Whether a request is an `INSERT INTO tareas`. -/
def Effect.isInsertTarea : Effect → Bool
  | Effect.insertTarea _ _ _ _ => true
  | _ => false

/-- The task ids of the inserts among a list of requests. -/
def tareaIds : List Effect → List JSString
  | [] => []
  | Effect.insertTarea i _ _ _ :: rest => i :: tareaIds rest
  | _ :: rest => tareaIds rest

/-- The descriptions of the inserts among a list of requests. -/
def tareaDescripciones : List Effect → List JSString
  | [] => []
  | Effect.insertTarea _ d _ _ :: rest => d :: tareaDescripciones rest
  | _ :: rest => tareaDescripciones rest

/-- The length of the new-tasks list of a document, 0 when it has none. -/
def Acta.newTasksLength (acta : Acta) : Nat :=
  match acta.tareasNuevas with
  | some (JSON.arr items) => items.length
  | _ => 0

/-- A completion text whose new-tasks list has eleven entries with distinct descriptions. -/
def elevenTasks : JSString :=
  utf16 ("\x7b\"tareas_nuevas\": [" ++
    "\x7b\"descripcion\": \"Tarea numero 01\"\x7d, \x7b\"descripcion\": \"Tarea numero 02\"\x7d, " ++
    "\x7b\"descripcion\": \"Tarea numero 03\"\x7d, \x7b\"descripcion\": \"Tarea numero 04\"\x7d, " ++
    "\x7b\"descripcion\": \"Tarea numero 05\"\x7d, \x7b\"descripcion\": \"Tarea numero 06\"\x7d, " ++
    "\x7b\"descripcion\": \"Tarea numero 07\"\x7d, \x7b\"descripcion\": \"Tarea numero 08\"\x7d, " ++
    "\x7b\"descripcion\": \"Tarea numero 09\"\x7d, \x7b\"descripcion\": \"Tarea numero 10\"\x7d, " ++
    "\x7b\"descripcion\": \"Tarea numero 11\"\x7d]\x7d")

/-- The new-tasks list with the descriptions `Fix bug`, `  fix BUG ` and `Ship release`. -/
def threeTasks : List TareaEntry :=
  [{ id := none, descripcion := some (utf16 "Fix bug"), responsable := none,
     fecha_compromiso := none },
   { id := none, descripcion := some (utf16 "  fix BUG "), responsable := none,
     fecha_compromiso := none },
   { id := none, descripcion := some (utf16 "Ship release"), responsable := none,
     fecha_compromiso := none }]

/-- The entry without the `id` the model proposed. -/
def TareaEntry.eraseId (t : TareaEntry) : TareaEntry := { t with id := none }

/-- The due dates of the inserts among a list of requests. -/
def tareaFechas : List Effect → List JSON
  | [] => []
  | Effect.insertTarea _ _ _ f :: rest => f :: tareaFechas rest
  | _ :: rest => tareaFechas rest

/-- Specification, 4.7: the due date persisted for a kept entry. A due date that the entry
supplies (a non-empty string) is kept as it is; otherwise the date is `computed`. -/
def TareaEntry.dueDate (computed : JSString) (t : TareaEntry) : JSON :=
  match t.fecha_compromiso with
  | some f => if f.isEmpty then JSON.str computed else JSON.str f
  | none => JSON.str computed

/-- A completion text with two new tasks, the first with a due date, the second without. -/
def twoTasks : JSString :=
  utf16 ("\x7b\"tareas_nuevas\": [" ++
    "\x7b\"id\": \"T-9\", \"descripcion\": \"Enviar contrato\", " ++
    "\"fecha_compromiso\": \"2024-02-01\"\x7d, " ++
    "\x7b\"descripcion\": \"Revisar planos\", \"responsable\": \"Ana\"\x7d]\x7d")

/-- The entries of the new-tasks list of `twoTasks`. -/
def twoTaskEntries : List TareaEntry :=
  [{ id := some (utf16 "T-9"), descripcion := some (utf16 "Enviar contrato"),
     responsable := none, fecha_compromiso := some (utf16 "2024-02-01") },
   { id := none, descripcion := some (utf16 "Revisar planos"),
     responsable := some (utf16 "Ana"), fecha_compromiso := none }]

/-- The weekday (0 is Sunday) of the date that `toISOString()` writes for a time value. -/
def utcWeekday (t : Int) : Int := (t / msPerDay + 4) % 7

/-- Specification, 4.8: whether the date of a time value falls Monday to Friday. -/
def isBusinessDay (t : Int) : Bool := utcWeekday t != 0 && utcWeekday t != 6

/-- Specification, 4.8: the number of days that fall Monday to Friday among the `k` days that
follow the date of `t`, that is strictly after it and up to and including the `k`-th. -/
def businessDaysAfter (t : Int) : Nat → Nat
  | 0 => 0
  | k + 1 => (if isBusinessDay (t + msPerDay) then 1 else 0) + businessDaysAfter (t + msPerDay) k

/-- The value of `lines` in `improveSpeakersWithLLM`: the non-empty lines of the content. -/
def responseLines (content : JSString) : List JSString :=
  (split 10 content).filter (fun l => !l.isEmpty)

/-- Three stored segments of one chunk. -/
def threeSegments : List Segment :=
  [⟨1, utf16 "buenos dias", Speaker.str (utf16 "speaker1"), 0⟩,
   ⟨2, utf16 "hola a todos", Speaker.str (utf16 "speaker1"), 0⟩,
   ⟨3, utf16 "empezamos", Speaker.str (utf16 "speaker1"), 0⟩]

/-- Whether a request is an `UPDATE transcriptions`. -/
def Effect.isUpdateSegment : Effect → Bool
  | Effect.updateSegment _ _ _ => true
  | _ => false

/-- Specification, 4.3, as a function: going through the positions in order, the segment at a
position is updated in place, by its row id, if and only if the refined speaker or the refined
text differs from the stored one. -/
def updatesBySpec : List Segment → List Segment → List Effect
  | imp :: improved, orig :: stored =>
    if imp.speaker ≠ orig.speaker ∨ imp.text ≠ orig.text then
      Effect.updateSegment orig.id imp.speaker imp.text :: updatesBySpec improved stored
    else updatesBySpec improved stored
  | _, _ => []

/-! ## Segment ingestion: `processChunkWithWhisper` -/

/-- A segment of the verbose transcription: the provider's speaker tag under `spk` or
`speaker`, and the text; `none` is a missing property. -/
structure AsrSegment where
  spk : Option JSString
  speaker : Option JSString
  text : Option JSString
deriving DecidableEq

/-- What the awaited transcription call does: it throws an error that the `catch` takes for
a quota error (`code` is `insufficient_quota` or `status` is 429), it throws another error, or
it returns a response with its `segments` (`none` when the property is no array) and its
`text`. -/
inductive Transcription where
  | throwsQuota
  | throwsOther
  | returns (segments : Option (List AsrSegment)) (text : Option JSString)
deriving DecidableEq

/-- A request issued by `processChunkWithWhisper`. -/
inductive ChunkEffect where
  /-- The transcription call. -/
  | transcriptionCall
  /-- `INSERT INTO transcriptions` for the chunk. -/
  | insertSegment (speaker : Speaker) (text : JSString)
  /-- `UPDATE chunks SET processed = ?`: 1 processed, 2 skipped for want of quota, -1 failed. -/
  | markChunk (processed : Int)
  /-- A request of the awaited `generateActaIfReady`. -/
  | regeneration (e : Effect)
deriving DecidableEq

/-- How a call of `processChunkWithWhisper` ends: it returns the transcription (`true`) or
`null` (`false`), or it awaits for ever a regeneration whose promise stays pending. -/
inductive ChunkOutcome where
  | returned (transcription : Bool)
  | hangs
deriving DecidableEq

/-- The outcome of an ingestion and the requests it issued, in order. -/
structure ChunkRun where
  outcome : ChunkOutcome
  effects : List ChunkEffect
deriving DecidableEq

/-- The expression `segment.spk || segment.speaker || 'speaker'`. -/
def speakerKey (segment : AsrSegment) : JSString :=
  if !(orEmpty segment.spk).isEmpty then orEmpty segment.spk
  else if !(orEmpty segment.speaker).isEmpty then orEmpty segment.speaker
  else utf16 "speaker"

/-- The template literal of the token with number `k` given at ingestion. -/
def ingestToken (k : Nat) : JSString := utf16 "speaker" ++ natToString k

/-- The loop `for (const segment of segments)` of lines 134-151, with `speakerMap` and
`speakerCounter` as they stand: one insert per segment. -/
def ingestLoop : List AsrSegment → List (JSString × JSString) → Nat → List ChunkEffect
  | [], _, _ => []
  | segment :: rest, m, k =>
    match speakerMapGet m (speakerKey segment) with
    | some sp => ChunkEffect.insertSegment sp (orEmpty segment.text) :: ingestLoop rest m k
    | none =>
      ChunkEffect.insertSegment (Speaker.str (ingestToken k)) (orEmpty segment.text) ::
        ingestLoop rest ((speakerKey segment, ingestToken k) :: m) (k + 1)

/-- The inserts of lines 126-163 for a response. -/
def ingestResponse (segments : Option (List AsrSegment)) (text : Option JSString) :
    List ChunkEffect :=
  if (segments.getD []).length > 0 then ingestLoop (segments.getD []) [] 1
  else if !(orEmpty text).isEmpty then
    [ChunkEffect.insertSegment (Speaker.str (utf16 "speaker1")) (orEmpty text)]
  else []

/-- The function `processChunkWithWhisper` for one chunk: `asr` is what the transcription
call does, `w` what the environment answers to the regeneration it awaits. An error with which
the regeneration rejects is no quota error. -/
def processChunkWithWhisper (lower : JSString → JSString) (w : World) (asr : Transcription) :
    ChunkRun :=
  if !w.configured then ⟨ChunkOutcome.returned false, [ChunkEffect.markChunk 2]⟩
  else
    match asr with
    | Transcription.throwsQuota =>
      ⟨ChunkOutcome.returned false, [ChunkEffect.transcriptionCall, ChunkEffect.markChunk 2]⟩
    | Transcription.throwsOther =>
      ⟨ChunkOutcome.returned false, [ChunkEffect.transcriptionCall, ChunkEffect.markChunk (-1)]⟩
    | Transcription.returns segments text =>
      let issued := [ChunkEffect.transcriptionCall] ++ ingestResponse segments text ++
        [ChunkEffect.markChunk 1] ++
        (generateActaIfReady lower w).effects.map ChunkEffect.regeneration
      match (generateActaIfReady lower w).outcome with
      | Outcome.resolved _ => ⟨ChunkOutcome.returned true, issued⟩
      | Outcome.rejected => ⟨ChunkOutcome.returned false, issued ++ [ChunkEffect.markChunk (-1)]⟩
      | Outcome.pending => ⟨ChunkOutcome.hangs, issued⟩

/-- The state in which a run leaves the chunk: the value of the last `UPDATE chunks`. -/
def finalMark : List ChunkEffect → Option Int
  | [] => none
  | ChunkEffect.markChunk p :: rest =>
    match finalMark rest with
    | some q => some q
    | none => some p
  | _ :: rest => finalMark rest

/-- The speakers and texts of the segments inserted for the chunk. -/
def insertedSegments : List ChunkEffect → List (Speaker × JSString)
  | [] => []
  | ChunkEffect.insertSegment sp text :: rest => (sp, text) :: insertedSegments rest
  | _ :: rest => insertedSegments rest

/-! ## Notions used by the properties of ingestion and of the regeneration -/

/-- Whether a segment of the response carries no speaker tag: `spk` and `speaker` are both
missing or empty. -/
def AsrSegment.untagged (s : AsrSegment) : Bool :=
  (orEmpty s.spk).isEmpty && (orEmpty s.speaker).isEmpty

/-- Whether a request writes to the stored document (`actas`) or to the stored tasks
(`tareas`) of the meeting. -/
def Effect.writesDocument : Effect → Bool
  | Effect.upsertActa _ => true
  | Effect.deleteTareas => true
  | Effect.insertTarea _ _ _ _ => true
  | _ => false

/-- A row of `tareas` of the meeting at hand, in the columns that the regeneration sets to
other than a constant (`tipo` is `nueva` and `estado` is `pendiente` throughout). -/
structure TareaRow where
  tarea_id : JSString
  descripcion : JSString
  responsable : JSString
  fecha_compromiso : JSON
deriving DecidableEq

/-- What the execution of one statement by the storage engine does to the rows of `tareas` of
the meeting. `deleteFails` says that `DELETE FROM tareas` ends in an error, which leaves the
rows as they are; the callback of line 418 takes no error argument and runs all the same. -/
def applyTareas (deleteFails : Bool) (rows : List TareaRow) : Effect → List TareaRow
  | Effect.deleteTareas => if deleteFails then rows else []
  | Effect.insertTarea i d r f => rows ++ [⟨i, d, r, f⟩]
  | _ => rows

/-- The rows of `tareas` of the meeting once the statements `executed` have run on the rows
`before`, one after another in the order of the list. The list is an order of execution, not
of issue: after start-up the database is in its parallel mode, where the statements of calls
that overlap interleave and statements issued without waiting for one another may run in
another order than they were issued. -/
def tareasAfter (deleteFails : Bool) (before : List TareaRow) (executed : List Effect) :
    List TareaRow :=
  executed.foldl (applyTareas deleteFails) before

/-- The rows that a list of requests inserts into `tareas`. -/
def insertedRows : List Effect → List TareaRow
  | [] => []
  | Effect.insertTarea i d r f :: rest => ⟨i, d, r, f⟩ :: insertedRows rest
  | _ :: rest => insertedRows rest

/-! ## Lines of the nested form -/

/-- A line of the nested form: `[idx]:`, the white space `ws`, `[label]:` and the `rest` of
the line. -/
def nestedLine (idx ws label rest : JSString) : JSString :=
  [91] ++ idx ++ [93, 58] ++ ws ++ [91] ++ label ++ [93, 58] ++ rest

/-- The parts of a nested-form line are what the pattern asks for: `idx` is a run of digits and
`label` a run of code units other than `]`, neither empty, `ws` is white space, and `rest`,
after its leading white space, holds no line terminator. -/
def NestedParts (idx ws label rest : JSString) : Prop :=
  idx ≠ [] ∧ idx.all isDigit = true ∧ ws.all isSpace = true ∧ label ≠ [] ∧
  label.all (fun c => c != 93) = true ∧ (rest.dropWhile isSpace).any isLineTerminator = false

/-- Two lines that differ at most in the index of the nested form. -/
inductive SameButIndex : JSString → JSString → Prop where
  | same (line : JSString) : SameButIndex line line
  | nested (i j ws label rest : JSString) (hi : NestedParts i ws label rest)
      (hj : NestedParts j ws label rest) :
      SameButIndex (nestedLine i ws label rest) (nestedLine j ws label rest)

/-! ## Calls of `generateActaIfReady` that overlap -/

/-- The operation that a call of `generateActaIfReady` is waiting for, for a call that goes
through all of them: `db.get` on `meetings` (line 263), `db.all` on `transcriptions`
(line 267), the refinement (line 278), the synthesis completion (line 347), the upsert of the
document (line 410); at last the promise is settled. -/
inductive Stage where
  | meetingLookup
  | segmentRead
  | refinement
  | synthesis
  | upsert
  | settled
deriving DecidableEq, Repr

/-- The stage a call enters when the operation it is waiting for completes. -/
def Stage.next : Stage → Stage
  | Stage.meetingLookup => Stage.segmentRead
  | Stage.segmentRead => Stage.refinement
  | Stage.refinement => Stage.synthesis
  | Stage.synthesis => Stage.upsert
  | Stage.upsert => Stage.settled
  | Stage.settled => Stage.settled

/-- What happens on the server for one meeting: `trigger`, the statement
`await generateActaIfReady(meetingId)` is reached (line 170, after a chunk has been stored, or
line 680); `completes i`, the operation awaited by the `i`-th call made so far completes. -/
inductive ServerEvent where
  | trigger
  | completes (call : Nat)
deriving DecidableEq, Repr

/-- The call at position `i` moves to its next stage. -/
def advance : Nat → List Stage → List Stage
  | _, [] => []
  | 0, s :: rest => s.next :: rest
  | i + 1, s :: rest => s :: advance i rest

/-- One event, on the calls made so far for the meeting, each with its stage. A trigger
starts a call at once: `generateActaIfReady` begins with `db.get`, it consults no record of
the calls that are running, and the module keeps none. -/
def serverStep (calls : List Stage) : ServerEvent → List Stage
  | ServerEvent.trigger => calls ++ [Stage.meetingLookup]
  | ServerEvent.completes i => advance i calls

/-- The calls and their stages after a sequence of events, from a server that has made no
call for the meeting. -/
def runServer (events : List ServerEvent) : List Stage :=
  events.foldl serverStep []

/-- The number of synthesis completions of the meeting that are in flight. -/
def synthesesInFlight (calls : List Stage) : Nat :=
  calls.count Stage.synthesis

/-- The number of calls that have been started and are not settled. -/
def regenerationsInFlight (calls : List Stage) : Nat :=
  (calls.filter (fun s => s != Stage.settled)).length

/-- The events of one trigger whose call reaches the synthesis completion, `i` calls having
been made before. -/
def triggerToSynthesis (i : Nat) : List ServerEvent :=
  [ServerEvent.trigger, ServerEvent.completes i, ServerEvent.completes i,
    ServerEvent.completes i]

/-- The events of `n` triggers in a row, each call reaching the synthesis completion while
those before it are still waiting for theirs. -/
def overlapping : Nat → List ServerEvent
  | 0 => []
  | n + 1 => overlapping n ++ triggerToSynthesis n

/-- A completion text whose summary names an address and which ends in a block comment. -/
def commentedContent : JSString :=
  utf16 ("\x7b\"resumen_reunion\": \"ver http://acme.test\", " ++
    "\"tareas_nuevas\": [] /* sin tareas */\x7d")

/-- The text `commentedContent` without its comment. -/
def uncommentedContent : JSString :=
  utf16 ("\x7b\"resumen_reunion\": \"ver http://acme.test\", " ++
    "\"tareas_nuevas\": [] \x7d")

/-! ## `JSON.stringify` -/

/-- A lowercase hexadecimal digit. -/
def hexDigit (n : Nat) : Nat := if n < 10 then 48 + n else 87 + n

/-- The escape `\uXXXX` of a code unit, as UnicodeEscape writes it: four lowercase hexadecimal
digits. -/
def unicodeEscape (c : Nat) : JSString :=
  [92, 117, hexDigit (c / 4096 % 16), hexDigit (c / 256 % 16), hexDigit (c / 16 % 16),
    hexDigit (c % 16)]

/-- What QuoteJSONString writes for a code unit that is no surrogate: the short escapes of
backspace, tab, line feed, form feed, carriage return, the quote and the backslash, `\uXXXX`
for the other code units below 32, the code unit itself otherwise. -/
def quoteUnit (c : Nat) : JSString :=
  if c = 8 then [92, 98]
  else if c = 9 then [92, 116]
  else if c = 10 then [92, 110]
  else if c = 12 then [92, 102]
  else if c = 13 then [92, 114]
  else if c = 34 then [92, 34]
  else if c = 92 then [92, 92]
  else if c < 32 then unicodeEscape c
  else [c]

/-- The characters that QuoteJSONString writes between the quotes. The string is read by code
points: a leading surrogate followed by a trailing one is written as it is, a surrogate that
stands alone is escaped. -/
def quoteBody : JSString → JSString
  | [] => []
  | [c] => if 55296 ≤ c ∧ c ≤ 57343 then unicodeEscape c else quoteUnit c
  | c :: d :: r =>
    if 55296 ≤ c ∧ c ≤ 56319 then
      if 56320 ≤ d ∧ d ≤ 57343 then c :: d :: quoteBody r
      else unicodeEscape c ++ quoteBody (d :: r)
    else if 56320 ≤ c ∧ c ≤ 57343 then unicodeEscape c ++ quoteBody (d :: r)
    else quoteUnit c ++ quoteBody (d :: r)

/-- The operation QuoteJSONString. -/
def quote (s : JSString) : JSString := [34] ++ quoteBody s ++ [34]

/-- Whether a property name is an array index: the canonical decimal text of an integer from
0 to `2^32 - 2`. -/
def isArrayIndex (k : JSString) : Bool :=
  !k.isEmpty && k.all isDigit && (k.length == 1 || k.head? != some 48) &&
    decide (digitsToNat k < 4294967295)

/-- The order in which the own properties of an object are enumerated (OrdinaryOwnPropertyKeys):
the array indices in ascending order, then the other names in the order of their creation. The
list given holds the properties in the order of their creation. -/
def propertyOrder {α : Type} (fields : List (JSString × α)) : List (JSString × α) :=
  (fields.filter (fun p => isArrayIndex p.1)).insertionSort
      (fun a b => digitsToNat a.1 ≤ digitsToNat b.1) ++
    fields.filter (fun p => !isArrayIndex p.1)

/-- The texts `a,b,c` of a list of texts. -/
def joinComma : List JSString → JSString
  | [] => []
  | [a] => a
  | a :: b :: rest => a ++ [44] ++ joinComma (b :: rest)

/-- The text of a member of an object: the quoted name, a colon and the text of the value. -/
def memberText (m : JSString × JSString) : JSString := quote m.1 ++ [58] ++ m.2

mutual

/-- Whether every number of a value satisfies `pNum` and the list of property names of every
object in it satisfies `pKeys`. -/
def JSON.every (pNum : JNumber → Bool) (pKeys : List JSString → Bool) : JSON → Bool
  | JSON.null => true
  | JSON.bool _ => true
  | JSON.num n => pNum n
  | JSON.str _ => true
  | JSON.arr items => JSON.everyItem pNum pKeys items
  | JSON.obj fields => pKeys (fields.map Prod.fst) && JSON.everyField pNum pKeys fields

/-- The elements of an array all satisfy `JSON.every`. -/
def JSON.everyItem (pNum : JNumber → Bool) (pKeys : List JSString → Bool) : List JSON → Bool
  | [] => true
  | v :: rest => JSON.every pNum pKeys v && JSON.everyItem pNum pKeys rest

/-- The values of the properties of an object all satisfy `JSON.every`. -/
def JSON.everyField (pNum : JNumber → Bool) (pKeys : List JSString → Bool) :
    List (JSString × JSON) → Bool
  | [] => true
  | (_, v) :: rest => JSON.every pNum pKeys v && JSON.everyField pNum pKeys rest

end

/-- No object of the value has two properties of one name, as holds of every object. -/
def JSON.keysDistinct (v : JSON) : Bool :=
  v.every (fun _ => true) (fun keys => decide keys.Nodup)

/-- A completion text whose document holds a number beyond the range of the doubles. -/
def overflowContent : JSString :=
  utf16 "\x7b\"resumen_reunion\": \"ok\", \"duracion\": 1e999\x7d"

/-! ## Inputs of the evaluations -/

/-- The zone Europe/Madrid during 2024: UTC+1, and UTC+2 from 2024-03-31 01:00 UTC to
2024-10-27 01:00 UTC. -/
def europeMadrid : Zone :=
  ⟨60, [(1711846800000, 120), (1729990800000, 60)]⟩

/-- A completion text with one new task. -/
def oneTask : JSString :=
  utf16 "\x7b\"tareas_nuevas\": [\x7b\"descripcion\": \"Enviar contrato\"\x7d]\x7d"

/-- A completion text whose new-tasks list holds the task of `oneTask` and then `null`. -/
def nullEntryTasks : JSString :=
  utf16 "\x7b\"tareas_nuevas\": [\x7b\"descripcion\": \"Enviar contrato\"\x7d, null]\x7d"

/-- A completion text with two new tasks, the owner of the second being the number 7. -/
def numericOwnerTasks : JSString :=
  utf16 ("\x7b\"tareas_nuevas\": [\x7b\"descripcion\": \"Enviar contrato\"\x7d, " ++
    "\x7b\"descripcion\": \"Revisar planos\", \"responsable\": 7\x7d]\x7d")

/-- A completion text with one new task that has a due date and the number 7 as owner. -/
def datedNumericOwnerTask : JSString :=
  utf16 ("\x7b\"tareas_nuevas\": [\x7b\"descripcion\": \"Enviar contrato\", " ++
    "\"fecha_compromiso\": \"2024-02-01\", \"responsable\": 7\x7d]\x7d")

/-- The new-tasks list of the document that `repair` yields for a completion text, the empty
list when there is none. -/
def newTasksOf (content : JSString) : List JSON :=
  match (repair (utf16 "2024-01-05") content).get (utf16 "tareas_nuevas") with
  | some (JSON.arr items) => items
  | _ => []

/-! ## Numbers as doubles -/

/-- The least `j' ≥ j` with `n < 2^(2^j')`, found by trying `j`, `j + 1`, ...; the first
argument bounds the number of trials, and `n` trials from 0 are always enough. -/
def logLog : Nat → Nat → Nat → Nat
  | 0, j, _ => j
  | fuel + 1, j, n => if n < 2 ^ 2 ^ j then j else logLog fuel (j + 1) n

/-- The exponent `b` with `2^b ≤ n < 2^(b+1)`, found by bisection, for `n` with
`2^lo ≤ n < 2^(lo + 2^fuel)`. -/
def bisectLog : Nat → Nat → Nat → Nat
  | 0, lo, _ => lo
  | fuel + 1, lo, n =>
    if 2 ^ (lo + 2 ^ fuel) ≤ n then bisectLog fuel (lo + 2 ^ fuel) n else bisectLog fuel lo n

/-- The number of binary digits of `n`: 0 for 0, and `b` when `2^(b-1) ≤ n < 2^b`. -/
def bitLength (n : Nat) : Nat := if n = 0 then 0 else bisectLog (logLog n 0 n) 0 n + 1

/-- The magnitude of a number literal as a fraction of the unit `2^-1074`, the least positive
double: numerator and denominator. -/
def JNumber.ratio (n : JNumber) : Nat × Nat :=
  if 0 ≤ n.exp10 then (n.mantissa * 10 ^ n.exp10.toNat * 2 ^ 1074, 1)
  else (n.mantissa * 2 ^ 1074, 10 ^ (-n.exp10).toNat)

/-- Rounding to the nearest number with 53 significant binary digits, ties to the even one:
the result for the fraction `num / den`, the exponent being unbounded above. With the unit
`2^-1074` the numbers below `2^53` are the subnormal doubles and the least normal ones, all
multiples of the unit; from `2^53` on the spacing is `2^(b-53)` for a number of `b` binary
digits. -/
def roundEven (num den : Nat) : Nat :=
  let unit := 2 ^ (bitLength (num / den) - 53)
  let m := num / den / unit
  let twice := 2 * (num - m * unit * den)
  if unit * den < twice ∨ (twice = unit * den ∧ m % 2 = 1) then (m + 1) * unit else m * unit

/-- The magnitude of the double that a number literal denotes, in units of `2^-1074`, the
exponent being unbounded above. -/
def JNumber.magnitude (n : JNumber) : Nat := roundEven n.ratio.1 n.ratio.2

/-- Whether the number that the literal denotes is rounded to an infinite double: the nearest
number with 53 significant binary digits is `2^1024` or more. This holds from `2^1024 - 2^970`
on, half a unit in the last place above the greatest finite double. -/
def JNumber.overflows (n : JNumber) : Bool := decide (2 ^ 2098 ≤ n.magnitude)

/-- The double that a number literal denotes, as `JSON.parse` makes it: its sign, and its
magnitude in units of `2^-1074`, `none` when it is infinite. Negative zero has the sign and the
magnitude 0. -/
def JNumber.double (n : JNumber) : Bool × Option Nat :=
  (n.neg, if n.overflows then none else some n.magnitude)

/-- Whether a number literal denotes negative zero. -/
def JNumber.isNegativeZero (n : JNumber) : Bool := n.neg && n.magnitude == 0

/-- The digits `s` and the exponent `p` that Number::toString may choose at the exponent `p` for
the double of magnitude `D`: the integers next below and next above `D * 2^-1074 / 10^p`, `s`
being one of them such that `s * 10^p` is rounded to the double. When both are, the nearer one
is taken, the even one if they are equally near. The integer above is written without a final
zero, with the exponent one higher, if it has one. -/
def digitsAt (D : Nat) (p : Int) : Option (Nat × Int) :=
  let num := if p < 0 then D * 10 ^ (-p).toNat else D
  let den := if p < 0 then 2 ^ 1074 else 2 ^ 1074 * 10 ^ p.toNat
  let lo : Nat × Int := (num / den, p)
  let hi : Nat × Int :=
    if (num / den + 1) % 10 = 0 then ((num / den + 1) / 10, p + 1) else (num / den + 1, p)
  let okLo : Bool := lo.1 != 0 && (JNumber.mk false lo.1 lo.2).magnitude == D
  let okHi : Bool := (JNumber.mk false hi.1 hi.2).magnitude == D
  if okLo && okHi then
    (if 2 * (num % den) < den ∨ (2 * (num % den) = den ∧ lo.1 % 2 = 0) then some lo else some hi)
  else if okLo then some lo
  else if okHi then some hi
  else none

/-- The search of Number::toString for the least number of digits: the exponents are tried
from `p` downwards, each one digit more than the one before; the first argument bounds the
number of exponents tried. -/
def shortestFrom (D : Nat) : Nat → Int → Option (Nat × Int)
  | 0, _ => none
  | fuel + 1, p =>
    match digitsAt D p with
    | some r => some r
    | none => shortestFrom D fuel (p - 1)

/-- The exponent of the leading decimal digit of `D * 2^-1074`, for `D` other than 0. -/
def leadingExponent (D : Nat) : Int :=
  if 2 ^ 1074 ≤ D then ((natToString (D / 2 ^ 1074)).length : Int) - 1
  else -((natToString ((2 ^ 1074 - 1) / D)).length : Int)

/-- The integers `s` and `p` of Number::toString for the double of magnitude `D` other than 0:
`s * 10^p` is rounded to the double and `s` has as few digits as possible. (The specification
names them `s` and `n - k`, `k` being the number of digits of `s`.) The search ends at the
exponent -1074 at the latest, where every double is written exactly. -/
def shortestDigits (D : Nat) : Option (Nat × Int) :=
  shortestFrom D ((leadingExponent D + 1074).toNat + 1) (leadingExponent D)

/-- The text that Number::toString writes for the digits `s` and the exponent `p`: with `k`
the number of digits and `n = p + k`, the digits followed by zeros when `k ≤ n ≤ 21`, the
digits with a point when `0 < n ≤ 21`, `0.` and zeros before the digits when `-6 < n ≤ 0`, and
the exponential form otherwise. -/
def digitsText (s : Nat) (p : Int) : JSString :=
  let digits := natToString s
  let n : Int := p + digits.length
  if (digits.length : Int) ≤ n ∧ n ≤ 21 then digits ++ List.replicate p.toNat 48
  else if 0 < n ∧ n ≤ 21 then digits.take n.toNat ++ [46] ++ digits.drop n.toNat
  else if -6 < n ∧ n ≤ 0 then [48, 46] ++ List.replicate (-n).toNat 48 ++ digits
  else
    (if digits.length = 1 then digits else digits.take 1 ++ [46] ++ digits.drop 1) ++
      [101, if n - 1 < 0 then 45 else 43] ++ natToString (n - 1).natAbs

/-- What `JSON.stringify` writes for the double of a number literal: `null` for an infinite
double, `0` for a zero of either sign, and otherwise the text of Number::toString, with a minus
sign for a negative number. The value is `none` only if the search for the digits were to
fail. -/
def numberText (n : JNumber) : Option JSString :=
  if n.overflows then some (utf16 "null")
  else if n.magnitude = 0 then some [48]
  else
    match shortestDigits n.magnitude with
    | some r => some ((if n.neg then [45] else []) ++ digitsText r.1 r.2)
    | none => none

/-- The number literal that `JSON.parse` reads back from the text `numberText` of a finite
double: `0` for a zero, the digits followed by the zeros when the text is written that way, and
the digits with their exponent otherwise. -/
def JNumber.canon (n : JNumber) : JNumber :=
  if n.magnitude = 0 then ⟨false, 0, 0⟩
  else
    match shortestDigits n.magnitude with
    | some r =>
      if 0 ≤ r.2 ∧ r.2 + (natToString r.1).length ≤ 21 then ⟨n.neg, r.1 * 10 ^ r.2.toNat, 0⟩
      else ⟨n.neg, r.1, r.2⟩
    | none => n

mutual

/-- The function `JSON.stringify(value)` on a value made by `JSON.parse`, without replacer
and without indentation. -/
def JSON.stringify : JSON → Option JSString
  | JSON.null => some (utf16 "null")
  | JSON.bool b => some (if b then utf16 "true" else utf16 "false")
  | JSON.num n => numberText n
  | JSON.str s => some (quote s)
  | JSON.arr items =>
    match JSON.itemTexts items with
    | some texts => some ([91] ++ joinComma texts ++ [93])
    | none => none
  | JSON.obj fields =>
    match JSON.memberTexts fields with
    | some members =>
      some ([123] ++
        joinComma ((propertyOrder members).map memberText) ++ [125])
    | none => none

/-- The texts of the elements of an array. -/
def JSON.itemTexts : List JSON → Option (List JSString)
  | [] => some []
  | v :: rest =>
    match JSON.stringify v, JSON.itemTexts rest with
    | some t, some ts => some (t :: ts)
    | _, _ => none

/-- The names of the properties of an object, each with the text of its value. -/
def JSON.memberTexts : List (JSString × JSON) → Option (List (JSString × JSString))
  | [] => some []
  | (k, v) :: rest =>
    match JSON.stringify v, JSON.memberTexts rest with
    | some t, some ms => some ((k, t) :: ms)
    | _, _ => none

end

mutual

/-- The value that `JSON.parse` reads back from the text `JSON.stringify` writes for a value:
an infinite number comes back as `null`, a finite one as the literal `JNumber.canon`, and the
properties of an object in the order of their enumeration. -/
def JSON.canon : JSON → JSON
  | JSON.null => JSON.null
  | JSON.bool b => JSON.bool b
  | JSON.num n => if n.overflows then JSON.null else JSON.num n.canon
  | JSON.str s => JSON.str s
  | JSON.arr items => JSON.arr (JSON.canonItems items)
  | JSON.obj fields => JSON.obj (propertyOrder (JSON.canonFields fields))

/-- The elements of an array, each read back. -/
def JSON.canonItems : List JSON → List JSON
  | [] => []
  | v :: rest => v.canon :: JSON.canonItems rest

/-- The properties of an object, each value read back. -/
def JSON.canonFields : List (JSString × JSON) → List (JSString × JSON)
  | [] => []
  | (k, v) :: rest => (k, v.canon) :: JSON.canonFields rest

end

mutual

/-- Whether two values are structurally identical: the same kind of value at every place, equal
booleans and strings, numbers that are the same double (sign of zero included), arrays of the
same length with identical elements, and objects with the same property names in the same
order of enumeration and identical values under each name. -/
def JSON.same : JSON → JSON → Bool
  | JSON.null, w => w == JSON.null
  | JSON.bool a, w => w == JSON.bool a
  | JSON.num a, w =>
    match w with
    | JSON.num b => a.double == b.double
    | _ => false
  | JSON.str a, w => w == JSON.str a
  | JSON.arr xs, w =>
    match w with
    | JSON.arr ys => JSON.sameItems xs ys
    | _ => false
  | JSON.obj fa, w =>
    match w with
    | JSON.obj fb =>
      ((propertyOrder fa).map Prod.fst == (propertyOrder fb).map Prod.fst) &&
        JSON.sameFields fa fb
    | _ => false

/-- The elements of two arrays are identical, place by place. -/
def JSON.sameItems : List JSON → List JSON → Bool
  | [], ys => ys.isEmpty
  | x :: xs, ys =>
    match ys with
    | y :: rest => x.same y && JSON.sameItems xs rest
    | [] => false

/-- Every property of the first list has an identical value under its name in the second. -/
def JSON.sameFields : List (JSString × JSON) → List (JSString × JSON) → Bool
  | [], _ => true
  | (k, v) :: rest, fb =>
    (match fb.lookup k with
      | some w => v.same w
      | none => false) && JSON.sameFields rest fb

end

/-- No number of the value is rounded to an infinite double and none is negative zero. -/
def JSON.finiteNumbers (v : JSON) : Bool :=
  v.every (fun n => !n.overflows && !n.isNegativeZero) (fun _ => true)

/-- The first code unit of the text of a value: `n`, `t`, `f`, a quote, `[`, `{`, a minus sign
or a digit. -/
def ValueStart (t : JSString) : Prop :=
  ∃ c r, t = c :: r ∧
    (c = 110 ∨ c = 116 ∨ c = 102 ∨ c = 34 ∨ c = 91 ∨ c = 123 ∨ c = 45 ∨ isDigit c = true)

/-- What follows the text of a value inside the text of `JSON.stringify`: nothing, a comma or
a closing bracket. -/
def Delimited (rest : JSString) : Prop :=
  rest = [] ∨ ∃ c r, rest = c :: r ∧ (c = 44 ∨ c = 93 ∨ c = 125)

/-- A completion text whose document holds negative zero. -/
def negativeZeroContent : JSString :=
  utf16 "\x7b\"resumen_reunion\": \"ok\", \"saldo\": -0\x7d"

/-- A completion text whose document holds numbers and properties named by array indices. -/
def numbersContent : JSString :=
  utf16 ("\x7b\"resumen_reunion\": \"ok\", \"duracion\": 45, \"10\": 0.1, \"2\": [1e21, -4.35]," ++
    " \"tareas_nuevas\": []\x7d")

/-- The text `t` is read back as the value `cv`: it starts as a value does and, with enough
fuel, `parseValue` reads `cv` from it and stops at what follows. -/
def ReadsBack (t : JSString) (cv : JSON) : Prop :=
  ValueStart t ∧
    ∃ f0, ∀ fuel, f0 ≤ fuel → ∀ rest, Delimited rest → parseValue fuel (t ++ rest) = some (cv, rest)

/-- The document that line 412 serializes for a completion text in a regeneration of the
sample meeting, and the document that `JSON.parse` reads from the stored text, as the handler
of `GET /meetings/:id/acta` does. -/
def storedAndReadBack (content : JSString) : Option (JSON × JSON) :=
  match assignIdentificacion (repair (utf16 "2024-01-05") content) sampleIdent.toJSON with
  | none => none
  | some acta =>
    match acta.stored.stringify with
    | none => none
    | some text =>
      match JSON.parse text with
      | none => none
      | some v => some (acta.stored, v)

/-- The document of `numbersContent` after the identification overwrite. -/
def numbersActa : Acta :=
  Acta.object
    [(utf16 "resumen_reunion", JSON.str (utf16 "ok")),
     (utf16 "duracion", JSON.num ⟨false, 45, 0⟩),
     (utf16 "10", JSON.num ⟨false, 1, -1⟩),
     (utf16 "2", JSON.arr [JSON.num ⟨false, 1, 21⟩, JSON.num ⟨true, 435, -2⟩]),
     (utf16 "tareas_nuevas", JSON.arr []),
     (utf16 "identificacion", sampleIdent.toJSON)]

/-! ## Properties of speaker refinement -/

theorem refineLoop_length (lines : List JSString) (ts : List Segment) :
    ∀ (m : List (JSString × JSString)) (k : Nat),
      (refineLoop lines ts m k).length = min lines.length ts.length := by
  induction lines generalizing ts with
  | nil => intro m k; simp [refineLoop]
  | cons line lines ih =>
    intro m k
    cases ts with
    | nil => simp [refineLoop]
    | cons t ts =>
      simp only [refineLoop]
      split
      · split <;> simp [ih, Nat.succ_min_succ]
      · simp [ih, Nat.succ_min_succ]

theorem padResult_length (result ts : List Segment) (h : result.length ≤ ts.length) :
    (padResult result ts).length = ts.length := by
  simp [padResult]; omega

/-- C1: for every input of N segments and every outcome of the completion call (any response
text, any number of lines, parsed or not), `improveSpeakersWithLLM` returns exactly N
segments. -/
theorem improveSpeakers_length (configured : Bool) (completion : Completion)
    (ts : List Segment) :
    (improveSpeakersWithLLM configured completion ts).length = ts.length := by
  unfold improveSpeakersWithLLM
  split
  · rfl
  · cases completion with
    | throws => rfl
    | returns c =>
      simp only
      split
      · apply padResult_length
        rw [refineLoop_length]
        exact Nat.min_le_right _ _
      · rfl

/-! ## Properties of the business-day calendar -/

theorem getDay_fixed (tz t : Int) :
    getDay (Zone.fixed tz) t = ((t + tz * 60000) / msPerDay + 4) % 7 := rfl

theorem nextDay_fixed (tz t : Int) : nextDay (Zone.fixed tz) t = t + msPerDay := by
  simp only [nextDay, Zone.utc, Zone.localTime, Zone.offsetOfLocal, Zone.offsetAt, Zone.fixed,
    List.foldl]
  ring

theorem getDay_of_midnight (tz t : Int) (h1 : -720 ≤ tz) (h2 : tz ≤ 840)
    (ht : t % msPerDay = 0) :
    getDay (Zone.fixed tz) t = getDay (Zone.fixed (if tz < 0 then -1 else 0)) t := by
  rw [getDay_fixed, getDay_fixed]
  unfold msPerDay at *
  split <;> omega

theorem addLoop_zone (tz : Int) (h1 : -720 ≤ tz) (h2 : tz ≤ 840) (days : Nat) :
    ∀ (fuel : Nat) (date : Option Int) (added : Nat),
      (∀ t, date = some t → t % msPerDay = 0) →
      addLoop (Zone.fixed tz) days fuel date added =
        addLoop (Zone.fixed (if tz < 0 then -1 else 0)) days fuel date added := by
  intro fuel
  induction fuel with
  | zero => intro date added _; simp [addLoop]
  | succ fuel ih =>
    intro date added hd
    simp only [addLoop, nextDay_fixed]
    split
    · have hd1 : ∀ t, (date.bind fun t => timeClip (t + msPerDay)) = some t →
          t % msPerDay = 0 := by
        intro t ht
        cases date with
        | none => simp at ht
        | some u =>
          simp only [Option.bind, timeClip] at ht
          split at ht
          · have hu := hd u rfl
            simp only [Option.some.injEq] at ht
            subst ht
            unfold msPerDay at *
            omega
          · simp at ht
      rw [ih _ _ hd1]
      cases hdate : (date.bind fun t => timeClip (t + msPerDay)) with
      | none => rfl
      | some t =>
        have hg := getDay_of_midnight tz t h1 h2 (hd1 t hdate)
        simp only [hg]
    · rfl

/-- C4: `addBusinessDays` applied to the start date 2024-01-05, a Friday, and the count 3
returns the date string "2024-01-10", in every environment whose local time is a fixed offset
from UTC between -12:00 and +14:00. -/
theorem addBusinessDays_friday_three (tz : Int) (h1 : -720 ≤ tz) (h2 : tz ≤ 840) :
    addBusinessDays (Zone.fixed tz) (utf16 "2024-01-05") 3 = some (utf16 "2024-01-10") := by
  have hp : newDate (utf16 "2024-01-05") = some 1704412800000 := by decide
  unfold addBusinessDays
  rw [hp]
  simp only
  rw [addLoop_zone tz h1 h2 3 _ _ _ (by intro t ht; cases ht; decide)]
  by_cases h : tz < 0
  · rw [if_pos h]; decide
  · rw [if_neg h]; decide

/-- C4, at UTC. -/
theorem addBusinessDays_friday_three_witness :
    (-720 : Int) ≤ 0 ∧ (0 : Int) ≤ 840 ∧
      addBusinessDays (Zone.fixed 0) (utf16 "2024-01-05") 3 = some (utf16 "2024-01-10") :=
  ⟨by decide, by decide, addBusinessDays_friday_three 0 (by decide) (by decide)⟩

/-! ## The fuel of the JSON parser -/

theorem length_dropWhile_le (p : Nat → Bool) (s : JSString) :
    (s.dropWhile p).length ≤ s.length :=
  (List.dropWhile_suffix p).length_le

theorem length_skipWs_le (s : JSString) : (skipWs s).length ≤ s.length :=
  length_dropWhile_le _ s

theorem parseStringBody_length :
    ∀ (n : Nat) (s : JSString), s.length ≤ n → ∀ str rest,
      parseStringBody s = some (str, rest) → rest.length < s.length := by
  intro n
  induction n with
  | zero =>
    intro s hs str rest h
    have : s = [] := List.eq_nil_of_length_eq_zero (Nat.le_zero.mp hs)
    subst this
    simp [parseStringBody] at h
  | succ n ih =>
    intro s hs str rest h
    cases s with
    | nil => simp [parseStringBody] at h
    | cons c r =>
      simp only [List.length_cons] at hs ⊢
      unfold parseStringBody at h
      split at h
      · simp only [Option.some.injEq, Prod.mk.injEq] at h
        rw [← h.2]; omega
      · split at h
        · split at h
          · simp at h
          · rename_i e r1
            simp only [List.length_cons] at hs ⊢
            split at h
            · split at h
              · rename_i h1 h2 h3 h4 r2
                simp only [List.length_cons] at hs ⊢
                split at h
                · split at h
                  · rename_i str1 rest1 hp
                    have := ih r2 (by omega) str1 rest1 hp
                    simp only [Option.some.injEq, Prod.mk.injEq] at h
                    rw [← h.2]; omega
                  · simp at h
                · simp at h
              · simp at h
            · split at h
              · split at h
                · rename_i str1 rest1 hp
                  have := ih r1 (by omega) str1 rest1 hp
                  simp only [Option.some.injEq, Prod.mk.injEq] at h
                  rw [← h.2]; omega
                · simp at h
              · simp at h
        · split at h
          · simp at h
          · split at h
            · rename_i str1 rest1 hp
              have := ih r (by omega) str1 rest1 hp
              simp only [Option.some.injEq, Prod.mk.injEq] at h
              rw [← h.2]; omega
            · simp at h

theorem parseFraction_length (s : JSString) : (parseFraction s).2.length ≤ s.length := by
  unfold parseFraction
  split
  · split
    · exact le_trans (length_dropWhile_le _ _) (by simp)
    · exact Nat.le_refl _
  · exact Nat.le_refl _

theorem parseExponent_length (s : JSString) (x : Int) (rest : JSString)
    (h : parseExponent s = some (x, rest)) : rest.length ≤ s.length := by
  unfold parseExponent at h
  have hd : (if s.head? = some 43 ∨ s.head? = some 45 then s.drop 1 else s).length ≤
      s.length := by
    split <;> simp
  generalize (if s.head? = some 43 ∨ s.head? = some 45 then s.drop 1 else s) = digits at h hd
  by_cases hemp : (digits.takeWhile isDigit).isEmpty = true
  · rw [if_pos hemp] at h
    exact absurd h (by simp)
  · rw [if_neg hemp] at h
    have h2 := (Prod.mk.inj (Option.some.inj h)).2
    rw [← h2]
    exact le_trans (length_dropWhile_le _ _) hd

theorem parseNumber_length (s : JSString) (n : JNumber) (rest : JSString)
    (h : parseNumber s = some (n, rest)) : rest.length < s.length := by
  unfold parseNumber at h
  split at h
  · simp at h
  · rename_i c r hs1
    have hs1len : (c :: r).length ≤ s.length := by
      rw [← hs1]; split <;> simp
    simp only [List.length_cons] at hs1len
    split at h
    · simp at h
    · have hr1 : (if c = 48 then r else r.dropWhile isDigit).length ≤ r.length := by
        split
        · exact Nat.le_refl _
        · exact length_dropWhile_le _ _
      have hf := parseFraction_length (if c = 48 then r else r.dropWhile isDigit)
      simp only at h
      split at h
      · rename_i e r1 hfr
        rw [hfr] at hf
        simp only [List.length_cons] at hf
        split at h
        · split at h
          · rename_i x rest1 hx
            have := parseExponent_length r1 x rest1 hx
            simp only [Option.some.injEq, Prod.mk.injEq] at h
            rw [← h.2]; omega
          · simp only [Option.some.injEq, Prod.mk.injEq] at h
            rw [← h.2, hfr]; simp only [List.length_cons]; omega
        · simp only [Option.some.injEq, Prod.mk.injEq] at h
          rw [← h.2, hfr]; simp only [List.length_cons]; omega
      · simp only [Option.some.injEq, Prod.mk.injEq] at h
        rw [← h.2]; omega

theorem length_of_skipWs_cons {s : JSString} {d : Nat} {r : JSString}
    (h : skipWs s = d :: r) : r.length < s.length := by
  have := length_skipWs_le s
  rw [h] at this
  simp only [List.length_cons] at this
  omega

theorem parse_length : ∀ fuel : Nat,
    (∀ s v rest, parseValue fuel s = some (v, rest) → rest.length < s.length) ∧
    (∀ s acc v rest, parseMembers fuel s acc = some (v, rest) → rest.length < s.length) ∧
    (∀ s acc v rest, parseElements fuel s acc = some (v, rest) → rest.length < s.length) := by
  intro fuel
  induction fuel with
  | zero =>
    refine ⟨?_, ?_, ?_⟩
    · intro s v rest h; simp [parseValue] at h
    · intro s acc v rest h; simp [parseMembers] at h
    · intro s acc v rest h; simp [parseElements] at h
  | succ fuel ih =>
    obtain ⟨ihV, ihM, ihE⟩ := ih
    refine ⟨?_, ?_, ?_⟩
    · intro s v rest h
      unfold parseValue at h
      split at h
      · simp at h
      · rename_i c r
        simp only [List.length_cons]
        split at h
        · split at h
          · rename_i d r1 hsk
            have := length_of_skipWs_cons hsk
            split at h
            · simp only [Option.some.injEq, Prod.mk.injEq] at h
              rw [← h.2]; omega
            · have h2 := ihM _ _ _ _ h
              have := length_skipWs_le r
              rw [hsk] at this
              omega
          · simp at h
        · split at h
          · split at h
            · rename_i d r1 hsk
              have := length_of_skipWs_cons hsk
              split at h
              · simp only [Option.some.injEq, Prod.mk.injEq] at h
                rw [← h.2]; omega
              · have h2 := ihE _ _ _ _ h
                have := length_skipWs_le r
                rw [hsk] at this
                omega
            · simp at h
          · split at h
            · split at h
              · rename_i str rest1 hp
                have := parseStringBody_length _ r (Nat.le_refl _) str rest1 hp
                simp only [Option.some.injEq, Prod.mk.injEq] at h
                rw [← h.2]; omega
              · simp at h
            · split at h
              · simp only [Option.some.injEq, Prod.mk.injEq] at h
                rw [← h.2]; simp; omega
              · split at h
                · simp only [Option.some.injEq, Prod.mk.injEq] at h
                  rw [← h.2]; simp; omega
                · split at h
                  · simp only [Option.some.injEq, Prod.mk.injEq] at h
                    rw [← h.2]; simp; omega
                  · split at h
                    · rename_i n rest1 hn
                      have := parseNumber_length _ n rest1 hn
                      simp only [Option.some.injEq, Prod.mk.injEq] at h
                      rw [← h.2]
                      simpa using this
                    · simp at h
    · intro s acc v rest h
      unfold parseMembers at h
      split at h
      · simp at h
      · rename_i q r
        simp only [List.length_cons]
        split at h
        · split at h
          · rename_i key r1 hp
            have h1 := parseStringBody_length _ r (Nat.le_refl _) key r1 hp
            split at h
            · rename_i colon r2 hsk
              have h2 := length_of_skipWs_cons hsk
              split at h
              · split at h
                · rename_i v1 r3 hv
                  have h3 := ihV _ _ _ hv
                  have h3b := length_skipWs_le r2
                  split at h
                  · rename_i d r4 hsk2
                    have h4 := length_of_skipWs_cons hsk2
                    split at h
                    · have h5 := ihM _ _ _ _ h
                      have h5b := length_skipWs_le r4
                      omega
                    · split at h
                      · simp only [Option.some.injEq, Prod.mk.injEq] at h
                        rw [← h.2]; omega
                      · simp at h
                  · simp at h
                · simp at h
              · simp at h
            · simp at h
          · simp at h
        · simp at h
    · intro s acc v rest h
      rw [parseElements] at h
      split at h
      · rename_i v1 r hv
        have h1 := ihV _ _ _ hv
        split at h
        · rename_i d r1 hsk
          have h2 := length_of_skipWs_cons hsk
          split at h
          · have h3 := ihE _ _ _ _ h
            have h3b := length_skipWs_le r1
            omega
          · split at h
            · simp only [Option.some.injEq, Prod.mk.injEq] at h
              rw [← h.2]; omega
            · simp at h
        · simp at h
      · simp at h

theorem parse_fuel_succ : ∀ fuel : Nat,
    (∀ s, 2 * s.length + 1 ≤ fuel → parseValue (fuel + 1) s = parseValue fuel s) ∧
    (∀ s acc, 2 * s.length + 2 ≤ fuel →
      parseMembers (fuel + 1) s acc = parseMembers fuel s acc) ∧
    (∀ s acc, 2 * s.length + 2 ≤ fuel →
      parseElements (fuel + 1) s acc = parseElements fuel s acc) := by
  intro fuel
  induction fuel with
  | zero =>
    refine ⟨?_, ?_, ?_⟩
    · intro s h; omega
    · intro s acc h; omega
    · intro s acc h; omega
  | succ n ih =>
    obtain ⟨ihV, ihM, ihE⟩ := ih
    refine ⟨?_, ?_, ?_⟩
    · intro s hs
      cases s with
      | nil => simp [parseValue]
      | cons c r =>
        simp only [List.length_cons] at hs
        have hM : ∀ x acc, x.length ≤ r.length →
            parseMembers (n + 1) x acc = parseMembers n x acc :=
          fun x acc hx => ihM x acc (by omega)
        have hE : ∀ x acc, x.length ≤ r.length →
            parseElements (n + 1) x acc = parseElements n x acc :=
          fun x acc hx => ihE x acc (by omega)
        have hsk := length_skipWs_le r
        simp only [parseValue]
        cases hskr : skipWs r with
        | nil => rfl
        | cons d r1 =>
          rw [hskr] at hsk
          simp only [hM _ _ hsk, hE _ _ hsk]
    · intro s acc hs
      cases s with
      | nil => simp [parseMembers]
      | cons q r =>
        simp only [List.length_cons] at hs
        cases hp : parseStringBody r with
        | none => unfold parseMembers; simp only [hp]
        | some p =>
          obtain ⟨key, r1⟩ := p
          have h1 := parseStringBody_length _ r (Nat.le_refl _) key r1 hp
          cases hsk : skipWs r1 with
          | nil => unfold parseMembers; simp only [hp, hsk]
          | cons colon r2 =>
            have h2 := length_of_skipWs_cons hsk
            have h3 := length_skipWs_le r2
            have hv : parseValue (n + 1) (skipWs r2) = parseValue n (skipWs r2) :=
              ihV _ (by omega)
            cases hpv : parseValue n (skipWs r2) with
            | none => unfold parseMembers; simp only [hp, hsk, hv, hpv]
            | some p2 =>
              obtain ⟨v, r3⟩ := p2
              have h4 := (parse_length n).1 _ _ _ hpv
              cases hsk2 : skipWs r3 with
              | nil => unfold parseMembers; simp only [hp, hsk, hv, hpv, hsk2]
              | cons d r4 =>
                have h5 := length_of_skipWs_cons hsk2
                have h6 := length_skipWs_le r4
                have hm : parseMembers (n + 1) (skipWs r4) (setProp acc key v) =
                    parseMembers n (skipWs r4) (setProp acc key v) :=
                  ihM _ _ (by omega)
                unfold parseMembers; simp only [hp, hsk, hv, hpv, hsk2, hm]
    · intro s acc hs
      have hv : parseValue (n + 1) s = parseValue n s := ihV _ (by omega)
      cases hpv : parseValue n s with
      | none => unfold parseElements; simp only [hv, hpv]
      | some p =>
        obtain ⟨v, r⟩ := p
        have h1 := (parse_length n).1 _ _ _ hpv
        cases hsk : skipWs r with
        | nil => unfold parseElements; simp only [hv, hpv, hsk]
        | cons d r1 =>
          have h2 := length_of_skipWs_cons hsk
          have h3 := length_skipWs_le r1
          have he : parseElements (n + 1) (skipWs r1) (acc ++ [v]) =
              parseElements n (skipWs r1) (acc ++ [v]) :=
            ihE _ _ (by omega)
          unfold parseElements; simp only [hv, hpv, hsk, he]

theorem parseValue_fuel (fuel : Nat) (s : JSString) (h : 2 * s.length + 1 ≤ fuel) :
    ∀ extra, parseValue (fuel + extra) s = parseValue fuel s := by
  intro extra
  induction extra with
  | zero => rfl
  | succ k ih =>
    rw [← Nat.add_assoc, (parse_fuel_succ (fuel + k)).1 s (by omega), ih]

/-- The parse of a text does not depend on the bound given to the parser once the bound
exceeds twice the length of the text: `JSON.parse` never fails for want of turns. -/
theorem JSON.parse_fuel (text : JSString) (extra : Nat) :
    (match parseValue (2 * text.length + 1 + extra) (skipWs text) with
      | some (v, rest) => if (skipWs rest).isEmpty then some v else none
      | none => none) = JSON.parse text := by
  unfold JSON.parse
  have hle := length_skipWs_le text
  have h1 := parseValue_fuel (2 * (skipWs text).length + 1) (skipWs text) (Nat.le_refl _)
  have e1 : 2 * text.length + 1 + extra =
      2 * (skipWs text).length + 1 + (2 * text.length - 2 * (skipWs text).length + extra) := by
    omega
  have e2 : 2 * text.length + 1 =
      2 * (skipWs text).length + 1 + (2 * text.length - 2 * (skipWs text).length) := by
    omega
  rw [e1, h1, e2, h1]

/-! ## Properties of the regeneration -/

theorem lookup_setProp (fields : List (JSString × JSON)) (key : JSString) (v : JSON) :
    (setProp fields key v).lookup key = some v := by
  induction fields with
  | nil => simp [setProp, List.lookup]
  | cons p rest ih =>
    obtain ⟨k, w⟩ := p
    by_cases hk : k = key
    · simp [setProp, hk, List.lookup]
    · have hk2 : (key == k) = false := by simpa using fun e => hk e.symm
      simp [setProp, hk, List.lookup, hk2, ih]

theorem generateActa_of_stores (lower : JSString → JSString) (w : World) (meeting : MeetingRow)
    (ts : List Segment) (ident : Identificacion) (content : JSString) (acta : Acta)
    (h : StoresActa w meeting ts ident content acta) :
    generateActaIfReady lower w =
      ⟨Outcome.resolved (some acta),
        (if w.configured then [Effect.refinementCall] else []) ++
          segmentUpdates (improveSpeakersWithLLM w.configured w.refinement ts) ts ++
          [Effect.synthesisCall, Effect.upsertActa acta.stored, Effect.deleteTareas] ++
          (extractTareas lower (addBusinessDays w.zone (fechaHoy w ident) 3) acta.tareasNuevas).1,
        (extractTareas lower (addBusinessDays w.zone (fechaHoy w ident) 3) acta.tareasNuevas).2⟩ := by
  obtain ⟨⟨hm, hts, hne, hi, hd, hc, hs, hcn⟩, ha, hu⟩ := h
  obtain ⟨d, hd⟩ := Option.isSome_iff_exists.mp hd
  unfold generateActaIfReady
  simp only [hm, hts, hne, hi, hd, hc, hs, hcn, ha, hu]
  simp

theorem stores_of_resolved (lower : JSString → JSString) (w : World) (acta : Acta)
    (h : (generateActaIfReady lower w).outcome = Outcome.resolved (some acta)) :
    ∃ meeting ts ident content, StoresActa w meeting ts ident content acta := by
  unfold generateActaIfReady at h
  split at h
  · simp at h
  · simp at h
  · rename_i meeting hm
    split at h
    · simp at h
    · rename_i ts hts
      split at h
      · simp at h
      · rename_i hne
        simp only at h
        split at h
        · simp at h
        · rename_i ident hi
          split at h
          · simp at h
          · rename_i d hd
            split at h
            · simp at h
            · rename_i hc
              split at h
              · simp at h
              · simp at h
              · rename_i content hs
                split at h
                · simp at h
                · rename_i hcn
                  split at h
                  · simp at h
                  · rename_i acta1 ha
                    split at h
                    · simp at h
                    · rename_i hu
                      simp only [Outcome.resolved.injEq, Option.some.injEq] at h
                      subst h
                      refine ⟨meeting, ts, ident, content,
                        ⟨hm, hts, ?_, hi, ?_, ?_, hs, ?_⟩, ha, ?_⟩
                      · simpa using hne
                      · rw [hd]; rfl
                      · simpa using hc
                      · simpa using hcn
                      · simpa using hu

/-- C2, amended: whenever `generateActaIfReady` produces a document that is a JSON object
(parsed from the completion text at either attempt, or the default one), the `identificacion`
of that object, as the promise returns it and as it is written to `actas`, is the canonical
identification `meta` built from the meeting row, whatever the text held under that key. -/
theorem generateActa_identificacion (lower : JSString → JSString) (w : World)
    (fields : List (JSString × JSON))
    (h : (generateActaIfReady lower w).outcome = Outcome.resolved (some (Acta.object fields))) :
    ∃ meeting ident, w.meeting = some (some meeting) ∧ buildMeta w.zone meeting = some ident ∧
      (Acta.object fields).identificacion = some ident.toJSON ∧
      (Acta.object fields).stored.get (utf16 "identificacion") = some ident.toJSON ∧
      Effect.upsertActa (Acta.object fields).stored ∈ (generateActaIfReady lower w).effects := by
  obtain ⟨meeting, ts, ident, content, hs⟩ := stores_of_resolved lower w _ h
  have hl : fields.lookup (utf16 "identificacion") = some ident.toJSON := by
    have ha := hs.2.1
    unfold assignIdentificacion at ha
    split at ha
    · simp at ha
    · simp only [Option.some.injEq, Acta.object.injEq] at ha
      rw [← ha]
      exact lookup_setProp _ _ _
    · simp at ha
    · simp at ha
  refine ⟨meeting, ident, hs.1.1, hs.1.2.2.2.1, hl, hl, ?_⟩
  rw [generateActa_of_stores lower w meeting ts ident content _ hs]
  simp [Acta.stored]

/-- C2 amended, on a completion text that names another client. -/
theorem generateActa_identificacion_witness :
    (generateActaIfReady asciiLower (sampleWorld sampleContent)).outcome =
        Outcome.resolved (some (Acta.object
          [(utf16 "identificacion", sampleIdent.toJSON),
           (utf16 "resumen_reunion", JSON.str (utf16 "ok"))])) ∧
      ∃ meeting ident, (sampleWorld sampleContent).meeting = some (some meeting) ∧
        buildMeta (sampleWorld sampleContent).zone meeting = some ident ∧
        (Acta.object
          [(utf16 "identificacion", sampleIdent.toJSON),
           (utf16 "resumen_reunion", JSON.str (utf16 "ok"))]).identificacion =
          some ident.toJSON ∧
        (Acta.object
          [(utf16 "identificacion", sampleIdent.toJSON),
           (utf16 "resumen_reunion", JSON.str (utf16 "ok"))]).stored.get
            (utf16 "identificacion") = some ident.toJSON ∧
        Effect.upsertActa (Acta.object
          [(utf16 "identificacion", sampleIdent.toJSON),
           (utf16 "resumen_reunion", JSON.str (utf16 "ok"))]).stored ∈
          (generateActaIfReady asciiLower (sampleWorld sampleContent)).effects :=
  ⟨by decide, generateActa_identificacion asciiLower (sampleWorld sampleContent) _ (by decide)⟩

/-- C2 fails as stated. On the completion text `true` the promise resolves with the boolean
`true`, on which the assignment of `identificacion` has no effect, and `true` is what is
written to `actas`: neither the returned nor the persisted value has the identification of
the meeting. On the text `[]` the returned array carries the identification as a property,
which `JSON.stringify` does not write: the persisted value is the empty array. -/
theorem generateActa_without_identificacion :
    (generateActaIfReady asciiLower (sampleWorld (utf16 "true"))).outcome =
        Outcome.resolved (some (Acta.primitive (JSON.bool true))) ∧
      (Acta.primitive (JSON.bool true)).identificacion = none ∧
      Effect.upsertActa (JSON.bool true) ∈
        (generateActaIfReady asciiLower (sampleWorld (utf16 "true"))).effects ∧
      (JSON.bool true).get (utf16 "identificacion") = none ∧
      (generateActaIfReady asciiLower (sampleWorld (utf16 "[]"))).outcome =
        Outcome.resolved (some (Acta.array [] sampleIdent.toJSON)) ∧
      Effect.upsertActa (JSON.arr []) ∈
        (generateActaIfReady asciiLower (sampleWorld (utf16 "[]"))).effects ∧
      (JSON.arr []).get (utf16 "identificacion") = none := by
  decide

/-- C5: for every existing meeting with zero persisted transcript segments,
`generateActaIfReady` resolves with `null` and issues no request at all, so neither the
refinement nor the synthesis completion is called. -/
theorem generateActa_no_segments (lower : JSString → JSString) (w : World)
    (meeting : MeetingRow) (hm : w.meeting = some (some meeting))
    (hts : w.transcriptions = some []) :
    (generateActaIfReady lower w).outcome = Outcome.resolved none ∧
      (generateActaIfReady lower w).effects = [] := by
  unfold generateActaIfReady
  simp [hm, hts]

/-- C5, on the sample meeting without segments. -/
theorem generateActa_no_segments_witness :
    (generateActaIfReady asciiLower
        { sampleWorld sampleContent with transcriptions := some [] }).outcome =
        Outcome.resolved none ∧
      (generateActaIfReady asciiLower
        { sampleWorld sampleContent with transcriptions := some [] }).effects = [] :=
  generateActa_no_segments asciiLower { sampleWorld sampleContent with transcriptions := some [] }
    _ rfl rfl

theorem replaceAll_of_no_match (p : JSString → Option (JSString × Nat)) (s : JSString)
    (h : ∀ suf, suf <:+ s → p suf = none) : replaceAll p 0 s = s := by
  induction s with
  | nil => rfl
  | cons c r ih =>
    rw [replaceAll, h (c :: r) (List.suffix_refl _)]
    simp only
    rw [ih (fun suf hs => h suf (hs.trans (List.suffix_cons c r)))]

theorem trim_of_ends (c d : Nat) (mid : JSString) (hc : isSpace c = false)
    (hd : isSpace d = false) : trim (c :: mid ++ [d]) = c :: mid ++ [d] := by
  simp [trim, trimStart, List.dropWhile, hc, hd]

theorem extractObject_of_braces (mid : JSString) :
    extractObject (123 :: mid ++ [125]) = 123 :: mid ++ [125] := by
  simp [extractObject, List.dropWhile]

/-- A text that begins with `{`, ends with `}` and has no place where one of the three patterns
of the normalization matches is left unchanged by the preparation. -/
theorem preparedText_of_clean (mid : JSString)
    (h : ∀ suf, suf <:+ 123 :: mid ++ [125] →
      trailingCommaAt 125 suf = none ∧ trailingCommaAt 93 suf = none ∧ bareKeyAt suf = none) :
    preparedText (123 :: mid ++ [125]) = 123 :: mid ++ [125] := by
  unfold preparedText normalizeText
  rw [trim_of_ends 123 125 mid (by decide) (by decide), extractObject_of_braces,
    replaceAll_of_no_match _ _ (fun suf hs => (h suf hs).1),
    replaceAll_of_no_match _ _ (fun suf hs => (h suf hs).2.1),
    replaceAll_of_no_match _ _ (fun suf hs => (h suf hs).2.2)]

/-- C6 fails on the code: two completion texts that are valid JSON for a document object. On
the first, the quoting of bare keys rewrites the inside of the summary (`, siguiente:` becomes
`, "siguiente":`), both parsing attempts fail and the default document is produced; on the
second, the removal of a comma before `}` changes the summary from `uno, }` to `uno}`. -/
theorem repair_alters_valid_json :
    JSON.parse (actaText "Temas, siguiente: revisar") =
        some (actaValue "Temas, siguiente: revisar") ∧
      repair (utf16 "2024-01-05") (actaText "Temas, siguiente: revisar") =
        defaultActa (utf16 "2024-01-05") ∧
      repair (utf16 "2024-01-05") (actaText "Temas, siguiente: revisar") ≠
        actaValue "Temas, siguiente: revisar" ∧
      JSON.parse (actaText "uno, \x7d") = some (actaValue "uno, \x7d") ∧
      repair (utf16 "2024-01-05") (actaText "uno, \x7d") = actaValue "uno\x7d" ∧
      repair (utf16 "2024-01-05") (actaText "uno, \x7d") ≠ actaValue "uno, \x7d" := by
  decide

/-- C8: when both parsing attempts fail, the document is the default document: after the
identification is set it has an empty prior-tasks list, an empty new-tasks list, the sentinel
summary and empty observations. -/
theorem repair_default (today content : JSString) (ident : JSON)
    (h1 : JSON.parse (preparedText content) = none)
    (h2 : JSON.parse (stripComments (preparedText content)) = none) :
    repair today content = defaultActa today ∧
      assignIdentificacion (repair today content) ident = some (Acta.object
        [(utf16 "identificacion", ident),
         (utf16 "tareas_anteriores", JSON.arr []),
         (utf16 "tareas_nuevas", JSON.arr []),
         (utf16 "resumen_reunion", JSON.str sentinelSummary),
         (utf16 "observaciones_generales", JSON.str [])]) := by
  have hr : repair today content = defaultActa today := by unfold repair; rw [h1, h2]
  refine ⟨hr, ?_⟩
  rw [hr]
  rfl

/-- C8, on a completion text that is no JSON. -/
theorem repair_default_witness :
    JSON.parse (preparedText (utf16 "No puedo generar el acta.")) = none ∧
      JSON.parse (stripComments (preparedText (utf16 "No puedo generar el acta."))) = none ∧
      repair (utf16 "2024-01-05") (utf16 "No puedo generar el acta.") =
        defaultActa (utf16 "2024-01-05") :=
  ⟨by decide, by decide,
    (repair_default (utf16 "2024-01-05") (utf16 "No puedo generar el acta.") JSON.null
      (by decide) (by decide)).1⟩

/-- C7 fails as stated: on the non-empty completion text `null` the assignment of the
identification raises a TypeError, which the outer `catch` turns into `resolve(null)`; on the
text `7` the promise resolves with the number 7, which is no document object. -/
theorem generateActa_null_text :
    (utf16 "null").isEmpty = false ∧
      (generateActaIfReady asciiLower (sampleWorld (utf16 "null"))).outcome =
        Outcome.resolved none ∧
      (generateActaIfReady asciiLower (sampleWorld (utf16 "7"))).outcome =
        Outcome.resolved (some (Acta.primitive (JSON.num ⟨false, 7, 0⟩))) := by
  decide

/-- C7, amended: for every call that reaches the repair of a non-empty completion text, if no
parsing attempt yields a JSON value other than an object, the repair yields an object (parsed
or default) and the promise resolves with that object carrying the identification: it does not
raise and does not end in "no document". -/
theorem generateActa_yields_document (lower : JSString → JSString) (w : World)
    (meeting : MeetingRow) (ts : List Segment) (ident : Identificacion) (content : JSString)
    (hr : ReachesRepair w meeting ts ident content) (hu : w.upsertFails = false)
    (h1 : ∀ v, JSON.parse (preparedText content) = some v → ∃ f, v = JSON.obj f)
    (h2 : ∀ v, JSON.parse (stripComments (preparedText content)) = some v → ∃ f, v = JSON.obj f) :
    ∃ fields, repair (isoDate w.now) content = JSON.obj fields ∧
      (generateActaIfReady lower w).outcome = Outcome.resolved (some
        (Acta.object (setProp fields (utf16 "identificacion") ident.toJSON))) := by
  have hobj : ∃ fields, repair (isoDate w.now) content = JSON.obj fields := by
    unfold repair
    cases hp : JSON.parse (preparedText content) with
    | some v => exact h1 v hp
    | none =>
      cases hq : JSON.parse (stripComments (preparedText content)) with
      | some v => exact h2 v hq
      | none => exact ⟨_, rfl⟩
  obtain ⟨fields, hf⟩ := hobj
  refine ⟨fields, hf, ?_⟩
  rw [generateActa_of_stores lower w meeting ts ident content
    (Acta.object (setProp fields (utf16 "identificacion") ident.toJSON)) ⟨hr, ?_, hu⟩]
  rw [hf]; rfl

/-- C7 amended, on the sample text. -/
theorem generateActa_yields_document_witness :
    ∃ fields, repair (isoDate (sampleWorld sampleContent).now) sampleContent = JSON.obj fields ∧
      (generateActaIfReady asciiLower (sampleWorld sampleContent)).outcome =
        Outcome.resolved (some
          (Acta.object (setProp fields (utf16 "identificacion") sampleIdent.toJSON))) :=
  generateActa_yields_document asciiLower (sampleWorld sampleContent) _ _ sampleIdent
    sampleContent
    ⟨rfl, rfl, by decide, by decide, by decide, rfl, rfl, by decide⟩ rfl
    (fun v hv => by
      have hp : JSON.parse (preparedText sampleContent) = some (JSON.obj
          [(utf16 "identificacion", JSON.obj [(utf16 "cliente", JSON.str (utf16 "Otro"))]),
           (utf16 "resumen_reunion", JSON.str (utf16 "ok"))]) := by decide
      rw [hp] at hv
      exact ⟨_, (Option.some.inj hv).symm⟩)
    (fun v hv => by
      have hp : JSON.parse (stripComments (preparedText sampleContent)) = some (JSON.obj
          [(utf16 "identificacion", JSON.obj [(utf16 "cliente", JSON.str (utf16 "Otro"))]),
           (utf16 "resumen_reunion", JSON.str (utf16 "ok"))]) := by decide
      rw [hp] at hv
      exact ⟨_, (Option.some.inj hv).symm⟩)

/-! ## Properties of task extraction -/

theorem get_descripcion (t : TareaEntry) :
    t.toJSON.get (utf16 "descripcion") = t.descripcion.map JSON.str := by
  obtain ⟨i, d, r, f⟩ := t
  cases i <;> cases d <;> cases r <;> cases f <;> rfl

theorem get_responsable (t : TareaEntry) :
    t.toJSON.get (utf16 "responsable") = t.responsable.map JSON.str := by
  obtain ⟨i, d, r, f⟩ := t
  cases i <;> cases d <;> cases r <;> cases f <;> rfl

theorem get_fecha_compromiso (t : TareaEntry) :
    t.toJSON.get (utf16 "fecha_compromiso") = t.fecha_compromiso.map JSON.str := by
  obtain ⟨i, d, r, f⟩ := t
  cases i <;> cases d <;> cases r <;> cases f <;> rfl

theorem trim_nil : trim [] = [] := rfl

theorem orEmptyTrim_str (v : Option JSString) :
    orEmptyTrim (v.map JSON.str) = some (trim (v.getD [])) := by
  cases v with
  | none => rfl
  | some str =>
    cases str with
    | nil => rfl
    | cons c cs => rfl

theorem hasDescripcion_toJSON (t : TareaEntry) :
    hasDescripcion t.toJSON = some (decide (t.trimmed ≠ [])) := by
  have hne : t.toJSON ≠ JSON.null := by simp [TareaEntry.toJSON]
  unfold hasDescripcion
  split
  · rename_i h; exact absurd h hne
  · rw [get_descripcion]
    unfold TareaEntry.trimmed
    cases t.descripcion with
    | none => simp [truthy, trim_nil]
    | some str =>
      cases str with
      | nil => simp [truthy, trim_nil]
      | cons c cs =>
        simp only [Option.map_some', truthy, List.isEmpty_cons, Bool.not_false, if_true,
          Option.getD_some, Option.some.injEq, decide_eq_decide]
        exact List.length_pos

theorem filterTareas_toJSON (entries : List TareaEntry) :
    filterTareas (entries.map TareaEntry.toJSON) =
      some ((entries.filter (fun t => decide (t.trimmed ≠ []))).map TareaEntry.toJSON) := by
  induction entries with
  | nil => rfl
  | cons t rest ih =>
    simp only [List.map_cons, filterTareas, hasDescripcion_toJSON, ih, List.filter_cons]
    split <;> simp_all

theorem descNorm_toJSON (lower : JSString → JSString) (t : TareaEntry) :
    descNorm lower t.toJSON = some (t.normalized lower) := by
  unfold descNorm
  rw [get_descripcion, orEmptyTrim_str]
  rfl

theorem uniqueLoop_toJSON (lower : JSString → JSString) (entries : List TareaEntry) :
    ∀ (before : List TareaEntry) (seen : List JSString),
      (∀ d, d ∈ seen ↔ ∃ u ∈ before, u.normalized lower = d) →
      uniqueLoop lower
          ((entries.filter (fun t => decide (t.trimmed ≠ []))).map TareaEntry.toJSON) seen =
        some ((keptBySpec lower entries before).map TareaEntry.toJSON) := by
  induction entries with
  | nil => intro before seen _; rfl
  | cons t rest ih =>
    intro before seen hinv
    have hseen : seen.contains (t.normalized lower) = true ↔
        ¬ ∀ u ∈ before, u.normalized lower ≠ t.normalized lower := by
      rw [List.contains_iff_exists_mem_beq]
      push_neg
      constructor
      · rintro ⟨d, hd, hbeq⟩
        have hdt : t.normalized lower = d := by simpa using hbeq
        obtain ⟨u, hu, hud⟩ := (hinv d).mp hd
        exact ⟨u, hu, hud.trans hdt.symm⟩
      · rintro ⟨u, hu, hud⟩
        exact ⟨t.normalized lower, (hinv _).mpr ⟨u, hu, hud⟩, by simp⟩
    by_cases hb : t.trimmed ≠ []
    · have hfil : (t :: rest).filter (fun t => decide (t.trimmed ≠ [])) =
          t :: rest.filter (fun t => decide (t.trimmed ≠ [])) :=
        List.filter_cons_of_pos (by simpa using hb)
      rw [hfil, List.map_cons, uniqueLoop, descNorm_toJSON, keptBySpec]
      simp only
      by_cases hk : (t.normalized lower).length > 5 ∧
          ∀ u ∈ before, u.normalized lower ≠ t.normalized lower
      · have hc : seen.contains (t.normalized lower) = false := by
          cases hcv : seen.contains (t.normalized lower) with
          | false => rfl
          | true => exact absurd hk.2 (hseen.mp hcv)
        have hspec : t.trimmed ≠ [] ∧ (t.normalized lower).length > 5 ∧
            ∀ u ∈ before, u.normalized lower ≠ t.normalized lower := ⟨hb, hk⟩
        rw [if_pos hspec]
        have hcond : (!seen.contains (t.normalized lower) &&
            decide ((t.normalized lower).length > 5)) = true := by
          rw [hc]; simpa using hk.1
        rw [if_pos hcond, ih (before ++ [t]) (t.normalized lower :: seen)]
        · rfl
        · intro d
          simp only [List.mem_cons, List.mem_append, List.not_mem_nil, or_false, hinv]
          constructor
          · rintro (rfl | ⟨u, hu, rfl⟩)
            · exact ⟨t, Or.inr rfl, rfl⟩
            · exact ⟨u, Or.inl hu, rfl⟩
          · rintro ⟨u, hu | rfl, rfl⟩
            · exact Or.inr ⟨u, hu, rfl⟩
            · exact Or.inl rfl
      · have hspec : ¬ (t.trimmed ≠ [] ∧ (t.normalized lower).length > 5 ∧
            ∀ u ∈ before, u.normalized lower ≠ t.normalized lower) := fun h => hk h.2
        rw [if_neg hspec]
        have hc : (!seen.contains (t.normalized lower) &&
            decide ((t.normalized lower).length > 5)) = false := by
          cases hcv : seen.contains (t.normalized lower) with
          | true => rfl
          | false =>
            have hall : ∀ u ∈ before, u.normalized lower ≠ t.normalized lower := by
              by_contra hcon
              have := hseen.mpr hcon
              rw [hcv] at this
              exact Bool.false_ne_true this
            have hlen : ¬ (t.normalized lower).length > 5 := fun hl => hk ⟨hl, hall⟩
            simp [hlen]
        have hcond : ¬ ((!seen.contains (t.normalized lower) &&
            decide ((t.normalized lower).length > 5)) = true) := by
          rw [hc]; exact Bool.false_ne_true
        rw [if_neg hcond]
        exact ih before seen hinv
    · have hb2 : t.trimmed = [] := not_not.mp hb
      have hfil : (t :: rest).filter (fun t => decide (t.trimmed ≠ [])) =
          rest.filter (fun t => decide (t.trimmed ≠ [])) :=
        List.filter_cons_of_neg (by simp [hb2])
      have hspec : ¬ (t.trimmed ≠ [] ∧ (t.normalized lower).length > 5 ∧
          ∀ u ∈ before, u.normalized lower ≠ t.normalized lower) := fun h => h.1 hb2
      rw [hfil, keptBySpec, if_neg hspec]
      exact ih before seen hinv

theorem insertLoop_toJSON (fallback : JSString) (entries : List TareaEntry) :
    ∀ counter, insertLoop (some fallback) (entries.map TareaEntry.toJSON) counter =
      (insertsFor fallback entries counter, false) := by
  induction entries with
  | nil => intro counter; rfl
  | cons t rest ih =>
    intro counter
    have hf : (if truthy (t.fecha_compromiso.map JSON.str) = true then
          t.fecha_compromiso.map JSON.str else (some fallback).map JSON.str) =
        some (JSON.str (if (t.fecha_compromiso.getD []).isEmpty then fallback
          else t.fecha_compromiso.getD [])) := by
      cases t.fecha_compromiso with
      | none => rfl
      | some str =>
        cases str with
        | nil => rfl
        | cons c cs => rfl
    simp only [List.map_cons, insertLoop, get_fecha_compromiso, get_descripcion,
      get_responsable, orEmptyTrim_str, hf, ih, insertsFor]
    rfl

theorem extractTareas_toJSON (lower : JSString → JSString) (fallback : JSString)
    (entries : List TareaEntry) :
    extractTareas lower (some fallback) (some (JSON.arr (entries.map TareaEntry.toJSON))) =
      (insertsFor fallback (keptBySpec lower entries []) 1, false) := by
  unfold extractTareas
  simp only
  split
  · rw [filterTareas_toJSON]
    simp only
    rw [uniqueLoop_toJSON lower entries [] [] (by simp)]
    simp only
    exact insertLoop_toJSON fallback _ 1
  · rename_i h
    have he : entries = [] := by
      cases entries with
      | nil => rfl
      | cons t rest => simp at h
    subst he
    rfl

theorem keptBySpec_sublist (lower : JSString → JSString) (entries : List TareaEntry) :
    ∀ before, (keptBySpec lower entries before).Sublist entries := by
  induction entries with
  | nil => intro before; exact List.Sublist.slnil
  | cons t rest ih =>
    intro before
    simp only [keptBySpec]
    split
    · exact (ih _).cons₂ t
    · exact (ih _).cons t

theorem keptBySpec_fresh (lower : JSString → JSString) (entries : List TareaEntry) :
    ∀ before, ((keptBySpec lower entries before).map (TareaEntry.normalized lower)).Nodup ∧
      ∀ k ∈ keptBySpec lower entries before, ∀ u ∈ before,
        u.normalized lower ≠ k.normalized lower := by
  induction entries with
  | nil => intro before; simp [keptBySpec]
  | cons t rest ih =>
    intro before
    simp only [keptBySpec]
    split
    · rename_i hk
      obtain ⟨hnd, hfresh⟩ := ih (before ++ [t])
      refine ⟨?_, ?_⟩
      · rw [List.map_cons, List.nodup_cons]
        refine ⟨?_, hnd⟩
        intro hmem
        obtain ⟨k, hkm, hke⟩ := List.mem_map.mp hmem
        exact hfresh k hkm t (by simp) hke.symm
      · intro k hkm u hu
        rcases List.mem_cons.mp hkm with rfl | hkm
        · exact hk.2.2 u hu
        · exact hfresh k hkm u (by simp [hu])
    · exact ih before

theorem tareaDescripciones_insertsFor (fallback : JSString) (entries : List TareaEntry) :
    ∀ counter, tareaDescripciones (insertsFor fallback entries counter) =
      entries.map TareaEntry.trimmed := by
  induction entries with
  | nil => intro counter; rfl
  | cons t rest ih => intro counter; simp [insertsFor, tareaDescripciones, ih]

/-- For every new-tasks list of entries whose fields, when present, are strings, task
extraction persists exactly the entries that the rule of the specification keeps (`keptBySpec`:
an entry is kept if and only if its description is not empty or whitespace-only, its
normalized form, trimmed and lower-cased, has more than 5 code units, and no entry kept before
it has the same normalized form), in their original relative order, and no two persisted tasks
have the same normalized description. -/
theorem extractTareas_keeps_by_spec (lower : JSString → JSString) (fallback : JSString)
    (entries : List TareaEntry) :
    extractTareas lower (some fallback) (some (JSON.arr (entries.map TareaEntry.toJSON))) =
        (insertsFor fallback (keptBySpec lower entries []) 1, false) ∧
      (keptBySpec lower entries []).Sublist entries ∧
      tareaDescripciones (extractTareas lower (some fallback)
          (some (JSON.arr (entries.map TareaEntry.toJSON)))).1 =
        (keptBySpec lower entries []).map TareaEntry.trimmed ∧
      ((tareaDescripciones (extractTareas lower (some fallback)
          (some (JSON.arr (entries.map TareaEntry.toJSON)))).1).map lower).Nodup := by
  have hd : tareaDescripciones (extractTareas lower (some fallback)
      (some (JSON.arr (entries.map TareaEntry.toJSON)))).1 =
      (keptBySpec lower entries []).map TareaEntry.trimmed := by
    rw [extractTareas_toJSON]
    exact tareaDescripciones_insertsFor fallback _ 1
  refine ⟨extractTareas_toJSON lower fallback entries, keptBySpec_sublist lower entries [],
    hd, ?_⟩
  rw [hd, List.map_map]
  exact (keptBySpec_fresh lower entries []).1

theorem keptBySpec_congr (lower lower1 : JSString → JSString) (entries : List TareaEntry) :
    ∀ before, (∀ t ∈ entries ++ before, t.normalized lower = t.normalized lower1) →
      keptBySpec lower entries before = keptBySpec lower1 entries before := by
  induction entries with
  | nil => intro before _; rfl
  | cons t rest ih =>
    intro before h
    have ht : t.normalized lower = t.normalized lower1 := h t (by simp)
    have hall : (∀ u ∈ before, u.normalized lower ≠ t.normalized lower1) ↔
        (∀ u ∈ before, u.normalized lower1 ≠ t.normalized lower1) := by
      constructor
      · intro hu u hm; rw [← h u (by simp [hm])]; exact hu u hm
      · intro hu u hm; rw [h u (by simp [hm])]; exact hu u hm
    rw [keptBySpec, keptBySpec, ht,
      ih (before ++ [t]) (by intro u hu; apply h; simp at hu ⊢; tauto),
      ih before (by intro u hu; apply h; simp at hu ⊢; tauto)]
    simp only [hall]

/-- C3, amended: for the new-tasks list with the descriptions `Fix bug`, `  fix BUG ` and
`Ship release`, task extraction persists exactly 2 tasks, with the ids `tarea_1` and `tarea_2`,
in first-seen order: `Fix bug` first, `Ship release` second. `lower` is any function that, like
`toLowerCase`, lowers the letters A to Z in a string of code units below 128. -/
theorem extractTareas_three (lower : JSString → JSString) (fallback : JSString)
    (hl : ∀ str : JSString, (∀ c ∈ str, c < 128) → lower str = asciiLower str) :
    extractTareas lower (some fallback)
        (some (JSON.arr (threeTasks.map TareaEntry.toJSON))) =
      ([Effect.insertTarea (utf16 "tarea_1") (utf16 "Fix bug") [] (JSON.str fallback),
        Effect.insertTarea (utf16 "tarea_2") (utf16 "Ship release") [] (JSON.str fallback)],
        false) := by
  rw [extractTareas_toJSON]
  have hk : keptBySpec lower threeTasks [] = keptBySpec asciiLower threeTasks [] := by
    apply keptBySpec_congr
    intro t ht
    have hmem : t ∈ threeTasks := by simpa using ht
    have hascii : ∀ c ∈ t.trimmed, c < 128 := by
      revert t
      decide
    exact hl _ hascii
  rw [hk]
  have hv : keptBySpec asciiLower threeTasks [] =
      [{ id := none, descripcion := some (utf16 "Fix bug"), responsable := none,
         fecha_compromiso := none },
       { id := none, descripcion := some (utf16 "Ship release"), responsable := none,
         fecha_compromiso := none }] := by decide
  rw [hv]
  rfl

/-- C3 amended, with the lower-casing of the letters A to Z. -/
theorem extractTareas_three_witness :
    extractTareas asciiLower (some (utf16 "2024-01-10"))
        (some (JSON.arr (threeTasks.map TareaEntry.toJSON))) =
      ([Effect.insertTarea (utf16 "tarea_1") (utf16 "Fix bug") []
          (JSON.str (utf16 "2024-01-10")),
        Effect.insertTarea (utf16 "tarea_2") (utf16 "Ship release") []
          (JSON.str (utf16 "2024-01-10"))],
        false) :=
  extractTareas_three asciiLower (utf16 "2024-01-10") (fun _ _ => rfl)

/-- C3 fails as stated: the two tasks persisted for that list have the ids `tarea_1` and
`tarea_2`, not `task_1` and `task_2`. -/
theorem extractTareas_three_ids :
    tareaIds (extractTareas asciiLower (some (utf16 "2024-01-10"))
        (some (JSON.arr (threeTasks.map TareaEntry.toJSON)))).1 =
        [utf16 "tarea_1", utf16 "tarea_2"] ∧
      tareaIds (extractTareas asciiLower (some (utf16 "2024-01-10"))
        (some (JSON.arr (threeTasks.map TareaEntry.toJSON)))).1 ≠
        [utf16 "task_1", utf16 "task_2"] := by
  decide

theorem filter_insert_segmentUpdates (improved : List Segment) :
    ∀ ts, (segmentUpdates improved ts).filter Effect.isInsertTarea = [] := by
  induction improved with
  | nil => intro ts; simp [segmentUpdates]
  | cons imp rest ih =>
    intro ts
    cases ts with
    | nil => simp [segmentUpdates]
    | cons orig ts =>
      simp only [segmentUpdates]
      split
      · simp [Effect.isInsertTarea, ih]
      · exact ih ts

theorem filterTareas_length (items : List JSON) :
    ∀ kept, filterTareas items = some kept → kept.length ≤ items.length := by
  induction items with
  | nil => intro kept h; simp [filterTareas] at h; simp [← h]
  | cons t rest ih =>
    intro kept h
    simp only [filterTareas] at h
    split at h
    · simp at h
    · split at h
      · simp at h
      · rename_i keep _ rest1 hr
        have := ih rest1 hr
        simp only [Option.some.injEq] at h
        subst h
        split <;> simp <;> omega

theorem uniqueLoop_length (lower : JSString → JSString) (items : List JSON) :
    ∀ seen kept, uniqueLoop lower items seen = some kept → kept.length ≤ items.length := by
  induction items with
  | nil => intro seen kept h; simp [uniqueLoop] at h; simp [← h]
  | cons t rest ih =>
    intro seen kept h
    simp only [uniqueLoop] at h
    split at h
    · simp at h
    · split at h
      · split at h
        · rename_i kept1 hr
          have := ih _ kept1 hr
          simp only [Option.some.injEq] at h
          subst h
          simp; omega
        · simp at h
      · have := ih _ kept h
        simp; omega

theorem insertLoop_length (fallback : Option JSString) (items : List JSON) :
    ∀ counter, (insertLoop fallback items counter).1.length ≤ items.length := by
  induction items with
  | nil => intro counter; simp [insertLoop]
  | cons t rest ih =>
    intro counter
    simp only [insertLoop]
    split
    · have := ih (counter + 1)
      simp; omega
    · simp

theorem extractTareas_length (lower : JSString → JSString) (fallback : Option JSString)
    (acta : Acta) :
    (extractTareas lower fallback acta.tareasNuevas).1.length ≤ acta.newTasksLength := by
  unfold extractTareas Acta.newTasksLength
  split
  · rename_i items _
    split
    · split
      · exact Nat.zero_le _
      · rename_i kept hf
        split
        · exact Nat.zero_le _
        · rename_i uniq hu
          have h1 := filterTareas_length items kept hf
          have h2 := uniqueLoop_length lower kept [] uniq hu
          have h3 := insertLoop_length fallback uniq 1
          omega
    · exact Nat.zero_le _
  · exact Nat.zero_le _

/-- C9, amended: for every document produced by a regeneration, the number of tasks persisted
for the meeting by that regeneration is at most the length of the new-tasks list of the
document. -/
theorem persisted_tasks_le (lower : JSString → JSString) (w : World) (acta : Acta)
    (h : (generateActaIfReady lower w).outcome = Outcome.resolved (some acta)) :
    ((generateActaIfReady lower w).effects.filter Effect.isInsertTarea).length ≤
      acta.newTasksLength := by
  obtain ⟨meeting, ts, ident, content, hs⟩ := stores_of_resolved lower w acta h
  rw [generateActa_of_stores lower w meeting ts ident content acta hs]
  simp only [List.filter_append, filter_insert_segmentUpdates, List.append_nil]
  have h0 : (if w.configured = true then [Effect.refinementCall] else []).filter
      Effect.isInsertTarea = [] := by
    split <;> simp [Effect.isInsertTarea]
  have h1 : [Effect.synthesisCall, Effect.upsertActa acta.stored, Effect.deleteTareas].filter
      Effect.isInsertTarea = [] := by
    simp [Effect.isInsertTarea]
  rw [h0, h1]
  simp only [List.nil_append]
  exact le_trans (List.length_filter_le _ _) (extractTareas_length lower _ acta)

/-- C9 amended, on a document with eleven new tasks. -/
theorem persisted_tasks_le_witness :
    ((generateActaIfReady asciiLower (sampleWorld elevenTasks)).effects.filter
        Effect.isInsertTarea).length ≤ 11 :=
  persisted_tasks_le asciiLower (sampleWorld elevenTasks)
    (Acta.object
      [(utf16 "tareas_nuevas", JSON.arr
          ((List.range 11).map (fun i => JSON.obj
            [(utf16 "descripcion",
              JSON.str (utf16 "Tarea numero " ++ padStart 2 (i + 1)))]))),
       (utf16 "identificacion", sampleIdent.toJSON)])
    (by decide)

/-- C9 fails as stated: a regeneration whose document has eleven new tasks with distinct
descriptions persists eleven tasks. -/
theorem eleven_tasks_persisted :
    ((generateActaIfReady asciiLower (sampleWorld elevenTasks)).effects.filter
        Effect.isInsertTarea).length = 11 ∧
      ¬ ((generateActaIfReady asciiLower (sampleWorld elevenTasks)).effects.filter
        Effect.isInsertTarea).length ≤ 10 := by
  decide

/-! ## Numbering and due dates of the persisted tasks -/

theorem tareaIds_insertsFor (fallback : JSString) (entries : List TareaEntry) :
    ∀ counter, tareaIds (insertsFor fallback entries counter) =
      (List.range entries.length).map (fun j => tareaId (counter + j)) := by
  induction entries with
  | nil => intro counter; rfl
  | cons t rest ih =>
    intro counter
    simp only [insertsFor, tareaIds, ih, List.length_cons, List.range_succ_eq_map,
      List.map_cons, List.map_map, Nat.add_zero]
    congr 1
    apply List.map_congr_left
    intro j _
    simp only [Function.comp]
    congr 1
    omega

theorem insertsFor_eraseId (fallback : JSString) (entries : List TareaEntry) :
    ∀ counter, insertsFor fallback (entries.map TareaEntry.eraseId) counter =
      insertsFor fallback entries counter := by
  induction entries with
  | nil => intro counter; rfl
  | cons t rest ih => intro counter; simp [insertsFor, ih, TareaEntry.eraseId, TareaEntry.trimmed]

theorem keptBySpec_eraseId (lower : JSString → JSString) (entries : List TareaEntry) :
    ∀ before, keptBySpec lower (entries.map TareaEntry.eraseId)
        (before.map TareaEntry.eraseId) =
      (keptBySpec lower entries before).map TareaEntry.eraseId := by
  induction entries with
  | nil => intro before; rfl
  | cons t rest ih =>
    intro before
    have hn : ∀ u : TareaEntry, u.eraseId.normalized lower = u.normalized lower := fun _ => rfl
    have ht : t.eraseId.trimmed = t.trimmed := rfl
    have hall : (∀ u ∈ before.map TareaEntry.eraseId,
          u.normalized lower ≠ t.normalized lower) ↔
        (∀ u ∈ before, u.normalized lower ≠ t.normalized lower) := by
      simp [hn]
    rw [List.map_cons, keptBySpec, keptBySpec, ht, hn t]
    simp only [hall]
    have h1 := ih (before ++ [t])
    rw [List.map_append, List.map_cons, List.map_nil] at h1
    split
    · rw [List.map_cons, h1]
    · exact ih before

/-- For every new-tasks list of entries whose fields, when present, are strings, the
persisted tasks are those of the kept entries, in kept order, and their ids carry the numbers 1, 2, ..., k, where k is the number of kept entries;
two lists that differ only in the `id` fields of their entries persist the same tasks. -/
theorem extractTareas_numbering (lower : JSString → JSString) (fallback : JSString)
    (entries : List TareaEntry) :
    (extractTareas lower (some fallback) (some (JSON.arr (entries.map TareaEntry.toJSON)))).1 =
        insertsFor fallback (keptBySpec lower entries []) 1 ∧
      tareaIds (extractTareas lower (some fallback)
          (some (JSON.arr (entries.map TareaEntry.toJSON)))).1 =
        (List.range (keptBySpec lower entries []).length).map (fun j => tareaId (1 + j)) ∧
      ∀ others : List TareaEntry,
        others.map TareaEntry.eraseId = entries.map TareaEntry.eraseId →
        extractTareas lower (some fallback) (some (JSON.arr (others.map TareaEntry.toJSON))) =
          extractTareas lower (some fallback)
            (some (JSON.arr (entries.map TareaEntry.toJSON))) := by
  refine ⟨by rw [extractTareas_toJSON], ?_, ?_⟩
  · rw [extractTareas_toJSON]
    exact tareaIds_insertsFor fallback _ 1
  · intro others ho
    rw [extractTareas_toJSON, extractTareas_toJSON]
    have h1 := keptBySpec_eraseId lower others []
    have h2 := keptBySpec_eraseId lower entries []
    rw [List.map_nil, ho] at h1
    rw [List.map_nil] at h2
    rw [← insertsFor_eraseId fallback (keptBySpec lower others []),
      ← insertsFor_eraseId fallback (keptBySpec lower entries []), ← h1, ← h2]

theorem tareaFechas_append (a b : List Effect) :
    tareaFechas (a ++ b) = tareaFechas a ++ tareaFechas b := by
  induction a with
  | nil => rfl
  | cons e rest ih => cases e <;> simp [tareaFechas, ih]

theorem tareaFechas_segmentUpdates (improved : List Segment) :
    ∀ ts, tareaFechas (segmentUpdates improved ts) = [] := by
  induction improved with
  | nil => intro ts; simp [segmentUpdates, tareaFechas]
  | cons imp rest ih =>
    intro ts
    cases ts with
    | nil => simp [segmentUpdates, tareaFechas]
    | cons orig ts =>
      simp only [segmentUpdates]
      split
      · simp [tareaFechas, ih]
      · exact ih ts

theorem tareaFechas_insertsFor (computed : JSString) (entries : List TareaEntry) :
    ∀ counter, tareaFechas (insertsFor computed entries counter) =
      entries.map (TareaEntry.dueDate computed) := by
  induction entries with
  | nil => intro counter; rfl
  | cons t rest ih =>
    intro counter
    have hd : JSON.str (if (t.fecha_compromiso.getD []).isEmpty then computed
        else t.fecha_compromiso.getD []) = t.dueDate computed := by
      unfold TareaEntry.dueDate
      cases t.fecha_compromiso with
      | none => rfl
      | some f => cases f <;> rfl
    simp only [insertsFor, tareaFechas, ih, List.map_cons, hd]

/-- In a regeneration that stores a document whose new-tasks list is `entries`, entries
whose fields, when present, are strings, the due dates persisted are those of the kept entries, in order: the due date the entry supplies,
unchanged, when it supplies one, and otherwise the value of `addBusinessDays(date, 3)`, where
`date` is the date of the meeting (`meta.fecha`), or the current date when the meeting has
none. -/
theorem persisted_due_dates (lower : JSString → JSString) (w : World) (meeting : MeetingRow)
    (ts : List Segment) (ident : Identificacion) (content : JSString) (acta : Acta)
    (entries : List TareaEntry)
    (hs : StoresActa w meeting ts ident content acta)
    (ht : acta.tareasNuevas = some (JSON.arr (entries.map TareaEntry.toJSON))) :
    ∃ computed,
      addBusinessDays w.zone (if ident.fecha.isEmpty then isoDate w.now else ident.fecha) 3 =
        some computed ∧
      tareaFechas (generateActaIfReady lower w).effects =
        (keptBySpec lower entries []).map (TareaEntry.dueDate computed) := by
  obtain ⟨computed, hc⟩ := Option.isSome_iff_exists.mp hs.1.2.2.2.2.1
  refine ⟨computed, hc, ?_⟩
  rw [generateActa_of_stores lower w meeting ts ident content acta hs, ht, hc,
    extractTareas_toJSON]
  simp only [tareaFechas_append, tareaFechas_segmentUpdates, tareaFechas_insertsFor]
  have h0 : tareaFechas (if w.configured = true then [Effect.refinementCall] else []) = [] := by
    split <;> rfl
  rw [h0]
  rfl

/-- The due dates persisted for a document with one task that has a due date and one that
has none. -/
theorem persisted_due_dates_witness :
    ∃ computed,
      addBusinessDays (sampleWorld twoTasks).zone
          (if sampleIdent.fecha.isEmpty then isoDate (sampleWorld twoTasks).now
            else sampleIdent.fecha) 3 = some computed ∧
      tareaFechas (generateActaIfReady asciiLower (sampleWorld twoTasks)).effects =
        (keptBySpec asciiLower twoTaskEntries []).map (TareaEntry.dueDate computed) :=
  persisted_due_dates asciiLower (sampleWorld twoTasks)
    { cliente := some (utf16 "ACME"), proyecto := none, responsable := none,
      participantes := some (utf16 "[\"Ana\"]"),
      started_at := some (utf16 "2024-01-05T10:00:00.000Z"), ended_at := none }
    [⟨1, utf16 "hola", Speaker.str (utf16 "speaker1"), 0⟩] sampleIdent twoTasks
    (Acta.object
      [(utf16 "tareas_nuevas", JSON.arr (twoTaskEntries.map TareaEntry.toJSON)),
       (utf16 "identificacion", sampleIdent.toJSON)])
    twoTaskEntries
    ⟨⟨rfl, rfl, by decide, by decide, by decide, rfl, rfl, by decide⟩, by decide, rfl⟩
    rfl

/-! ## Entries of the new-tasks list that are no task objects -/

/-- C10 fails on the code. The new-tasks list holds an entry with the description
`Enviar contrato` and then `null`. The entry meets the conditions of the claim, and when it
stands alone it is persisted. With `null` behind it, the callback of `filter` (line 420) reads
`null.descripcion`: a TypeError leaves the callback of `DELETE FROM tareas` and no task is
persisted. -/
theorem extractTareas_null_entry :
    newTasksOf nullEntryTasks =
        [JSON.obj [(utf16 "descripcion", JSON.str (utf16 "Enviar contrato"))], JSON.null] ∧
      tareaDescripciones (generateActaIfReady asciiLower (sampleWorld oneTask)).effects =
        [utf16 "Enviar contrato"] ∧
      (generateActaIfReady asciiLower (sampleWorld oneTask)).uncaught = false ∧
      tareaDescripciones (generateActaIfReady asciiLower (sampleWorld nullEntryTasks)).effects =
        [] ∧
      (generateActaIfReady asciiLower (sampleWorld nullEntryTasks)).uncaught = true := by
  decide

/-- C11 fails on the code. The new-tasks list holds two entries with distinct descriptions,
the second with the number 7 as `responsable`. The filter and the loop over the descriptions
keep both, so k is 2. The first is inserted as `tarea_1`; for the second, line 446 calls
`trim` on the number, a TypeError leaves the callback and the task numbered 2 is never
persisted. -/
theorem numbering_stops_at_numeric_owner :
    (filterTareas (newTasksOf numericOwnerTasks)).bind
        (fun kept => uniqueLoop asciiLower kept []) =
        some
          [JSON.obj [(utf16 "descripcion", JSON.str (utf16 "Enviar contrato"))],
           JSON.obj [(utf16 "descripcion", JSON.str (utf16 "Revisar planos")),
             (utf16 "responsable", JSON.num ⟨false, 7, 0⟩)]] ∧
      tareaIds (generateActaIfReady asciiLower (sampleWorld numericOwnerTasks)).effects =
        [utf16 "tarea_1"] ∧
      (generateActaIfReady asciiLower (sampleWorld numericOwnerTasks)).uncaught = true := by
  decide

/-- C12 fails on the code. The one entry of the new-tasks list is kept and supplies the due
date 2024-02-01; its `responsable` is the number 7. Line 446 calls `trim` on the number, a
TypeError leaves the callback before the insert is issued, and no due date is persisted for
the kept task. -/
theorem due_date_not_persisted :
    (filterTareas (newTasksOf datedNumericOwnerTask)).bind
        (fun kept => uniqueLoop asciiLower kept []) =
        some
          [JSON.obj [(utf16 "descripcion", JSON.str (utf16 "Enviar contrato")),
             (utf16 "fecha_compromiso", JSON.str (utf16 "2024-02-01")),
             (utf16 "responsable", JSON.num ⟨false, 7, 0⟩)]] ∧
      tareaFechas (generateActaIfReady asciiLower (sampleWorld datedNumericOwnerTask)).effects =
        [] ∧
      (generateActaIfReady asciiLower (sampleWorld datedNumericOwnerTask)).uncaught = true := by
  decide

/-! ## The loop of `addBusinessDays` -/

theorem addLoop_done (z : Zone) (days fuel : Nat) (date : Option Int) (added : Nat)
    (h : ¬ added < days) : addLoop z days fuel date added = some date := by
  cases fuel <;> simp [addLoop, h]

theorem getDay_utc (t : Int) : getDay (Zone.fixed 0) t = utcWeekday t := by
  rw [getDay_fixed]
  simp [utcWeekday]

theorem utcWeekday_add (t : Int) (i : Nat) :
    utcWeekday (t + i * msPerDay) = (utcWeekday t + i) % 7 := by
  unfold utcWeekday msPerDay
  omega

theorem utcWeekday_succ (t : Int) : utcWeekday (t + msPerDay) = (utcWeekday t + 1) % 7 := by
  unfold utcWeekday msPerDay
  omega

theorem businessDaysAfter_add (a : Nat) : ∀ (t : Int) (b : Nat),
    businessDaysAfter t (a + b) = businessDaysAfter t a + businessDaysAfter (t + a * msPerDay) b := by
  induction a with
  | zero => intro t b; simp [businessDaysAfter]
  | succ a ih =>
    intro t b
    have e : a + 1 + b = (a + b) + 1 := by omega
    rw [e, businessDaysAfter, businessDaysAfter, ih (t + msPerDay) b]
    have e2 : t + msPerDay + (a : Int) * msPerDay = t + ((a + 1 : Nat) : Int) * msPerDay := by
      push_cast; ring
    rw [e2]
    omega

theorem businessDaysAfter_week (t : Int) : businessDaysAfter t 7 = 5 := by
  have hr : 0 ≤ utcWeekday t ∧ utcWeekday t < 7 := by
    unfold utcWeekday; omega
  simp only [businessDaysAfter, isBusinessDay, utcWeekday_succ]
  generalize utcWeekday t = r at hr
  obtain ⟨h0, h7⟩ := hr
  interval_cases r <;> decide

theorem businessDaysAfter_weeks (n : Nat) : ∀ t : Int, n ≤ businessDaysAfter t (7 * n) := by
  induction n with
  | zero => intro t; exact Nat.zero_le _
  | succ n ih =>
    intro t
    have e : 7 * (n + 1) = 7 + 7 * n := by omega
    rw [e, businessDaysAfter_add, businessDaysAfter_week]
    have := ih (t + (7 : Nat) * msPerDay)
    omega

theorem addLoop_counts (days : Nat) : ∀ (fuel : Nat) (t : Int) (added : Nat),
    added < days → -8640000000000000 ≤ t → t + fuel * msPerDay ≤ 8640000000000000 →
    days - added ≤ businessDaysAfter t fuel →
    ∃ k : Nat, 1 ≤ k ∧ k ≤ fuel ∧
      addLoop (Zone.fixed 0) days fuel (some t) added = some (some (t + k * msPerDay)) ∧
      isBusinessDay (t + k * msPerDay) = true ∧
      added + businessDaysAfter t k = days := by
  intro fuel
  induction fuel with
  | zero =>
    intro t added ha _ _ hreach
    simp only [businessDaysAfter] at hreach
    omega
  | succ fuel ih =>
    intro t added ha hlo hhi hreach
    have hD : (0 : Int) < msPerDay := by decide
    have hhi1 : t + msPerDay + fuel * msPerDay ≤ 8640000000000000 := by
      have e : t + ((fuel + 1 : Nat) : Int) * msPerDay = t + msPerDay + fuel * msPerDay := by
        push_cast; ring
      rw [← e]; exact hhi
    have hfuel : (0 : Int) ≤ fuel * msPerDay := by positivity
    have hclip : timeClip (t + msPerDay) = some (t + msPerDay) := by
      unfold timeClip
      rw [if_pos]
      omega
    have hstep : addLoop (Zone.fixed 0) days (fuel + 1) (some t) added =
        addLoop (Zone.fixed 0) days fuel (some (t + msPerDay))
          (if isBusinessDay (t + msPerDay) = true then added + 1 else added) := by
      rw [addLoop, if_pos ha]
      simp only [Option.bind, nextDay_fixed, hclip, getDay_utc]
      rfl
    rw [businessDaysAfter] at hreach
    by_cases hb : isBusinessDay (t + msPerDay) = true
    · rw [if_pos hb] at hreach
      by_cases hlast : added + 1 < days
      · obtain ⟨k, hk1, hk2, hrun, hbd, hcount⟩ :=
          ih (t + msPerDay) (added + 1) hlast (by omega) hhi1 (by omega)
        have e : t + msPerDay + (k : Int) * msPerDay = t + ((k + 1 : Nat) : Int) * msPerDay := by
          push_cast; ring
        refine ⟨k + 1, by omega, by omega, ?_, ?_, ?_⟩
        · rw [hstep, if_pos hb, hrun, e]
        · rw [← e]; exact hbd
        · rw [businessDaysAfter, if_pos hb]; omega
      · refine ⟨1, Nat.le_refl _, by omega, ?_, ?_, ?_⟩
        · rw [hstep, if_pos hb, addLoop_done (Zone.fixed 0) days fuel _ _ hlast]
          simp
        · simpa using hb
        · simp only [businessDaysAfter, if_pos hb]; omega
    · rw [if_neg hb] at hreach
      obtain ⟨k, hk1, hk2, hrun, hbd, hcount⟩ :=
        ih (t + msPerDay) added ha (by omega) hhi1 (by omega)
      have e : t + msPerDay + (k : Int) * msPerDay = t + ((k + 1 : Nat) : Int) * msPerDay := by
        push_cast; ring
      refine ⟨k + 1, by omega, by omega, ?_, ?_, ?_⟩
      · rw [hstep, if_neg hb, hrun, e]
      · rw [← e]; exact hbd
      · rw [businessDaysAfter, if_neg hb]; omega

theorem digitsToNat_four (a b c d : Nat) (h : [a, b, c, d].all isDigit = true) :
    digitsToNat [a, b, c, d] ≤ 9999 := by
  simp only [List.all_cons, List.all_nil, Bool.and_true, Bool.and_eq_true, isDigit,
    decide_eq_true_eq] at h
  simp only [digitsToNat, List.foldl]
  omega

theorem parseDate_midnight (s : JSString) (t : Int) (h : parseDate s = some t) :
    t % msPerDay = 0 ∧ -8640000000000000 ≤ t ∧ t ≤ 300000000000000 := by
  unfold parseDate at h
  split at h
  · rename_i y1 y2 y3 y4 s1 m1 m2 s2 d1 d2
    split at h
    · rename_i hform
      simp only at h
      split at h
      · rename_i hvalid
        have hyn : digitsToNat [y1, y2, y3, y4] ≤ 9999 := by
          apply digitsToNat_four
          have := hform.2.2
          simp only [List.all_cons, List.all_nil, Bool.and_true, Bool.and_eq_true] at this ⊢
          exact ⟨this.1, this.2.1, this.2.2.1, this.2.2.2.1⟩
        have hy : (digitsToNat [y1, y2, y3, y4] : Int) ≤ 9999 := by exact_mod_cast hyn
        have hy0 : (0 : Int) ≤ (digitsToNat [y1, y2, y3, y4] : Int) := Int.natCast_nonneg _
        have hm := hvalid.1
        have hm2 := hvalid.2.1
        have hd := hvalid.2.2.1
        have hd2 : (digitsToNat [d1, d2] : Int) ≤ 31 := by
          refine le_trans hvalid.2.2.2 ?_
          unfold daysInMonth
          split
          · split <;> decide
          · split <;> decide
        simp only [Option.some.injEq] at h
        rw [← h]
        generalize (digitsToNat [y1, y2, y3, y4] : Int) = y at *
        generalize (digitsToNat [m1, m2] : Int) = m at *
        generalize (digitsToNat [d1, d2] : Int) = d at *
        unfold daysFromCivil msPerDay
        simp only
        refine ⟨by omega, ?_, ?_⟩
        · split <;> split <;> omega
        · split <;> split <;> omega
      · simp at h
    · simp at h
  · simp at h

theorem addLoop_invalid (z : Zone) (days : Nat) : ∀ (fuel added : Nat) (t : Int),
    addLoop z days fuel none added ≠ some (some t) := by
  intro fuel
  induction fuel with
  | zero => intro added t; simp only [addLoop]; split <;> simp
  | succ fuel ih =>
    intro added t
    simp only [addLoop]
    split
    · exact ih _ t
    · simp

theorem addLoop_reaches (tz : Int) (days : Nat) : ∀ (fuel : Nat) (t : Int) (added : Nat) (r : Int),
    addLoop (Zone.fixed tz) days fuel (some t) added = some (some r) →
    t + ((days - added : Nat) : Int) * msPerDay ≤ r ∧ (added < days → r ≤ 8640000000000000) := by
  intro fuel
  induction fuel with
  | zero =>
    intro t added r h
    simp only [addLoop] at h
    split at h
    · simp at h
    · rename_i hd
      simp only [Option.some.injEq] at h
      have e : days - added = 0 := by omega
      rw [e, ← h]
      exact ⟨by simp, fun hlt => absurd hlt hd⟩
  | succ fuel ih =>
    intro t added r h
    by_cases ha : added < days
    · rw [addLoop, if_pos ha] at h
      simp only [Option.bind, nextDay_fixed] at h
      cases hclip : timeClip (t + msPerDay) with
      | none =>
        simp only [hclip] at h
        exact absurd h (addLoop_invalid (Zone.fixed tz) days fuel _ r)
      | some u =>
        simp only [hclip] at h
        have hu : u = t + msPerDay ∧ u ≤ 8640000000000000 := by
          unfold timeClip at hclip
          split at hclip
          · simp only [Option.some.injEq] at hclip
            subst hclip
            exact ⟨rfl, by omega⟩
          · simp at hclip
        have hD : (0 : Int) < msPerDay := by decide
        generalize hadd : (if (getDay (Zone.fixed tz) u != 0 && getDay (Zone.fixed tz) u != 6) = true then added + 1
          else added) = added1 at h
        have hadd1 : added ≤ added1 ∧ added1 ≤ added + 1 := by
          rw [← hadd]; split <;> omega
        obtain ⟨h1, h2⟩ := ih u added1 r h
        refine ⟨?_, fun _ => ?_⟩
        · have hle : ((days - added : Nat) : Int) ≤ ((days - added1 : Nat) : Int) + 1 := by
            omega
          have hmul := mul_le_mul_of_nonneg_right hle (le_of_lt hD)
          rw [hu.1] at h1
          linarith
        · by_cases hlt : added1 < days
          · exact h2 hlt
          · rw [addLoop_done (Zone.fixed tz) days fuel _ _ hlt] at h
            simp only [Option.some.injEq] at h
            rw [← h]; exact hu.2
    · rw [addLoop_done (Zone.fixed tz) days (fuel + 1) _ _ ha] at h
      simp only [Option.some.injEq] at h
      have e : days - added = 0 := by omega
      rw [e, ← h]
      exact ⟨by simp, fun hlt => absurd hlt ha⟩

/-- Where local time is UTC or ahead of it by a fixed offset of at most 14 hours, for every
start date `d` written `YYYY-MM-DD` and every count N from 1 to 10,000,000,
`addBusinessDays(d, N)` ends and returns the date of the `k`-th day after `d` for some
`k ≥ 1`: that date falls Monday to Friday, and exactly N days falling Monday to Friday lie
strictly after `d` and up to and including it. -/
theorem addBusinessDays_counts (tz : Int) (d : JSString) (t0 : Int) (n : Nat)
    (htz : 0 ≤ tz ∧ tz ≤ 840) (hd : parseDate d = some t0) (hn : 1 ≤ n ∧ n ≤ 10000000) :
    ∃ k : Nat, 1 ≤ k ∧
      addBusinessDays (Zone.fixed tz) d n = some (isoDate (t0 + k * msPerDay)) ∧
      isBusinessDay (t0 + k * msPerDay) = true ∧
      businessDaysAfter t0 k = n := by
  obtain ⟨hmid, hlo, hhi⟩ := parseDate_midnight d t0 hd
  have hnew : newDate d = some t0 := by unfold newDate; rw [hd]
  have hzone := addLoop_zone tz (by omega) htz.2 n (7 * n) (some t0) 0
    (by intro t ht; cases ht; exact hmid)
  rw [if_neg (by omega)] at hzone
  have hrange : t0 + ((7 * n : Nat) : Int) * msPerDay ≤ 8640000000000000 := by
    have : ((7 * n : Nat) : Int) * msPerDay ≤ 7 * 10000000 * 86400000 := by
      unfold msPerDay; push_cast; omega
    omega
  obtain ⟨k, hk1, _, hrun, hbd, hcount⟩ :=
    addLoop_counts n (7 * n) t0 0 (by omega) hlo hrange
      (by have := businessDaysAfter_weeks n t0; omega)
  refine ⟨k, hk1, ?_, hbd, by omega⟩
  unfold addBusinessDays
  rw [hnew]
  simp only [hzone, hrun]

/-- At UTC, on the start date 2024-01-05 and the count 3: the weekend is skipped and `k` is
5. -/
theorem addBusinessDays_counts_witness :
    ∃ k : Nat, 1 ≤ k ∧
      addBusinessDays (Zone.fixed 0) (utf16 "2024-01-05") 3 = some (isoDate (1704412800000 + k * msPerDay)) ∧
      isBusinessDay (1704412800000 + k * msPerDay) = true ∧
      businessDaysAfter 1704412800000 k = 3 :=
  addBusinessDays_counts 0 (utf16 "2024-01-05") 1704412800000 3 (by decide) (by decide)
    (by decide)

theorem addBusinessDays_out_of_range (tz : Int) (d : JSString) (t0 : Int) (n : Nat)
    (hp : newDate d = some t0) (hn : 0 < n)
    (hr : 8640000000000000 < t0 + (n : Int) * msPerDay) : addBusinessDays (Zone.fixed tz) d n = none := by
  unfold addBusinessDays
  rw [hp]
  simp only
  cases hrun : addLoop (Zone.fixed tz) n (7 * n) (some t0) 0 with
  | none => rfl
  | some res =>
    cases res with
    | none => rfl
    | some r =>
      have h := addLoop_reaches tz n _ _ _ r hrun
      have h1 := h.1
      have h2 := h.2 hn
      rw [Nat.sub_zero] at h1
      omega

/-- C13 fails on the code. Where local time is six hours behind UTC, `addBusinessDays` of
2024-01-03, a Wednesday, and 3 returns 2024-01-06, a Saturday: `getDay()` reads the local
weekday of a date parsed and written in UTC. And for the count 200,000,000 the date leaves the
range of time values, `toISOString()` raises a RangeError and no date is returned. -/
theorem addBusinessDays_saturday :
    addBusinessDays (Zone.fixed (-360)) (utf16 "2024-01-03") 3 = some (utf16 "2024-01-06") ∧
      parseDate (utf16 "2024-01-06") = some 1704499200000 ∧
      utcWeekday 1704499200000 = 6 ∧
      isBusinessDay 1704499200000 = false ∧
      addBusinessDays (Zone.fixed 0) (utf16 "2024-01-05") 200000000 = none :=
  ⟨by decide, by decide, by decide, by decide,
    addBusinessDays_out_of_range 0 (utf16 "2024-01-05") 1704412800000 200000000 (by decide)
      (by omega) (by unfold msPerDay; omega)⟩

/-! ## What refinement leaves untouched -/

theorem refineLoop_untouched (lines : List JSString) :
    ∀ (ts : List Segment) (m : List (JSString × JSString)) (k i : Nat) (line : JSString),
      lines[i]? = some line → matchLine line = none →
      (refineLoop lines ts m k)[i]? = ts[i]? := by
  induction lines with
  | nil => intro ts m k i line h; simp at h
  | cons l rest ih =>
    intro ts m k i line h hm
    cases ts with
    | nil => simp [refineLoop]
    | cons t ts =>
      cases i with
      | zero =>
        simp only [List.getElem?_cons_zero, Option.some.injEq] at h
        subst h
        simp [refineLoop, hm]
      | succ j =>
        simp only [List.getElem?_cons_succ] at h
        simp only [refineLoop]
        split
        · split
          · simp only [List.getElem?_cons_succ]; exact ih ts _ _ j line h hm
          · simp only [List.getElem?_cons_succ]; exact ih ts _ _ j line h hm
        · simp only [List.getElem?_cons_succ]; exact ih ts _ _ j line h hm

theorem padResult_getElem (result ts : List Segment) (i : Nat) :
    (padResult result ts)[i]? = if i < result.length then result[i]? else ts[i]? := by
  unfold padResult
  split
  · rename_i h
    rw [List.getElem?_append_left h]
  · rename_i h
    rw [List.getElem?_append_right (by omega), List.getElem?_drop]
    congr 1
    omega

theorem improveSpeakers_returns (c : Option JSString) (ts : List Segment)
    (h : (ts.length == 0) = false) :
    improveSpeakersWithLLM true (Completion.returns c) ts =
      padResult (refineLoop (responseLines (c.getD [])) ts [] 1) ts := by
  have hlen := padResult_length (refineLoop (responseLines (c.getD [])) ts [] 1) ts
    (by rw [refineLoop_length]; exact Nat.min_le_right _ _)
  unfold improveSpeakersWithLLM
  simp only [Bool.not_true, Bool.false_or, h, Bool.false_eq_true, if_false]
  unfold responseLines at hlen ⊢
  rw [if_pos]
  simp only [hlen, bne_iff_ne, ne_eq]
  simpa using h

/-- C16: a position whose returned line matches neither pattern, and a position for which the
response has no non-empty line, holds in the refined sequence the very segment of the input
sequence: same speaker, same text. -/
theorem improveSpeakers_untouched (configured : Bool) (completion : Completion)
    (ts : List Segment) (i : Nat)
    (h : ∀ c, completion = Completion.returns c →
      (responseLines (c.getD []))[i]? = none ∨
      ∃ line, (responseLines (c.getD []))[i]? = some line ∧ matchLine line = none) :
    (improveSpeakersWithLLM configured completion ts)[i]? = ts[i]? := by
  by_cases hskip : (!configured || ts.length == 0) = true
  · unfold improveSpeakersWithLLM
    rw [if_pos hskip]
  · have hc : configured = true := by
      cases configured
      · simp at hskip
      · rfl
    have hne : (ts.length == 0) = false := by
      cases hl : (ts.length == 0)
      · rfl
      · simp [hl] at hskip
    subst hc
    cases completion with
    | throws => unfold improveSpeakersWithLLM; simp [hne]
    | returns c =>
      rw [improveSpeakers_returns c ts hne, padResult_getElem]
      have hlen := refineLoop_length (responseLines (c.getD [])) ts [] 1
      rcases h c rfl with hnone | ⟨line, hline, hm⟩
      · have hi : (responseLines (c.getD [])).length ≤ i := by
          by_contra hcon
          rw [List.getElem?_eq_getElem (by omega)] at hnone
          simp at hnone
        rw [if_neg (by omega)]
      · split
        · exact refineLoop_untouched _ ts [] 1 i line hline hm
        · rfl

/-- C16, on a response whose first line has no bracket. -/
theorem improveSpeakers_untouched_witness :
    (improveSpeakersWithLLM true
        (Completion.returns (some (utf16 "sin formato\n[Ana]: hola a todos"))) threeSegments)[0]? =
      threeSegments[0]? :=
  improveSpeakers_untouched true _ threeSegments 0 (fun c hc => by
    cases hc
    exact Or.inr ⟨utf16 "sin formato", by decide, by decide⟩)

theorem refineLoop_identity (lines : List JSString) :
    ∀ (ts : List Segment) (m : List (JSString × JSString)) (k : Nat),
      (padResult (refineLoop lines ts m k) ts).map (fun s => (s.id, s.chunk_number)) =
        ts.map (fun s => (s.id, s.chunk_number)) := by
  induction lines with
  | nil => intro ts m k; simp [refineLoop, padResult]
  | cons l rest ih =>
    intro ts m k
    cases ts with
    | nil => simp [refineLoop, padResult]
    | cons t ts =>
      have h := ih ts
      simp only [padResult, List.map_append] at h
      simp only [refineLoop]
      split
      · split
        · simp only [padResult, List.map_append, List.length_cons, List.drop_succ_cons,
            List.map_cons, List.cons_append, List.cons.injEq, true_and]
          exact h _ _
        · simp only [padResult, List.map_append, List.length_cons, List.drop_succ_cons,
            List.map_cons, List.cons_append, List.cons.injEq, true_and]
          exact h _ _
      · simp only [padResult, List.map_append, List.length_cons, List.drop_succ_cons,
          List.map_cons, List.cons_append, List.cons.injEq, true_and]
        exact h _ _

/-- C17: for every input sequence and every outcome of the completion call, the refined
sequence has, position by position, the row ids and the chunk numbers of the input sequence:
refinement rewrites speakers and texts and never reorders, inserts or removes a position. -/
theorem improveSpeakers_identity (configured : Bool) (completion : Completion)
    (ts : List Segment) :
    (improveSpeakersWithLLM configured completion ts).map (fun s => (s.id, s.chunk_number)) =
      ts.map (fun s => (s.id, s.chunk_number)) := by
  unfold improveSpeakersWithLLM
  split
  · rfl
  · cases completion with
    | throws => rfl
    | returns c =>
      simp only
      split
      · exact refineLoop_identity _ ts [] 1
      · rfl

/-- C14 fails on the code. The two lines `[Speaker 1]: hola` and `[Speaker 1]: adios` are in
flat form with the same label, `Speaker 1`. The key looked up in `speakerMap` is
`match[2] || match[1]`, which for the flat pattern is the text of the line, not its label: the
first segment gets `Speaker1`, the second `Speaker2`. The texts are set as the claim says. -/
theorem flat_lines_same_label :
    matchLine (utf16 "[Speaker 1]: hola") =
        some ⟨utf16 "Speaker 1", utf16 "hola", none⟩ ∧
      matchLine (utf16 "[Speaker 1]: adios") =
        some ⟨utf16 "Speaker 1", utf16 "adios", none⟩ ∧
      (improveSpeakersWithLLM true
          (Completion.returns (some (utf16 "[Speaker 1]: hola\n[Speaker 1]: adios")))
          threeSegments).map (fun s => (s.speaker, s.text)) =
        [(Speaker.str (utf16 "Speaker1"), utf16 "hola"),
         (Speaker.str (utf16 "Speaker2"), utf16 "adios"),
         (Speaker.str (utf16 "speaker1"), utf16 "empezamos")] := by
  decide

/-- C15 fails on the code. `speakerMap` is an object literal, so the read
`speakerMap["constructor"]` finds the member `constructor` of `Object.prototype`: the label
`constructor` is never given a token and the speaker of its segment is that inherited member,
and the next label, `Ana`, the second distinct one, gets `Speaker1`. -/
theorem nested_line_inherited_label :
    matchLine (utf16 "[0]: [constructor]: hola") =
        some ⟨utf16 "0", utf16 "constructor", some (utf16 "hola")⟩ ∧
      matchLine (utf16 "[1]: [Ana]: bien") =
        some ⟨utf16 "1", utf16 "Ana", some (utf16 "bien")⟩ ∧
      (improveSpeakersWithLLM true
          (Completion.returns (some (utf16 "[0]: [constructor]: hola\n[1]: [Ana]: bien")))
          threeSegments).map (fun s => s.speaker) =
        [Speaker.inherited (utf16 "constructor"), Speaker.str (utf16 "Speaker1"),
         Speaker.str (utf16 "speaker1")] := by
  decide

/-! ## The updates of the stored segments -/

theorem segmentUpdates_eq_spec (improved : List Segment) :
    ∀ stored : List Segment, (∀ s ∈ stored, s.id ≠ 0) →
      segmentUpdates improved stored = updatesBySpec improved stored := by
  induction improved with
  | nil => intro stored _; simp [segmentUpdates, updatesBySpec]
  | cons imp rest ih =>
    intro stored hid
    cases stored with
    | nil => simp [segmentUpdates, updatesBySpec]
    | cons orig stored =>
      have h0 : orig.id ≠ 0 := hid orig (by simp)
      have hrest := ih stored (fun s hs => hid s (by simp [hs]))
      simp only [segmentUpdates, updatesBySpec, hrest]
      by_cases hd : imp.speaker ≠ orig.speaker ∨ imp.text ≠ orig.text
      · rw [if_pos hd, if_pos]
        simp only [bne_iff_ne, ne_eq, Bool.and_eq_true, Bool.or_eq_true, decide_eq_true_eq]
        exact ⟨h0, hd⟩
      · rw [if_neg hd, if_neg]
        simp only [bne_iff_ne, ne_eq, Bool.and_eq_true, Bool.or_eq_true, decide_eq_true_eq]
        exact fun h => hd h.2

theorem filter_update_segmentUpdates (improved : List Segment) :
    ∀ ts, (segmentUpdates improved ts).filter Effect.isUpdateSegment =
      segmentUpdates improved ts := by
  induction improved with
  | nil => intro ts; simp [segmentUpdates]
  | cons imp rest ih =>
    intro ts
    cases ts with
    | nil => simp [segmentUpdates]
    | cons orig ts =>
      simp only [segmentUpdates]
      split
      · simp [Effect.isUpdateSegment, ih]
      · exact ih ts

theorem filter_update_insertLoop (fallback : Option JSString) (items : List JSON) :
    ∀ counter, (insertLoop fallback items counter).1.filter Effect.isUpdateSegment = [] := by
  induction items with
  | nil => intro counter; simp [insertLoop]
  | cons t rest ih =>
    intro counter
    simp only [insertLoop]
    split
    · simp [Effect.isUpdateSegment, ih]
    · simp

theorem filter_update_extractTareas (lower : JSString → JSString) (fallback : Option JSString)
    (tareasNuevas : Option JSON) :
    (extractTareas lower fallback tareasNuevas).1.filter Effect.isUpdateSegment = [] := by
  unfold extractTareas
  split
  · split
    · split
      · rfl
      · split
        · rfl
        · exact filter_update_insertLoop _ _ _
    · rfl
  · rfl

/-- C18: in every call that reads the segments `ts` of an existing meeting, the updates issued
on `transcriptions` are exactly those of the specification (`updatesBySpec`): one update in
place, by row id, for each position whose refined speaker or refined text differs from the
stored one, none for the others; the call issues no other request on `transcriptions`. The row
ids are those that AUTOINCREMENT assigns, which are not 0. -/
theorem generateActa_updates (lower : JSString → JSString) (w : World) (meeting : MeetingRow)
    (ts : List Segment) (hm : w.meeting = some (some meeting))
    (hts : w.transcriptions = some ts) (hid : ∀ s ∈ ts, s.id ≠ 0) :
    (generateActaIfReady lower w).effects.filter Effect.isUpdateSegment =
      updatesBySpec (improveSpeakersWithLLM w.configured w.refinement ts) ts := by
  rw [← segmentUpdates_eq_spec _ ts hid]
  have h0 : (if w.configured = true then [Effect.refinementCall] else []).filter
      Effect.isUpdateSegment = [] := by
    split <;> simp [Effect.isUpdateSegment]
  unfold generateActaIfReady
  simp only [hm, hts]
  split
  · rename_i hlen
    have he : ts = [] := by
      cases ts with
      | nil => rfl
      | cons t rest => simp at hlen
    subst he
    simp [improveSpeakersWithLLM, segmentUpdates]
  · split
    · simp only [List.filter_append, h0, filter_update_segmentUpdates, List.nil_append]
    · split
      · simp only [List.filter_append, h0, filter_update_segmentUpdates, List.nil_append]
      · split
        · simp only [List.filter_append, h0, filter_update_segmentUpdates, List.nil_append]
        · split
          · simp [List.filter_append, h0, filter_update_segmentUpdates, Effect.isUpdateSegment]
          · simp [List.filter_append, h0, filter_update_segmentUpdates, Effect.isUpdateSegment]
          · split
            · simp [List.filter_append, h0, filter_update_segmentUpdates,
                Effect.isUpdateSegment]
            · split
              · simp [List.filter_append, h0, filter_update_segmentUpdates,
                  Effect.isUpdateSegment]
              · split
                · simp [List.filter_append, h0, filter_update_segmentUpdates,
                    Effect.isUpdateSegment]
                · simp [List.filter_append, h0, filter_update_segmentUpdates,
                    filter_update_extractTareas, Effect.isUpdateSegment]

/-- C18, on the three stored segments and a response that rewrites the second one. -/
theorem generateActa_updates_witness :
    (generateActaIfReady asciiLower
        { sampleWorld sampleContent with
          transcriptions := some threeSegments
          refinement := Completion.returns
            (some (utf16 "sin formato\n[0]: [Ana]: hola a todos")) }).effects.filter
        Effect.isUpdateSegment =
      [Effect.updateSegment 2 (Speaker.str (utf16 "Speaker1")) (utf16 "hola a todos")] :=
  generateActa_updates asciiLower
    { sampleWorld sampleContent with
      transcriptions := some threeSegments
      refinement := Completion.returns (some (utf16 "sin formato\n[0]: [Ana]: hola a todos")) }
    _ threeSegments rfl rfl (by decide)

/-! ## Properties of segment ingestion -/

theorem finalMark_append (a b : List ChunkEffect) :
    finalMark (a ++ b) = (finalMark b).orElse (fun _ => finalMark a) := by
  induction a with
  | nil => cases h : finalMark b <;> rw [List.nil_append, h] <;> rfl
  | cons e a ih =>
    cases hb : finalMark b with
    | none =>
      rw [hb] at ih
      simp only [Option.orElse] at ih ⊢
      cases e <;> simp only [List.cons_append, finalMark, List.append_eq, ih]
    | some q =>
      rw [hb] at ih
      simp only [Option.orElse] at ih ⊢
      cases e <;> simp only [List.cons_append, finalMark, List.append_eq, ih]

theorem finalMark_regeneration (es : List Effect) :
    finalMark (es.map ChunkEffect.regeneration) = none := by
  induction es with
  | nil => rfl
  | cons e es ih => simpa [finalMark] using ih

/-- A run that leaves the chunk skipped for want of quota (state 2) has inserted no segment:
the state 2 is written only when no key is configured or the transcription call throws a
quota error, and both happen before any insert. -/
theorem processChunk_skipped_inserts_nothing (lower : JSString → JSString) (w : World)
    (asr : Transcription)
    (h : finalMark (processChunkWithWhisper lower w asr).effects = some 2) :
    insertedSegments (processChunkWithWhisper lower w asr).effects = [] := by
  unfold processChunkWithWhisper at h ⊢
  by_cases hc : w.configured = true
  · simp only [hc, Bool.not_true, Bool.false_eq_true, if_false] at h ⊢
    cases asr with
    | throwsQuota => rfl
    | throwsOther => rfl
    | returns segments text =>
      exfalso
      simp only at h
      cases ho : (generateActaIfReady lower w).outcome <;> simp only [ho] at h <;>
        simp [finalMark_append, finalMark_regeneration, finalMark, Option.orElse] at h
  · simp only [hc, Bool.not_false, if_true] at h ⊢
    rfl

/-- When the transcription call throws, whatever the error, no segment is inserted. -/
theorem processChunk_throw_inserts_nothing (lower : JSString → JSString) (w : World)
    (asr : Transcription) (h : asr = Transcription.throwsQuota ∨ asr = Transcription.throwsOther) :
    insertedSegments (processChunkWithWhisper lower w asr).effects = [] := by
  unfold processChunkWithWhisper
  by_cases hc : w.configured = true
  · rcases h with h | h <;> subst h <;> simp [hc, insertedSegments]
  · simp [hc, insertedSegments]

/-- C19 (the code departs from it): a chunk of a meeting that has no row is transcribed to the
text `hola`. The segment is inserted and the chunk marked processed; the awaited regeneration
then rejects (`Meeting not found`), the `catch` of `processChunkWithWhisper` takes the
rejection for a failure of the chunk and marks it failed: the run ends with the chunk marked
failed (-1) and one segment persisted for it. -/
theorem processChunk_failed_with_segment :
    (processChunkWithWhisper asciiLower { sampleWorld sampleContent with meeting := some none }
        (Transcription.returns none (some (utf16 "hola")))).effects =
      [ChunkEffect.transcriptionCall,
       ChunkEffect.insertSegment (Speaker.str (utf16 "speaker1")) (utf16 "hola"),
       ChunkEffect.markChunk 1, ChunkEffect.markChunk (-1)] ∧
    finalMark (processChunkWithWhisper asciiLower
        { sampleWorld sampleContent with meeting := some none }
        (Transcription.returns none (some (utf16 "hola")))).effects = some (-1) ∧
    (processChunkWithWhisper asciiLower { sampleWorld sampleContent with meeting := some none }
        (Transcription.returns none (some (utf16 "hola")))).outcome =
      ChunkOutcome.returned false := by
  decide

/-- C20 (the code departs from it): a response of three segments tagged `constructor`, `A`
and `constructor`. The map is an object literal, so `speakerMap['constructor']` is the member
inherited from `Object.prototype` and truthy: the first distinct tag gets no token, its segments
are inserted with the inherited member as speaker, and the second distinct tag `A` gets the
token number 1. -/
theorem ingest_inherited_tag :
    insertedSegments (processChunkWithWhisper asciiLower (sampleWorld sampleContent)
        (Transcription.returns
          (some [⟨none, some (utf16 "constructor"), some (utf16 "uno")⟩,
                 ⟨none, some (utf16 "A"), some (utf16 "dos")⟩,
                 ⟨none, some (utf16 "constructor"), some (utf16 "tres")⟩])
          none)).effects =
      [(Speaker.inherited (utf16 "constructor"), utf16 "uno"),
       (Speaker.str (utf16 "speaker1"), utf16 "dos"),
       (Speaker.inherited (utf16 "constructor"), utf16 "tres")] := by
  decide

/-! ## Responses without speaker tags -/

theorem insertedSegments_append (a b : List ChunkEffect) :
    insertedSegments (a ++ b) = insertedSegments a ++ insertedSegments b := by
  induction a with
  | nil => rfl
  | cons e a ih => cases e <;> simp [insertedSegments, ih]

theorem insertedSegments_regeneration (es : List Effect) :
    insertedSegments (es.map ChunkEffect.regeneration) = [] := by
  induction es with
  | nil => rfl
  | cons e es ih => simpa [insertedSegments] using ih

theorem processChunk_inserted (lower : JSString → JSString) (w : World)
    (segments : Option (List AsrSegment)) (text : Option JSString) (hc : w.configured = true) :
    insertedSegments (processChunkWithWhisper lower w (Transcription.returns segments text)).effects =
      insertedSegments (ingestResponse segments text) := by
  unfold processChunkWithWhisper
  simp only [hc, Bool.not_true, Bool.false_eq_true, if_false]
  cases (generateActaIfReady lower w).outcome <;>
    simp [insertedSegments_append, insertedSegments_regeneration, insertedSegments]

theorem speakerKey_untagged (s : AsrSegment) (h : s.untagged = true) :
    speakerKey s = utf16 "speaker" := by
  unfold AsrSegment.untagged at h
  simp only [Bool.and_eq_true] at h
  simp [speakerKey, h.1, h.2]

theorem ingestLoop_untagged (k : Nat) :
    ∀ segs : List AsrSegment, (∀ s ∈ segs, s.untagged = true) →
      insertedSegments (ingestLoop segs [(utf16 "speaker", ingestToken 1)] k) =
        segs.map (fun s => (Speaker.str (utf16 "speaker1"), orEmpty s.text)) := by
  intro segs
  induction segs with
  | nil => intro _; rfl
  | cons s rest ih =>
    intro h
    have hk := speakerKey_untagged s (h s (List.mem_cons_self _ _))
    have hr := ih (fun x hx => h x (List.mem_cons_of_mem _ hx))
    have hl : speakerMapGet [(utf16 "speaker", ingestToken 1)] (utf16 "speaker") =
        some (Speaker.str (utf16 "speaker1")) := by decide
    simp only [ingestLoop, hk, hl, insertedSegments, hr, List.map_cons]

/-- C21, amended: for every response of the transcription service, with an API key configured.
When the response has no segment (no array, or an empty one) and its aggregate text is not
empty, exactly one segment is inserted, with the speaker `speaker1` and the aggregate text.
When it has segments and none carries a speaker tag, one segment is inserted for each of them,
all with the speaker `speaker1`, whether or not there is an aggregate text. -/
theorem ingest_without_tags (lower : JSString → JSString) (w : World)
    (segments : Option (List AsrSegment)) (text : Option JSString) (hc : w.configured = true)
    (hu : ∀ s ∈ segments.getD [], s.untagged = true) :
    insertedSegments
        (processChunkWithWhisper lower w (Transcription.returns segments text)).effects =
      if (segments.getD []).isEmpty then
        (if (orEmpty text).isEmpty then [] else [(Speaker.str (utf16 "speaker1"), orEmpty text)])
      else (segments.getD []).map (fun s => (Speaker.str (utf16 "speaker1"), orEmpty s.text)) := by
  rw [processChunk_inserted lower w segments text hc]
  unfold ingestResponse
  cases hs : segments.getD [] with
  | nil =>
    simp only [List.length_nil, gt_iff_lt, lt_self_iff_false, if_false, List.isEmpty_nil, if_true]
    by_cases ht : (orEmpty text).isEmpty = true
    · simp [ht, insertedSegments]
    · simp [ht, insertedSegments]
  | cons s rest =>
    rw [hs] at hu
    have hk := speakerKey_untagged s (hu s (List.mem_cons_self _ _))
    have hr := ingestLoop_untagged 2 rest (fun x hx => hu x (List.mem_cons_of_mem _ hx))
    have hl : speakerMapGet [] (utf16 "speaker") = none := by decide
    simp only [List.length_cons, gt_iff_lt, Nat.zero_lt_succ, if_true, List.isEmpty_cons,
      Bool.false_eq_true, if_false, ingestLoop, hk, hl, insertedSegments, List.map_cons]
    rw [hr]
    rfl

/-- C21 amended, on a response with the aggregate text `hola` and no segments. -/
theorem ingest_without_tags_witness :
    insertedSegments
        (processChunkWithWhisper asciiLower (sampleWorld sampleContent)
          (Transcription.returns none (some (utf16 "hola")))).effects =
      [(Speaker.str (utf16 "speaker1"), utf16 "hola")] :=
  ingest_without_tags asciiLower (sampleWorld sampleContent) none (some (utf16 "hola")) rfl
    (by decide)

/-- C21 fails as stated: a response with the aggregate text `hola adios` and two segments
without speaker tag. Two segments are inserted, not one: the single insert of the aggregate
text is made only when the response has no segments. -/
theorem ingest_untagged_segments :
    insertedSegments
        (processChunkWithWhisper asciiLower (sampleWorld sampleContent)
          (Transcription.returns
            (some [⟨none, none, some (utf16 "hola")⟩, ⟨none, none, some (utf16 "adios")⟩])
            (some (utf16 "hola adios")))).effects =
      [(Speaker.str (utf16 "speaker1"), utf16 "hola"),
       (Speaker.str (utf16 "speaker1"), utf16 "adios")] := by
  decide

/-! ## Outcomes of the regeneration -/

theorem writesDocument_segmentUpdates (improved : List Segment) :
    ∀ stored : List Segment, ∀ e ∈ segmentUpdates improved stored, e.writesDocument = false := by
  induction improved with
  | nil => intro stored e he; simp [segmentUpdates] at he
  | cons imp rest ih =>
    intro stored e he
    cases stored with
    | nil => simp [segmentUpdates] at he
    | cons orig stored =>
      simp only [segmentUpdates] at he
      split at he
      · rcases List.mem_cons.mp he with h | h
        · subst h; rfl
        · exact ih stored e h
      · exact ih stored e he

/-- C22: in every call that reads the meeting and its segments and builds `meta`, if no API
key is configured, or the synthesis call returns no content (a missing or an empty one), the
promise resolves with `null` (nothing is raised: it neither rejects nor stays pending) and no
request writes to `actas` or to `tareas`. -/
theorem generateActa_no_content (lower : JSString → JSString) (w : World)
    (meeting : MeetingRow) (ts : List Segment) (ident : Identificacion)
    (hm : w.meeting = some (some meeting)) (hts : w.transcriptions = some ts)
    (hi : buildMeta w.zone meeting = some ident)
    (hd : (addBusinessDays w.zone (fechaHoy w ident) 3).isSome)
    (h : w.configured = false ∨ w.synthesis = Completion.returns none ∨
      w.synthesis = Completion.returns (some [])) :
    (generateActaIfReady lower w).outcome = Outcome.resolved none ∧
      ∀ e ∈ (generateActaIfReady lower w).effects, e.writesDocument = false := by
  obtain ⟨d, hd⟩ := Option.isSome_iff_exists.mp hd
  unfold generateActaIfReady
  simp only [hm, hts, hi, hd]
  by_cases hne : (ts.length == 0) = true
  · simp [hne]
  · simp only [hne, Bool.false_eq_true, if_false]
    by_cases hc : w.configured = true
    · have hs : w.synthesis = Completion.returns none ∨
          w.synthesis = Completion.returns (some []) := by
        rcases h with h | h
        · rw [hc] at h; cases h
        · exact h
      simp only [hc, Bool.not_true, Bool.false_eq_true, if_false, if_true]
      rcases hs with hs | hs <;> simp only [hs, List.isEmpty_nil, if_true, true_and] <;>
        intro e he <;> simp only [List.mem_append, List.mem_singleton] at he <;>
        rcases he with (he | he) | he
      all_goals first
        | (subst he; rfl)
        | exact writesDocument_segmentUpdates _ _ e he
    · simp only [hc, Bool.not_false, if_true, Bool.false_eq_true, if_false, List.nil_append,
        true_and]
      intro e he
      exact writesDocument_segmentUpdates _ _ e he

/-- C22, on the sample meeting when no API key is configured. -/
theorem generateActa_no_content_witness :
    (generateActaIfReady asciiLower
        { sampleWorld sampleContent with configured := false }).outcome = Outcome.resolved none ∧
      ∀ e ∈ (generateActaIfReady asciiLower
        { sampleWorld sampleContent with configured := false }).effects,
        e.writesDocument = false :=
  generateActa_no_content asciiLower { sampleWorld sampleContent with configured := false }
    _ _ sampleIdent rfl rfl (by decide) (by decide) (Or.inl rfl)

theorem upsert_not_mem_segmentUpdates (a : JSON) (improved stored : List Segment) :
    Effect.upsertActa a ∉ segmentUpdates improved stored := by
  intro h
  have := writesDocument_segmentUpdates improved stored _ h
  simp [Effect.writesDocument] at this

theorem upsert_not_mem_prefix (a : JSON) (c : Bool) (improved stored : List Segment) :
    Effect.upsertActa a ∉
      (if c = true then [Effect.refinementCall] else []) ++ segmentUpdates improved stored := by
  intro h
  rcases List.mem_append.mp h with h | h
  · cases c <;> simp at h
  · exact upsert_not_mem_segmentUpdates a improved stored h

/-- C23: the promise of `generateActaIfReady` is rejected exactly when the lookup of the
meeting reports an error or finds no row, or the read of the segments reports an error, or the
upsert of the document is issued and reports an error. What the completion service does at
refinement has no part in how the promise ends, and when the synthesis call throws the promise
is rejected only for the lookup or for the read. -/
theorem generateActa_rejects_iff (lower : JSString → JSString) (w : World) :
    ((generateActaIfReady lower w).outcome = Outcome.rejected ↔
      (w.meeting = none ∨ w.meeting = some none ∨
        ((∃ meeting, w.meeting = some (some meeting)) ∧ w.transcriptions = none) ∨
        (w.upsertFails = true ∧
          ∃ acta, Effect.upsertActa acta ∈ (generateActaIfReady lower w).effects))) ∧
    (∀ r : Completion,
      (generateActaIfReady lower { w with refinement := r }).outcome =
        (generateActaIfReady lower w).outcome) ∧
    ((generateActaIfReady lower { w with synthesis := Completion.throws }).outcome =
        Outcome.rejected ↔
      (w.meeting = none ∨ w.meeting = some none ∨
        ((∃ meeting, w.meeting = some (some meeting)) ∧ w.transcriptions = none))) := by
  refine ⟨?_, ?_, ?_⟩
  · unfold generateActaIfReady
    cases hm : w.meeting with
    | none => simp
    | some mo =>
      cases mo with
      | none => simp
      | some meeting =>
        cases hts : w.transcriptions with
        | none => simp
        | some ts =>
          simp only [reduceCtorEq, false_or, Option.some.injEq, exists_eq', true_and, and_false]
          split
          · simp
          · split
            · simp [upsert_not_mem_segmentUpdates]
            · split
              · simp [upsert_not_mem_segmentUpdates]
              · split
                · simp [upsert_not_mem_segmentUpdates]
                · split
                  · simp [upsert_not_mem_segmentUpdates]
                  · simp [upsert_not_mem_segmentUpdates]
                  · split
                    · simp [upsert_not_mem_segmentUpdates]
                    · split
                      · simp [upsert_not_mem_segmentUpdates]
                      · split
                        · rename_i hu
                          simp [hu]
                        · rename_i hu
                          simp [hu]
  · intro r
    obtain ⟨tz, now, c, m, t, rf, sy, uf⟩ := w
    simp only [generateActaIfReady, fechaHoy]
    repeat' split
    all_goals rfl
  · unfold generateActaIfReady
    cases hm : w.meeting with
    | none => simp
    | some mo =>
      cases mo with
      | none => simp
      | some meeting =>
        cases hts : w.transcriptions with
        | none => simp
        | some ts =>
          simp only [reduceCtorEq, false_or, Option.some.injEq, exists_eq', true_and, and_false]
          split
          · simp
          · split
            · simp
            · split
              · simp
              · split
                · simp
                · simp

/-- C24: when no API key is configured, or the completion call of the refinement throws,
`improveSpeakersWithLLM` returns the sequence it was given (the function of the embedding is
total: nothing is raised). -/
theorem improveSpeakers_degrades (configured : Bool) (completion : Completion)
    (ts : List Segment) (h : configured = false ∨ completion = Completion.throws) :
    improveSpeakersWithLLM configured completion ts = ts := by
  unfold improveSpeakersWithLLM
  rcases h with h | h
  · simp [h]
  · subst h
    split <;> rfl

/-- C24, on three segments when the completion call throws. -/
theorem improveSpeakers_degrades_witness :
    improveSpeakersWithLLM true Completion.throws threeSegments = threeSegments :=
  improveSpeakers_degrades true Completion.throws threeSegments (Or.inr rfl)

/-! ## The stored tasks after a regeneration -/

theorem tareasAfter_append (f : Bool) (rows : List TareaRow) (a b : List Effect) :
    tareasAfter f rows (a ++ b) = tareasAfter f (tareasAfter f rows a) b := by
  simp [tareasAfter, List.foldl_append]

theorem tareasAfter_of_no_write (f : Bool) (rows : List TareaRow) :
    ∀ es : List Effect, (∀ e ∈ es, e.writesDocument = false) →
      tareasAfter f rows es = rows := by
  intro es
  induction es generalizing rows with
  | nil => intro _; rfl
  | cons e es ih =>
    intro h
    have he := h e (List.mem_cons_self _ _)
    have hr := ih rows (fun x hx => h x (List.mem_cons_of_mem _ hx))
    cases e <;> simp [Effect.writesDocument] at he <;>
      simpa [tareasAfter, applyTareas] using hr

theorem tareasAfter_inserts (f : Bool) (rows : List TareaRow) :
    ∀ es : List Effect, (∀ e ∈ es, e.isInsertTarea = true) →
      tareasAfter f rows es = rows ++ insertedRows es := by
  intro es
  induction es generalizing rows with
  | nil => intro _; simp [tareasAfter, insertedRows]
  | cons e es ih =>
    intro h
    have he := h e (List.mem_cons_self _ _)
    cases e <;> simp [Effect.isInsertTarea] at he
    rename_i i d r f
    have hr := ih (rows ++ [⟨i, d, r, f⟩]) (fun x hx => h x (List.mem_cons_of_mem _ hx))
    simp only [tareasAfter, List.foldl_cons, applyTareas, insertedRows] at hr ⊢
    rw [hr]
    simp

theorem insertLoop_inserts (fallback : Option JSString) :
    ∀ (items : List JSON) (counter : Nat),
      ∀ e ∈ (insertLoop fallback items counter).1, e.isInsertTarea = true := by
  intro items
  induction items with
  | nil => intro counter e he; simp [insertLoop] at he
  | cons t rest ih =>
    intro counter e he
    simp only [insertLoop] at he
    split at he
    · rcases List.mem_cons.mp he with h | h
      · subst h; rfl
      · exact ih _ e h
    · simp at he

theorem extractTareas_inserts (lower : JSString → JSString) (fallback : Option JSString)
    (tareasNuevas : Option JSON) :
    ∀ e ∈ (extractTareas lower fallback tareasNuevas).1, e.isInsertTarea = true := by
  intro e he
  unfold extractTareas at he
  split at he
  · split at he
    · split at he
      · simp at he
      · split at he
        · simp at he
        · exact insertLoop_inserts fallback _ _ e he
    · simp at he
  · simp at he

/-- When `DELETE FROM tareas` succeeds and the statements of a regeneration that produces a
document run alone, in the order in which they were issued, the rows of `tareas` of the meeting
are afterwards exactly those this regeneration inserts, whatever rows were stored before. -/
theorem tareas_replaced (lower : JSString → JSString) (w : World) (acta : Acta)
    (h : (generateActaIfReady lower w).outcome = Outcome.resolved (some acta))
    (before : List TareaRow) :
    ∃ meeting ident, w.meeting = some (some meeting) ∧ buildMeta w.zone meeting = some ident ∧
      tareasAfter false before (generateActaIfReady lower w).effects =
        insertedRows
          (extractTareas lower (addBusinessDays w.zone (fechaHoy w ident) 3)
            acta.tareasNuevas).1 := by
  obtain ⟨meeting, ts, ident, content, hs⟩ := stores_of_resolved lower w _ h
  refine ⟨meeting, ident, hs.1.1, hs.1.2.2.2.1, ?_⟩
  rw [generateActa_of_stores lower w meeting ts ident content _ hs]
  rw [tareasAfter_append, tareasAfter_append, tareasAfter_append]
  rw [tareasAfter_inserts _ _ _ (extractTareas_inserts lower _ _)]
  have h3 : ∀ r : List TareaRow, tareasAfter false r
      [Effect.synthesisCall, Effect.upsertActa acta.stored, Effect.deleteTareas] = [] := by
    intro r; rfl
  rw [h3]
  rfl

/-- C25 fails on the code. A task `vieja uno` is stored for the meeting and a regeneration
produces a document with two new tasks. When `DELETE FROM tareas` ends in an error, the
callback of line 418 does not look at it and the inserts follow: the old task survives beside
the two new ones. And when the statements of two such regenerations interleave, both deletes
running before the inserts of either, the two new tasks are stored twice. -/
theorem tareas_survive_failed_delete :
    (generateActaIfReady asciiLower (sampleWorld twoTasks)).outcome =
        Outcome.resolved (some (Acta.object
          [(utf16 "tareas_nuevas", JSON.arr (twoTaskEntries.map TareaEntry.toJSON)),
           (utf16 "identificacion", sampleIdent.toJSON)])) ∧
      tareasAfter true [⟨utf16 "tarea_1", utf16 "vieja uno", [], JSON.str (utf16 "2023-12-01")⟩]
          (generateActaIfReady asciiLower (sampleWorld twoTasks)).effects =
        [⟨utf16 "tarea_1", utf16 "vieja uno", [], JSON.str (utf16 "2023-12-01")⟩,
         ⟨utf16 "tarea_1", utf16 "Enviar contrato", [], JSON.str (utf16 "2024-02-01")⟩,
         ⟨utf16 "tarea_2", utf16 "Revisar planos", utf16 "Ana", JSON.str (utf16 "2024-01-10")⟩] ∧
      tareasAfter false [⟨utf16 "tarea_1", utf16 "vieja uno", [], JSON.str (utf16 "2023-12-01")⟩]
          ([Effect.deleteTareas, Effect.deleteTareas] ++
            (generateActaIfReady asciiLower (sampleWorld twoTasks)).effects.filter
              Effect.isInsertTarea ++
            (generateActaIfReady asciiLower (sampleWorld twoTasks)).effects.filter
              Effect.isInsertTarea) =
        [⟨utf16 "tarea_1", utf16 "Enviar contrato", [], JSON.str (utf16 "2024-02-01")⟩,
         ⟨utf16 "tarea_2", utf16 "Revisar planos", utf16 "Ana", JSON.str (utf16 "2024-01-10")⟩,
         ⟨utf16 "tarea_1", utf16 "Enviar contrato", [], JSON.str (utf16 "2024-02-01")⟩,
         ⟨utf16 "tarea_2", utf16 "Revisar planos", utf16 "Ana", JSON.str (utf16 "2024-01-10")⟩] :=
  ⟨by decide, by decide, by decide⟩

/-! ## The index of a nested-form line -/

theorem takeWhile_run (p : Nat → Bool) (l : JSString) (c : Nat) (r : JSString)
    (hl : l.all p = true) (hc : p c = false) : (l ++ c :: r).takeWhile p = l := by
  rw [List.takeWhile_append_of_pos (by simpa using hl)]
  simp [List.takeWhile, hc]

theorem dropWhile_run (p : Nat → Bool) (l : JSString) (c : Nat) (r : JSString)
    (hl : l.all p = true) (hc : p c = false) : (l ++ c :: r).dropWhile p = c :: r := by
  rw [List.dropWhile_append_of_pos (by simpa using hl)]
  simp [List.dropWhile, hc]

theorem nestedAt_nestedLine (idx ws label rest : JSString) (h : NestedParts idx ws label rest) :
    nestedAt (nestedLine idx ws label rest) =
      some ⟨idx, label, some (rest.dropWhile isSpace)⟩ := by
  obtain ⟨hi, hid, hws, hl, hlab, hr⟩ := h
  have e1 : nestedLine idx ws label rest =
      91 :: (idx ++ 93 :: 58 :: (ws ++ 91 :: (label ++ 93 :: 58 :: rest))) := by
    simp [nestedLine]
  have t1 := takeWhile_run isDigit idx 93 (58 :: (ws ++ 91 :: (label ++ 93 :: 58 :: rest))) hid
    (by decide)
  have d1 := dropWhile_run isDigit idx 93 (58 :: (ws ++ 91 :: (label ++ 93 :: 58 :: rest))) hid
    (by decide)
  have d2 := dropWhile_run isSpace ws 91 (label ++ 93 :: 58 :: rest) hws (by decide)
  have t3 := takeWhile_run (fun c => c != 93) label 93 (58 :: rest) hlab (by decide)
  have d3 := dropWhile_run (fun c => c != 93) label 93 (58 :: rest) hlab (by decide)
  have hi1 : idx.isEmpty = false := by cases idx <;> simp_all
  have hl1 : label.isEmpty = false := by cases label <;> simp_all
  rw [e1]
  unfold nestedAt
  simp only [eat, if_true, Option.bind_eq_bind, Option.some_bind, t1, d1, d2, t3, d3, hi1, hl1,
    hr, Bool.false_eq_true, if_false, Option.pure_def, bind_pure_comp, Option.map_some']

theorem matchLine_nestedLine (idx ws label rest : JSString) (h : NestedParts idx ws label rest) :
    matchLine (nestedLine idx ws label rest) =
      some ⟨idx, label, some (rest.dropWhile isSpace)⟩ := by
  have hn := nestedAt_nestedLine idx ws label rest h
  have e1 : nestedLine idx ws label rest =
      91 :: (idx ++ 93 :: 58 :: (ws ++ 91 :: (label ++ 93 :: 58 :: rest))) := by
    simp [nestedLine]
  rw [e1] at hn ⊢
  simp [matchLine, search, hn]

theorem refineLoop_index_free (lines lines1 : List JSString)
    (h : List.Forall₂ SameButIndex lines lines1) :
    ∀ (ts : List Segment) (m : List (JSString × JSString)) (k : Nat),
      refineLoop lines ts m k = refineLoop lines1 ts m k := by
  induction h with
  | nil => intro ts m k; rfl
  | cons hd _ ih =>
    intro ts m k
    cases ts with
    | nil => simp [refineLoop]
    | cons t ts =>
      cases hd with
      | same line =>
        simp only [refineLoop]
        split
        · split
          · rw [ih]
          · rw [ih]
        · rw [ih]
      | nested i j ws label rest hi hj =>
        have hl : label.isEmpty = false := by
          have := hi.2.2.2.1
          cases label <;> simp_all
        simp only [refineLoop, matchLine_nestedLine _ _ _ _ hi, matchLine_nestedLine _ _ _ _ hj,
          hl, Bool.false_eq_true, if_false]
        split
        · rw [ih]
        · rw [ih]

theorem refineLoop_nested (lines : List JSString) :
    ∀ (ts : List Segment) (m : List (JSString × JSString)) (k j : Nat)
      (idx ws label rest : JSString) (seg : Segment),
      NestedParts idx ws label rest → lines[j]? = some (nestedLine idx ws label rest) →
      ts[j]? = some seg →
      ∃ sp, (refineLoop lines ts m k)[j]? =
        some { seg with
          speaker := sp
          text := trim (if (rest.dropWhile isSpace).isEmpty then label
            else rest.dropWhile isSpace) } := by
  induction lines with
  | nil => intro ts m k j idx ws label rest seg _ h; simp at h
  | cons l lines ih =>
    intro ts m k j idx ws label rest seg hp h hs
    cases ts with
    | nil => simp at hs
    | cons t ts =>
      cases j with
      | zero =>
        simp only [List.getElem?_cons_zero, Option.some.injEq] at h hs
        subst h
        subst hs
        have hl : label.isEmpty = false := by
          have := hp.2.2.2.1
          cases label <;> simp_all
        simp only [refineLoop, matchLine_nestedLine _ _ _ _ hp, hl, Bool.false_eq_true, if_false]
        split
        · rename_i sp _
          exact ⟨sp, by simp⟩
        · exact ⟨Speaker.str (speakerToken k), by simp⟩
      | succ j =>
        simp only [List.getElem?_cons_succ] at h hs
        simp only [refineLoop]
        split
        · split
          · simp only [List.getElem?_cons_succ]; exact ih ts _ _ j idx ws label rest seg hp h hs
          · simp only [List.getElem?_cons_succ]; exact ih ts _ _ j idx ws label rest seg hp h hs
        · simp only [List.getElem?_cons_succ]; exact ih ts _ _ j idx ws label rest seg hp h hs

/-- C29: the lines of the response are aligned with the segments by position only. If the
non-empty lines of two responses are, position by position, equal or nested-form lines
`[idx]: [label]: text` that differ in `idx` alone, both responses give the same refined
sequence. And a nested-form line that is the `j`-th non-empty line rewrites the segment at
position `j`, whatever its index says: that segment keeps its row and gets the text of the
line (the label, when the line has no text). -/
theorem improveSpeakers_index_free (configured : Bool) (ts : List Segment)
    (c c1 : Option JSString)
    (h : List.Forall₂ SameButIndex (responseLines (c.getD [])) (responseLines (c1.getD []))) :
    improveSpeakersWithLLM configured (Completion.returns c) ts =
        improveSpeakersWithLLM configured (Completion.returns c1) ts ∧
      ∀ (j : Nat) (idx ws label rest : JSString) (seg : Segment),
        configured = true → NestedParts idx ws label rest →
        (responseLines (c.getD []))[j]? = some (nestedLine idx ws label rest) →
        ts[j]? = some seg →
        ∃ sp, (improveSpeakersWithLLM configured (Completion.returns c) ts)[j]? =
          some { seg with
            speaker := sp
            text := trim (if (rest.dropWhile isSpace).isEmpty then label
              else rest.dropWhile isSpace) } := by
  constructor
  · by_cases hc : configured = true
    · subst hc
      by_cases hne : (ts.length == 0) = true
      · simp [improveSpeakersWithLLM, hne]
      · have hne1 : (ts.length == 0) = false := by simpa using hne
        rw [improveSpeakers_returns c ts hne1, improveSpeakers_returns c1 ts hne1,
          refineLoop_index_free _ _ h]
    · simp [improveSpeakersWithLLM, hc]
  · intro j idx ws label rest seg hc hp hl hs
    subst hc
    have hne1 : (ts.length == 0) = false := by
      cases ts with
      | nil => simp at hs
      | cons t ts => simp
    rw [improveSpeakers_returns c ts hne1, padResult_getElem]
    have hjl : j < (responseLines (c.getD [])).length := by
      by_contra hcon
      rw [List.getElem?_eq_none (by omega)] at hl
      cases hl
    have hjt : j < ts.length := by
      by_contra hcon
      rw [List.getElem?_eq_none (by omega)] at hs
      cases hs
    rw [if_pos (by rw [refineLoop_length]; exact Nat.lt_min.mpr ⟨hjl, hjt⟩)]
    exact refineLoop_nested _ ts [] 1 j idx ws label rest seg hp hl hs

/-- C29, on two responses whose second lines carry the indices 1 and 57. -/
theorem improveSpeakers_index_free_witness :
    improveSpeakersWithLLM true
        (Completion.returns (some (utf16 "sin formato\n[1]: [Ana]: hola a todos"))) threeSegments =
      improveSpeakersWithLLM true
        (Completion.returns (some (utf16 "sin formato\n[57]: [Ana]: hola a todos")))
        threeSegments :=
  (improveSpeakers_index_free true threeSegments
    (some (utf16 "sin formato\n[1]: [Ana]: hola a todos"))
    (some (utf16 "sin formato\n[57]: [Ana]: hola a todos"))
    (List.Forall₂.cons (SameButIndex.same _)
      (List.Forall₂.cons
        (SameButIndex.nested (utf16 "1") (utf16 "57") (utf16 " ") (utf16 "Ana")
          (utf16 " hola a todos") (by unfold NestedParts; decide)
          (by unfold NestedParts; decide))
        List.Forall₂.nil))).1

/-! ## Calls of `generateActaIfReady` that overlap -/

theorem advance_append_last (calls : List Stage) (s : Stage) :
    advance calls.length (calls ++ [s]) = calls ++ [s.next] := by
  induction calls with
  | nil => rfl
  | cons c calls ih => simp [advance, ih]

theorem runServer_append (a b : List ServerEvent) :
    runServer (a ++ b) = b.foldl serverStep (runServer a) := by
  simp [runServer, List.foldl_append]

theorem runServer_overlapping (n : Nat) :
    runServer (overlapping n) = List.replicate n Stage.synthesis := by
  induction n with
  | zero => rfl
  | succ n ih =>
    have hlen : (List.replicate n Stage.synthesis).length = n := List.length_replicate _ _
    have h1 := advance_append_last (List.replicate n Stage.synthesis) Stage.meetingLookup
    have h2 := advance_append_last (List.replicate n Stage.synthesis) Stage.segmentRead
    have h3 := advance_append_last (List.replicate n Stage.synthesis) Stage.refinement
    rw [hlen] at h1 h2 h3
    rw [overlapping, runServer_append, ih]
    simp only [triggerToSynthesis, List.foldl_cons, List.foldl_nil, serverStep, h1, Stage.next,
      h2, h3]
    rw [List.replicate_succ']

theorem length_advance (i : Nat) (calls : List Stage) :
    (advance i calls).length = calls.length := by
  induction calls generalizing i with
  | nil => cases i <;> rfl
  | cons c calls ih => cases i <;> simp [advance, ih]

theorem length_foldl_serverStep (events : List ServerEvent) :
    ∀ calls : List Stage,
      (events.foldl serverStep calls).length =
        calls.length + events.count ServerEvent.trigger := by
  induction events with
  | nil => intro calls; simp
  | cons e events ih =>
    intro calls
    cases e with
    | trigger =>
      simp only [List.foldl_cons, serverStep, ih, List.length_append, List.length_singleton,
        List.count_cons_self]
      omega
    | completes i =>
      simp only [List.foldl_cons, serverStep, ih, length_advance]
      rw [List.count_cons_of_ne (by simp)]

/-- C28, amended: the calls of `generateActaIfReady` for one meeting are not serialized. After
any sequence of events the number of calls made is the number of triggers: every trigger starts
a call of its own at once, none is held back, queued or merged with another. And for every `n`
there is a sequence of events, `n` triggers that overlap, after which `n` synthesis completions
of the meeting are in flight at one time. -/
theorem regenerations_not_serialized (events : List ServerEvent) (n : Nat) :
    (runServer events).length = events.count ServerEvent.trigger ∧
      synthesesInFlight (runServer (overlapping n)) = n ∧
      regenerationsInFlight (runServer (overlapping n)) = n := by
  refine ⟨?_, ?_, ?_⟩
  · simpa [runServer] using length_foldl_serverStep events []
  · rw [runServer_overlapping]
    simp [synthesesInFlight]
  · rw [runServer_overlapping]
    simp [regenerationsInFlight, List.filter_replicate]

/-- C28 fails as stated: two chunks of one meeting are stored while the regeneration started
for the first is waiting for its synthesis completion. The second trigger starts a second
call, which reaches its own synthesis completion: two are in flight at a time, and no run has
been queued. -/
theorem two_syntheses_in_flight :
    runServer
        [ServerEvent.trigger, ServerEvent.completes 0, ServerEvent.completes 0,
          ServerEvent.completes 0, ServerEvent.trigger, ServerEvent.completes 1,
          ServerEvent.completes 1, ServerEvent.completes 1] =
      [Stage.synthesis, Stage.synthesis] ∧
    synthesesInFlight
        (runServer
          [ServerEvent.trigger, ServerEvent.completes 0, ServerEvent.completes 0,
            ServerEvent.completes 0, ServerEvent.trigger, ServerEvent.completes 1,
            ServerEvent.completes 1, ServerEvent.completes 1]) = 2 := by
  decide

/-! ## Comments in the completion text -/

/-- C27 (the code departs from it): the text `commentedContent` is valid JSON once its block
comment is removed. The prepared text does not parse, for the comment. The first `catch` then
removes the block comment and, with `/\/\/.*$/gm`, everything from the `//` of the address to
the end of the line, although these two code units stand inside a string: what is left does
not parse either, and the repair yields the default document, not the parse of the
comment-free text. -/
theorem repair_comment_in_string :
    JSON.parse uncommentedContent =
        some (JSON.obj
          [(utf16 "resumen_reunion", JSON.str (utf16 "ver http://acme.test")),
           (utf16 "tareas_nuevas", JSON.arr [])]) ∧
      preparedText commentedContent = commentedContent ∧
      JSON.parse commentedContent = none ∧
      replaceAll blockCommentAt 0 commentedContent = uncommentedContent ∧
      stripComments commentedContent = utf16 "\x7b\"resumen_reunion\": \"ver http:" ∧
      repair (utf16 "2024-01-05") commentedContent = defaultActa (utf16 "2024-01-05") := by
  decide

/-! ## The round trip through `JSON.stringify` and `JSON.parse` -/

theorem hexVal_hexDigit (n : Nat) (h : n < 16) : hexVal (hexDigit n) = some n := by
  interval_cases n <;> rfl

theorem parseStringBody_unicodeEscape (c : Nat) (hc : c < 65536) (tail : JSString) :
    parseStringBody (unicodeEscape c ++ tail) =
      (parseStringBody tail).map (fun p => (c :: p.1, p.2)) := by
  have h1 := hexVal_hexDigit (c / 4096 % 16) (Nat.mod_lt _ (by decide))
  have h2 := hexVal_hexDigit (c / 256 % 16) (Nat.mod_lt _ (by decide))
  have h3 := hexVal_hexDigit (c / 16 % 16) (Nat.mod_lt _ (by decide))
  have h4 := hexVal_hexDigit (c % 16) (Nat.mod_lt _ (by decide))
  have hv : (((c / 4096 % 16) * 16 + c / 256 % 16) * 16 + c / 16 % 16) * 16 + c % 16 = c := by
    omega
  simp only [unicodeEscape, List.cons_append, List.nil_append]
  rw [parseStringBody.eq_def]
  simp only [show (92 : Nat) ≠ 34 by decide, if_false, if_true, h1, h2, h3, h4, hv]
  cases parseStringBody tail <;> rfl

theorem parseStringBody_literal (c : Nat) (h1 : c ≠ 34) (h2 : c ≠ 92) (h3 : ¬ c < 32)
    (tail : JSString) :
    parseStringBody (c :: tail) = (parseStringBody tail).map (fun p => (c :: p.1, p.2)) := by
  rw [parseStringBody.eq_def]
  simp only [h1, h2, h3, if_false]
  cases parseStringBody tail <;> rfl

theorem parseStringBody_short (e u : Nat) (he : e ≠ 117) (hu : escapeUnit e = some u)
    (tail : JSString) :
    parseStringBody (92 :: e :: tail) = (parseStringBody tail).map (fun p => (u :: p.1, p.2)) := by
  rw [parseStringBody.eq_def]
  simp only [show (92 : Nat) ≠ 34 by decide, if_false, if_true, he, hu]
  cases parseStringBody tail <;> rfl

theorem parseStringBody_quoteUnit (c : Nat) (hc : c < 55296 ∨ 57343 < c) (tail : JSString) :
    parseStringBody (quoteUnit c ++ tail) =
      (parseStringBody tail).map (fun p => (c :: p.1, p.2)) := by
  unfold quoteUnit
  split
  · rename_i h; subst h
    exact parseStringBody_short 98 8 (by decide) (by decide) tail
  split
  · rename_i h; subst h
    exact parseStringBody_short 116 9 (by decide) (by decide) tail
  split
  · rename_i h; subst h
    exact parseStringBody_short 110 10 (by decide) (by decide) tail
  split
  · rename_i h; subst h
    exact parseStringBody_short 102 12 (by decide) (by decide) tail
  split
  · rename_i h; subst h
    exact parseStringBody_short 114 13 (by decide) (by decide) tail
  split
  · rename_i h; subst h
    exact parseStringBody_short 34 34 (by decide) (by decide) tail
  split
  · rename_i h; subst h
    exact parseStringBody_short 92 92 (by decide) (by decide) tail
  split
  · rename_i h
    exact parseStringBody_unicodeEscape c (by omega) tail
  · rename_i h34 h92 h32
    exact parseStringBody_literal c h34 h92 h32 tail

theorem parseStringBody_quoteBody :
    ∀ (n : Nat) (s : JSString), s.length ≤ n → ∀ rest : JSString,
      parseStringBody (quoteBody s ++ 34 :: rest) = some (s, rest) := by
  intro n
  induction n with
  | zero =>
    intro s hs rest
    have : s = [] := List.eq_nil_of_length_eq_zero (by omega)
    subst this
    simp [quoteBody, parseStringBody.eq_def]
  | succ n ih =>
    intro s hs rest
    match s, hs with
    | [], _ => simp [quoteBody, parseStringBody.eq_def]
    | [c], _ =>
      have h0 : parseStringBody (34 :: rest) = some ([], rest) := by simp [parseStringBody.eq_def]
      simp only [quoteBody]
      split
      · rw [parseStringBody_unicodeEscape c (by omega), h0]; rfl
      · rw [parseStringBody_quoteUnit c (by omega), h0]; rfl
    | c :: d :: r, hs =>
      have ih1 := ih (d :: r) (by simp only [List.length_cons] at hs ⊢; omega) rest
      have ih2 := ih r (by simp only [List.length_cons] at hs ⊢; omega) rest
      simp only [quoteBody]
      split
      · rename_i hc
        split
        · rename_i hd
          simp only [List.cons_append]
          rw [parseStringBody_literal c (by omega) (by omega) (by omega),
            parseStringBody_literal d (by omega) (by omega) (by omega), ih2]
          rfl
        · rw [List.append_assoc, parseStringBody_unicodeEscape c (by omega), ih1]; rfl
      · split
        · rw [List.append_assoc, parseStringBody_unicodeEscape c (by omega), ih1]; rfl
        · rw [List.append_assoc, parseStringBody_quoteUnit c (by omega), ih1]; rfl

theorem parseStringBody_quote (s rest : JSString) :
    parseStringBody (quoteBody s ++ 34 :: rest) = some (s, rest) :=
  parseStringBody_quoteBody s.length s (Nat.le_refl _) rest

theorem setProp_of_not_mem (acc : List (JSString × JSON)) (k : JSString) (v : JSON)
    (h : k ∉ acc.map Prod.fst) : setProp acc k v = acc ++ [(k, v)] := by
  induction acc with
  | nil => rfl
  | cons p acc ih =>
    obtain ⟨k1, v1⟩ := p
    simp only [List.map_cons, List.mem_cons, not_or] at h
    have hk : ¬ k1 = k := fun e => h.1 e.symm
    simp [setProp, hk, ih h.2]

theorem parseValue_null (fuel : Nat) (rest : JSString) :
    parseValue (fuel + 1) (utf16 "null" ++ rest) = some (JSON.null, rest) := by
  have e0 : utf16 "null" = [110, 117, 108, 108] := by decide
  have e1 : utf16 "true" = [116, 114, 117, 101] := by decide
  have e2 : utf16 "false" = [102, 97, 108, 115, 101] := by decide
  rw [e0]
  unfold parseValue
  simp [e0, e1, e2]

theorem parseValue_true (fuel : Nat) (rest : JSString) :
    parseValue (fuel + 1) (utf16 "true" ++ rest) = some (JSON.bool true, rest) := by
  have e1 : utf16 "true" = [116, 114, 117, 101] := by decide
  rw [e1]
  unfold parseValue
  simp [e1]

theorem parseValue_false (fuel : Nat) (rest : JSString) :
    parseValue (fuel + 1) (utf16 "false" ++ rest) = some (JSON.bool false, rest) := by
  have e1 : utf16 "true" = [116, 114, 117, 101] := by decide
  have e2 : utf16 "false" = [102, 97, 108, 115, 101] := by decide
  rw [e2]
  unfold parseValue
  simp [e1, e2]

theorem parseValue_quote (fuel : Nat) (s rest : JSString) :
    parseValue (fuel + 1) (quote s ++ rest) = some (JSON.str s, rest) := by
  have e : quote s ++ rest = 34 :: (quoteBody s ++ 34 :: rest) := by simp [quote]
  rw [e]
  unfold parseValue
  simp [parseStringBody_quote]

theorem joinComma_cons (t : JSString) (ts : List JSString) (rest : JSString) :
    joinComma (t :: ts) ++ rest =
      t ++ (if ts = [] then rest else 44 :: (joinComma ts ++ rest)) := by
  cases ts with
  | nil => simp [joinComma]
  | cons u us => simp [joinComma]

/-! ## Objects made by `JSON.parse` have no repeated property name -/

theorem keys_setProp (acc : List (JSString × JSON)) (k : JSString) (v : JSON) :
    (setProp acc k v).map Prod.fst =
      if k ∈ acc.map Prod.fst then acc.map Prod.fst else acc.map Prod.fst ++ [k] := by
  induction acc with
  | nil => simp [setProp]
  | cons p acc ih =>
    obtain ⟨k1, v1⟩ := p
    by_cases hk : k1 = k
    · simp [setProp, hk]
    · have hk2 : ¬ k = k1 := fun e => hk e.symm
      simp only [setProp, hk, if_false, List.map_cons, ih, List.mem_cons, hk2, false_or]
      split <;> simp

theorem nodup_setProp (acc : List (JSString × JSON)) (k : JSString) (v : JSON)
    (h : (acc.map Prod.fst).Nodup) : ((setProp acc k v).map Prod.fst).Nodup := by
  rw [keys_setProp]
  split
  · exact h
  · rename_i hk
    exact List.Nodup.append h (List.nodup_singleton k) (by simpa using hk)

theorem everyField_setProp (pNum : JNumber → Bool) (pKeys : List JSString → Bool)
    (acc : List (JSString × JSON)) (k : JSString) (v : JSON)
    (ha : JSON.everyField pNum pKeys acc = true) (hv : v.every pNum pKeys = true) :
    JSON.everyField pNum pKeys (setProp acc k v) = true := by
  induction acc with
  | nil => simp [setProp, JSON.everyField, hv]
  | cons p acc ih =>
    obtain ⟨k1, v1⟩ := p
    simp only [JSON.everyField, Bool.and_eq_true] at ha
    by_cases hk : k1 = k
    · simp [setProp, hk, JSON.everyField, hv, ha.2]
    · simp [setProp, hk, JSON.everyField, ha.1, ih ha.2]

theorem everyItem_append (pNum : JNumber → Bool) (pKeys : List JSString → Bool)
    (acc : List JSON) (v : JSON)
    (ha : JSON.everyItem pNum pKeys acc = true) (hv : v.every pNum pKeys = true) :
    JSON.everyItem pNum pKeys (acc ++ [v]) = true := by
  induction acc with
  | nil => simp [JSON.everyItem, hv]
  | cons a acc ih =>
    simp only [JSON.everyItem, Bool.and_eq_true] at ha
    simp [JSON.everyItem, ha.1, ih ha.2]

theorem parse_keysDistinct : ∀ fuel : Nat,
    (∀ s v rest, parseValue fuel s = some (v, rest) → v.keysDistinct = true) ∧
    (∀ s acc v rest, parseMembers fuel s acc = some (v, rest) →
      (acc.map Prod.fst).Nodup →
      JSON.everyField (fun _ => true) (fun keys => decide keys.Nodup) acc = true →
      v.keysDistinct = true) ∧
    (∀ s acc v rest, parseElements fuel s acc = some (v, rest) →
      JSON.everyItem (fun _ => true) (fun keys => decide keys.Nodup) acc = true →
      v.keysDistinct = true) := by
  intro fuel
  induction fuel with
  | zero =>
    refine ⟨?_, ?_, ?_⟩
    · intro s v rest h; simp [parseValue] at h
    · intro s acc v rest h; simp [parseMembers] at h
    · intro s acc v rest h; simp [parseElements] at h
  | succ fuel ih =>
    obtain ⟨ihV, ihM, ihE⟩ := ih
    refine ⟨?_, ?_, ?_⟩
    · intro s v rest h
      unfold parseValue at h
      split at h
      · simp at h
      · split at h
        · split at h
          · split at h
            · simp only [Option.some.injEq, Prod.mk.injEq] at h
              rw [← h.1]; rfl
            · exact ihM _ _ _ _ h (by simp) rfl
          · simp at h
        · split at h
          · split at h
            · split at h
              · simp only [Option.some.injEq, Prod.mk.injEq] at h
                rw [← h.1]; rfl
              · exact ihE _ _ _ _ h rfl
            · simp at h
          · split at h
            · split at h
              · simp only [Option.some.injEq, Prod.mk.injEq] at h
                rw [← h.1]; rfl
              · simp at h
            · split at h
              · simp only [Option.some.injEq, Prod.mk.injEq] at h
                rw [← h.1]; rfl
              · split at h
                · simp only [Option.some.injEq, Prod.mk.injEq] at h
                  rw [← h.1]; rfl
                · split at h
                  · simp only [Option.some.injEq, Prod.mk.injEq] at h
                    rw [← h.1]; rfl
                  · split at h
                    · simp only [Option.some.injEq, Prod.mk.injEq] at h
                      rw [← h.1]; rfl
                    · simp at h
    · intro s acc v rest h hnd hev
      unfold parseMembers at h
      split at h
      · simp at h
      · split at h
        · split at h
          · split at h
            · split at h
              · split at h
                · rename_i v1 r3 hv
                  have h3 := ihV _ _ _ hv
                  split at h
                  · split at h
                    · exact ihM _ _ _ _ h (nodup_setProp _ _ _ hnd)
                        (everyField_setProp _ _ _ _ _ hev h3)
                    · split at h
                      · simp only [Option.some.injEq, Prod.mk.injEq] at h
                        rw [← h.1]
                        simp only [JSON.keysDistinct, JSON.every, Bool.and_eq_true,
                          decide_eq_true_eq]
                        exact ⟨nodup_setProp _ _ _ hnd, everyField_setProp _ _ _ _ _ hev h3⟩
                      · simp at h
                  · simp at h
                · simp at h
              · simp at h
            · simp at h
          · simp at h
        · simp at h
    · intro s acc v rest h hev
      rw [parseElements] at h
      split at h
      · rename_i v1 r hv
        have h1 := ihV _ _ _ hv
        split at h
        · split at h
          · exact ihE _ _ _ _ h (everyItem_append _ _ _ _ hev h1)
          · split at h
            · simp only [Option.some.injEq, Prod.mk.injEq] at h
              rw [← h.1]
              simp only [JSON.keysDistinct, JSON.every]
              exact everyItem_append _ _ _ _ hev h1
            · simp at h
        · simp at h
      · simp at h

theorem keysDistinct_of_parse (text : JSString) (v : JSON) (h : JSON.parse text = some v) :
    v.keysDistinct = true := by
  unfold JSON.parse at h
  split at h
  · rename_i v1 rest hv
    split at h
    · simp only [Option.some.injEq] at h
      subst h
      exact (parse_keysDistinct _).1 _ _ _ hv
    · simp at h
  · simp at h

mutual

theorem every_and (p1 p2 : JNumber → Bool) (q1 q2 : List JSString → Bool) : ∀ v : JSON,
    v.every (fun n => p1 n && p2 n) (fun k => q1 k && q2 k) =
      (v.every p1 q1 && v.every p2 q2)
  | JSON.null => rfl
  | JSON.bool _ => rfl
  | JSON.num _ => rfl
  | JSON.str _ => rfl
  | JSON.arr items => by
    simp only [JSON.every]
    exact everyItem_and p1 p2 q1 q2 items
  | JSON.obj fields => by
    simp only [JSON.every, everyField_and p1 p2 q1 q2 fields]
    simp only [Bool.and_assoc, Bool.and_comm, Bool.and_left_comm]

theorem everyItem_and (p1 p2 : JNumber → Bool) (q1 q2 : List JSString → Bool) :
    ∀ items : List JSON,
      JSON.everyItem (fun n => p1 n && p2 n) (fun k => q1 k && q2 k) items =
        (JSON.everyItem p1 q1 items && JSON.everyItem p2 q2 items)
  | [] => rfl
  | v :: rest => by
    simp only [JSON.everyItem, every_and p1 p2 q1 q2 v, everyItem_and p1 p2 q1 q2 rest]
    simp only [Bool.and_assoc, Bool.and_comm, Bool.and_left_comm]

theorem everyField_and (p1 p2 : JNumber → Bool) (q1 q2 : List JSString → Bool) :
    ∀ fields : List (JSString × JSON),
      JSON.everyField (fun n => p1 n && p2 n) (fun k => q1 k && q2 k) fields =
        (JSON.everyField p1 q1 fields && JSON.everyField p2 q2 fields)
  | [] => rfl
  | (_, v) :: rest => by
    simp only [JSON.everyField, every_and p1 p2 q1 q2 v, everyField_and p1 p2 q1 q2 rest]
    simp only [Bool.and_assoc, Bool.and_comm, Bool.and_left_comm]

end

/-! ## The civil calendar -/

theorem yearOfEra_spec (doe yoe : Int) (h1 : 0 ≤ doe) (h2 : doe ≤ 146096)
    (hy : yoe = (doe - doe / 1460 + doe / 36524 - doe / 146096) / 365) :
    0 ≤ yoe ∧ yoe ≤ 399 ∧ 365 * yoe + yoe / 4 - yoe / 100 ≤ doe ∧
      doe < 365 * (yoe + 1) + (yoe + 1) / 4 - (yoe + 1) / 100 + (yoe + 1) / 400 := by
  by_cases hlast : doe = 146096
  · subst hlast
    have : yoe = 399 := by rw [hy]; norm_num
    subst this
    norm_num
  have hf : doe / 36524 = 0 ∨ doe / 36524 = 1 ∨ doe / 36524 = 2 ∨ doe / 36524 = 3 := by omega
  have hd : yoe / 100 = 0 ∨ yoe / 100 = 1 ∨ yoe / 100 = 2 ∨ yoe / 100 = 3 ∨ yoe / 100 = 4 := by
    omega
  have hk : yoe % 4 = 0 ∨ yoe % 4 = 1 ∨ yoe % 4 = 2 ∨ yoe % 4 = 3 := by omega
  have h100 : (yoe + 1) / 100 = yoe / 100 ∨ (yoe + 1) / 100 = yoe / 100 + 1 := by omega
  have h400 : (yoe + 1) / 400 = 0 ∨ (yoe + 1) / 400 = 1 := by omega
  have hg : doe / 146096 = 0 := by omega
  rcases hf with hf | hf | hf | hf <;> rcases hd with hd | hd | hd | hd | hd <;>
    refine ⟨?_, ?_, ?_, ?_⟩
  all_goals omega

theorem monthDay_spec (doy mp : Int) (h0 : 0 ≤ doy) (h1 : doy ≤ 365)
    (hmp : mp = (5 * doy + 2) / 153) :
    0 ≤ mp ∧ mp ≤ 11 ∧ 1 ≤ doy - (153 * mp + 2) / 5 + 1 ∧
      (mp = 0 ∨ mp = 2 ∨ mp = 4 ∨ mp = 5 ∨ mp = 7 ∨ mp = 9 ∨ mp = 10 →
        doy - (153 * mp + 2) / 5 + 1 ≤ 31) ∧
      (mp = 1 ∨ mp = 3 ∨ mp = 6 ∨ mp = 8 → doy - (153 * mp + 2) / 5 + 1 ≤ 30) ∧
      (mp = 11 → doy - (153 * mp + 2) / 5 + 1 ≤ 29 ∧
        (doy ≤ 364 → doy - (153 * mp + 2) / 5 + 1 ≤ 28)) := by
  have hm : 0 ≤ mp ∧ mp ≤ 11 := by omega
  obtain ⟨hm0, hm1⟩ := hm
  interval_cases mp <;> omega

theorem leap_of_long (yoe : Int) (h0 : 0 ≤ yoe) (h1 : yoe ≤ 399)
    (h : yoe / 4 - yoe / 100 < (yoe + 1) / 4 - (yoe + 1) / 100 + (yoe + 1) / 400) :
    (yoe + 1) % 4 = 0 ∧ ((yoe + 1) % 100 ≠ 0 ∨ (yoe + 1) % 400 = 0) := by
  omega

theorem isLeap_iff (y : Int) :
    isLeap y = true ↔ (y % 4 = 0 ∧ y % 100 ≠ 0) ∨ y % 400 = 0 := by
  simp [isLeap]

theorem daysInMonth_le (era yoe mp d doy : Int) (hm0 : 0 ≤ mp) (hm1 : mp ≤ 11)
    (h31 : mp = 0 ∨ mp = 2 ∨ mp = 4 ∨ mp = 5 ∨ mp = 7 ∨ mp = 9 ∨ mp = 10 → d ≤ 31)
    (h30 : mp = 1 ∨ mp = 3 ∨ mp = 6 ∨ mp = 8 → d ≤ 30)
    (h29 : mp = 11 → d ≤ 29 ∧ (doy ≤ 364 → d ≤ 28))
    (hl : doy ≤ 364 ∨ ((yoe + 1) % 4 = 0 ∧ ((yoe + 1) % 100 ≠ 0 ∨ (yoe + 1) % 400 = 0))) :
    d ≤ daysInMonth
      (if (if mp < 10 then mp + 3 else mp - 9) ≤ 2 then yoe + era * 400 + 1 else yoe + era * 400)
      (if mp < 10 then mp + 3 else mp - 9) := by
  have hc : mp = 0 ∨ mp = 1 ∨ mp = 2 ∨ mp = 3 ∨ mp = 4 ∨ mp = 5 ∨ mp = 6 ∨ mp = 7 ∨ mp = 8 ∨
      mp = 9 ∨ mp = 10 ∨ mp = 11 := by omega
  rcases hc with h | h | h | h | h | h | h | h | h | h | h | h <;> subst h
  · have : daysInMonth (yoe + era * 400) 3 = 31 := rfl
    simpa [this] using h31 (by decide)
  · have : daysInMonth (yoe + era * 400) 4 = 30 := rfl
    simpa [this] using h30 (by decide)
  · have : daysInMonth (yoe + era * 400) 5 = 31 := rfl
    simpa [this] using h31 (by decide)
  · have : daysInMonth (yoe + era * 400) 6 = 30 := rfl
    simpa [this] using h30 (by decide)
  · have : daysInMonth (yoe + era * 400) 7 = 31 := rfl
    simpa [this] using h31 (by decide)
  · have : daysInMonth (yoe + era * 400) 8 = 31 := rfl
    simpa [this] using h31 (by decide)
  · have : daysInMonth (yoe + era * 400) 9 = 30 := rfl
    simpa [this] using h30 (by decide)
  · have : daysInMonth (yoe + era * 400) 10 = 31 := rfl
    simpa [this] using h31 (by decide)
  · have : daysInMonth (yoe + era * 400) 11 = 30 := rfl
    simpa [this] using h30 (by decide)
  · have : daysInMonth (yoe + era * 400) 12 = 31 := rfl
    simpa [this] using h31 (by decide)
  · have : daysInMonth (yoe + era * 400 + 1) 1 = 31 := rfl
    simpa [this] using h31 (by decide)
  · have e : daysInMonth (yoe + era * 400 + 1) 2 =
        if isLeap (yoe + era * 400 + 1) = true then 29 else 28 := rfl
    have h := h29 rfl
    show d ≤ daysInMonth (yoe + era * 400 + 1) 2
    rw [e]
    split
    · exact h.1
    · rename_i hnl
      rw [isLeap_iff] at hnl
      rcases hl with hl | hl
      · exact h.2 hl
      · exfalso
        apply hnl
        omega

theorem daysFromCivil_parts (era yoe mp d doy : Int) (hy0 : 0 ≤ yoe) (hy1 : yoe ≤ 399)
    (hm0 : 0 ≤ mp) (hm1 : mp ≤ 11) (hd : doy - (153 * mp + 2) / 5 + 1 = d) :
    daysFromCivil
      (if (if mp < 10 then mp + 3 else mp - 9) ≤ 2 then yoe + era * 400 + 1 else yoe + era * 400)
      (if mp < 10 then mp + 3 else mp - 9) d =
      era * 146097 + (yoe * 365 + yoe / 4 - yoe / 100 + doy) - 719468 := by
  have he : (yoe + era * 400) / 400 = era := by omega
  unfold daysFromCivil
  simp only
  by_cases h10 : mp < 10
  · have h2 : ¬ (mp + 3 ≤ 2) := by omega
    have h3 : mp + 3 > 2 := by omega
    simp only [h10, if_true, h2, if_false, h3, he]
    omega
  · have h2 : mp - 9 ≤ 2 := by omega
    have h3 : ¬ (mp - 9 > 2) := by omega
    simp only [h10, if_false, h2, if_true, h3,
      show yoe + era * 400 + 1 - 1 = yoe + era * 400 by omega, he]
    omega

theorem civilFromDays_valid (z : Int) :
    1 ≤ (civilFromDays z).2.1 ∧ (civilFromDays z).2.1 ≤ 12 ∧ 1 ≤ (civilFromDays z).2.2 ∧
      (civilFromDays z).2.2 ≤ daysInMonth (civilFromDays z).1 (civilFromDays z).2.1 ∧
      daysFromCivil (civilFromDays z).1 (civilFromDays z).2.1 (civilFromDays z).2.2 = z ∧
      400 * ((z + 719468) / 146097) ≤ (civilFromDays z).1 ∧
      (civilFromDays z).1 ≤ 400 * ((z + 719468) / 146097) + 400 := by
  unfold civilFromDays
  simp only
  generalize hera : (z + 719468) / 146097 = era
  generalize hdoe : z + 719468 - era * 146097 = doe
  have hd1 : 0 ≤ doe ∧ doe ≤ 146096 := by omega
  generalize hyoe : (doe - doe / 1460 + doe / 36524 - doe / 146096) / 365 = yoe
  have hy := yearOfEra_spec doe yoe hd1.1 hd1.2 hyoe.symm
  clear hyoe
  generalize hdoy : doe - (365 * yoe + yoe / 4 - yoe / 100) = doy
  have hdy : 0 ≤ doy ∧ doy ≤ 365 := by
    have hk : yoe % 4 = 0 ∨ yoe % 4 = 1 ∨ yoe % 4 = 2 ∨ yoe % 4 = 3 := by omega
    omega
  have hl : doy ≤ 364 ∨ ((yoe + 1) % 4 = 0 ∧ ((yoe + 1) % 100 ≠ 0 ∨ (yoe + 1) % 400 = 0)) := by
    by_cases h : doy ≤ 364
    · exact Or.inl h
    · exact Or.inr (leap_of_long yoe hy.1 hy.2.1 (by omega))
  generalize hmp : (5 * doy + 2) / 153 = mp
  have hmd := monthDay_spec doy mp hdy.1 hdy.2 hmp.symm
  generalize hd : doy - (153 * mp + 2) / 5 + 1 = d at hmd ⊢
  obtain ⟨hm0, hm1, hd1, h31, h30, h29⟩ := hmd
  refine ⟨?_, ?_, ?_, ?_, ?_, ?_, ?_⟩
  · split_ifs <;> omega
  · split_ifs <;> omega
  · exact hd1
  · exact daysInMonth_le era yoe mp d doy hm0 hm1 h31 h30 h29 hl
  · rw [daysFromCivil_parts era yoe mp d doy hy.1 hy.2.1 hm0 hm1 hd]
    omega
  · split_ifs <;> omega
  · split_ifs <;> omega

theorem yearStart_mono (a b : Int) (h : a ≤ b) :
    365 * a + a / 4 - a / 100 ≤ 365 * b + b / 4 - b / 100 := by
  omega

theorem yearOfEra_unique (doe yoe y : Int) (h1 : 0 ≤ doe) (h2 : doe ≤ 146096)
    (hy : yoe = (doe - doe / 1460 + doe / 36524 - doe / 146096) / 365)
    (y0 : 0 ≤ y) (y1 : y ≤ 399) (hlo : 365 * y + y / 4 - y / 100 ≤ doe)
    (hhi : doe < 365 * (y + 1) + (y + 1) / 4 - (y + 1) / 100 + (y + 1) / 400) : yoe = y := by
  have hs := yearOfEra_spec doe yoe h1 h2 hy
  clear hy
  obtain ⟨a0, a1, alo, ahi⟩ := hs
  rcases lt_trichotomy yoe y with h | h | h
  · exfalso
    have hm := yearStart_mono (yoe + 1) y (by omega)
    have h400 : (yoe + 1) / 400 = 0 := by omega
    omega
  · exact h
  · exfalso
    have hm := yearStart_mono (y + 1) yoe (by omega)
    have h400 : (y + 1) / 400 = 0 := by omega
    omega

theorem monthOfDay (mp d : Int) (hm0 : 0 ≤ mp) (hm1 : mp ≤ 11) (hd0 : 1 ≤ d) (hd1 : d ≤ 31)
    (h30 : mp = 1 ∨ mp = 3 ∨ mp = 6 ∨ mp = 8 → d ≤ 30) (h29 : mp = 11 → d ≤ 29) :
    (5 * ((153 * mp + 2) / 5 + d - 1) + 2) / 153 = mp := by
  have hc : mp = 0 ∨ mp = 1 ∨ mp = 2 ∨ mp = 3 ∨ mp = 4 ∨ mp = 5 ∨ mp = 6 ∨ mp = 7 ∨ mp = 8 ∨
      mp = 9 ∨ mp = 10 ∨ mp = 11 := by omega
  rcases hc with h | h | h | h | h | h | h | h | h | h | h | h <;> subst h <;> omega

theorem daysInMonth_spec (y m : Int) :
    daysInMonth y m ≤ 31 ∧ (m = 4 ∨ m = 6 ∨ m = 9 ∨ m = 11 → daysInMonth y m = 30) ∧
      (m = 2 → daysInMonth y m ≤ 29 ∧
        (28 < daysInMonth y m → (y % 4 = 0 ∧ y % 100 ≠ 0) ∨ y % 400 = 0)) := by
  unfold daysInMonth
  by_cases h2 : m = 2
  · subst h2
    by_cases hl : isLeap y = true
    · have := (isLeap_iff y).mp hl
      simp only [beq_self_eq_true, if_true, hl]
      exact ⟨by omega, fun h => by omega, fun _ => ⟨by omega, fun _ => this⟩⟩
    · simp only [beq_self_eq_true, if_true, hl, Bool.false_eq_true, if_false]
      exact ⟨by omega, fun h => by omega, fun _ => ⟨by omega, fun h => absurd h (by omega)⟩⟩
  · have h2b : (m == 2) = false := by simpa using h2
    simp only [h2b, Bool.false_eq_true, if_false]
    split
    · rename_i h
      simp at h
      refine ⟨by omega, fun _ => rfl, fun e => absurd e h2⟩
    · rename_i h
      simp at h
      refine ⟨by omega, ?_, fun e => absurd e h2⟩
      intro hc
      omega

theorem dayOfYear_bounds (yoe mp d : Int) (hy0 : 0 ≤ yoe) (hy1 : yoe ≤ 399)
    (hm0 : 0 ≤ mp) (hm1 : mp ≤ 11) (hd0 : 1 ≤ d) (hd1 : d ≤ 31)
    (h30 : mp = 1 ∨ mp = 3 ∨ mp = 6 ∨ mp = 8 → d ≤ 30)
    (h29 : mp = 11 → d ≤ 29 ∧
      (28 < d → ((yoe + 1) % 4 = 0 ∧ (yoe + 1) % 100 ≠ 0) ∨ (yoe + 1) % 400 = 0)) :
    0 ≤ (153 * mp + 2) / 5 + d - 1 ∧
      365 * yoe + yoe / 4 - yoe / 100 + ((153 * mp + 2) / 5 + d - 1) <
        365 * (yoe + 1) + (yoe + 1) / 4 - (yoe + 1) / 100 + (yoe + 1) / 400 := by
  have hc : mp = 0 ∨ mp = 1 ∨ mp = 2 ∨ mp = 3 ∨ mp = 4 ∨ mp = 5 ∨ mp = 6 ∨ mp = 7 ∨ mp = 8 ∨
      mp = 9 ∨ mp = 10 ∨ mp = 11 := by omega
  have hk : yoe % 4 = 0 ∨ yoe % 4 = 1 ∨ yoe % 4 = 2 ∨ yoe % 4 = 3 := by omega
  have hdoy : 0 ≤ (153 * mp + 2) / 5 + d - 1 ∧ (153 * mp + 2) / 5 + d - 1 ≤ 365 ∧
      (364 < (153 * mp + 2) / 5 + d - 1 →
        ((yoe + 1) % 4 = 0 ∧ (yoe + 1) % 100 ≠ 0) ∨ (yoe + 1) % 400 = 0) := by
    rcases hc with h | h | h | h | h | h | h | h | h | h | h | h <;> subst h
    all_goals (refine ⟨?_, ?_, ?_⟩ <;> omega)
  generalize (153 * mp + 2) / 5 + d - 1 = doy at hdoy ⊢
  constructor
  · exact hdoy.1
  · omega

theorem civilFromDays_daysFromCivil (y m d : Int) (hm0 : 1 ≤ m) (hm1 : m ≤ 12) (hd0 : 1 ≤ d)
    (hd1 : d ≤ daysInMonth y m) : civilFromDays (daysFromCivil y m d) = (y, m, d) := by
  have hdm := daysInMonth_spec y m
  obtain ⟨h31, h30, h29⟩ := hdm
  generalize daysInMonth y m = len at hd1 h31 h30 h29
  unfold daysFromCivil
  simp only
  generalize hy1 : (if m ≤ 2 then y - 1 else y) = y1
  generalize hera : y1 / 400 = era
  generalize hyoe : y1 - era * 400 = yoe
  generalize hmp : (if m > 2 then m - 3 else m + 9) = mp
  have hyb : 0 ≤ yoe ∧ yoe ≤ 399 := by omega
  have hmb : 0 ≤ mp ∧ mp ≤ 11 := by
    rw [← hmp]; split_ifs <;> omega
  have hm30 : mp = 1 ∨ mp = 3 ∨ mp = 6 ∨ mp = 8 → d ≤ 30 := by
    intro h
    have : m = 4 ∨ m = 6 ∨ m = 9 ∨ m = 11 := by
      rw [← hmp] at h; split_ifs at h <;> omega
    have := h30 this
    omega
  have hm29 : mp = 11 → d ≤ 29 ∧
      (28 < d → ((yoe + 1) % 4 = 0 ∧ (yoe + 1) % 100 ≠ 0) ∨ (yoe + 1) % 400 = 0) := by
    intro h
    have h2 : m = 2 := by
      rw [← hmp] at h; split_ifs at h <;> omega
    have hy : y = yoe + era * 400 + 1 := by
      rw [← hyoe, ← hy1, if_pos (by omega)]; omega
    obtain ⟨ha, hb⟩ := h29 h2
    refine ⟨by omega, fun h28 => ?_⟩
    have := hb (by omega)
    omega
  have hdb := dayOfYear_bounds yoe mp d hyb.1 hyb.2 hmb.1 hmb.2 hd0 (by omega) hm30 hm29
  have hmd := monthOfDay mp d hmb.1 hmb.2 hd0 (by omega) hm30 (fun h => (hm29 h).1)
  generalize hdoy : (153 * mp + 2) / 5 + d - 1 = doy at hdb hmd
  generalize hdoe : yoe * 365 + yoe / 4 - yoe / 100 + doy = doe
  have hdoeb : 0 ≤ doe ∧ doe ≤ 146096 := by
    have hk : yoe % 4 = 0 ∨ yoe % 4 = 1 ∨ yoe % 4 = 2 ∨ yoe % 4 = 3 := by omega
    omega
  have hu := yearOfEra_unique doe _ yoe hdoeb.1 hdoeb.2 rfl hyb.1 hyb.2 (by omega) (by omega)
  unfold civilFromDays
  simp only
  have e1 : (era * 146097 + doe - 719468 + 719468) / 146097 = era := by omega
  have e2 : era * 146097 + doe - 719468 + 719468 - era * 146097 = doe := by omega
  rw [e1, e2, hu]
  have e3 : doe - (365 * yoe + yoe / 4 - yoe / 100) = doy := by omega
  rw [e3, hmd]
  have e4 : doy - (153 * mp + 2) / 5 + 1 = d := by omega
  rw [e4]
  have e5 : (if mp < 10 then mp + 3 else mp - 9) = m := by
    rw [← hmp]; split_ifs <;> omega
  rw [e5]
  have e6 : (if m ≤ 2 then yoe + era * 400 + 1 else yoe + era * 400) = y := by
    rw [← hyoe, ← hy1]; split_ifs <;> omega
  rw [e6]

/-! ## Decimal digits -/

theorem digitChar_toNat (k : Nat) (h : k < 10) : (Nat.digitChar k).toNat = 48 + k := by
  interval_cases k <;> rfl

theorem toDigitsCore_small (fuel n : Nat) (ds : List Char) (hf : 0 < fuel) (h : n < 10) :
    Nat.toDigitsCore 10 fuel n ds = Nat.digitChar n :: ds := by
  obtain ⟨f, rfl⟩ : ∃ f, fuel = f + 1 := ⟨fuel - 1, by omega⟩
  have h1 : n / 10 = 0 := by omega
  have h2 : n % 10 = n := by omega
  simp [Nat.toDigitsCore, h1, h2]

theorem toDigitsCore_step (fuel n : Nat) (ds : List Char) (hf : 0 < fuel) (h : 10 ≤ n) :
    Nat.toDigitsCore 10 fuel n ds =
      Nat.toDigitsCore 10 (fuel - 1) (n / 10) (Nat.digitChar (n % 10) :: ds) := by
  obtain ⟨f, rfl⟩ : ∃ f, fuel = f + 1 := ⟨fuel - 1, by omega⟩
  have h1 : n / 10 ≠ 0 := by omega
  simp [Nat.toDigitsCore, h1]

theorem natToString_digits (n : Nat) (h : n < 10000) :
    natToString n =
      if n < 10 then [48 + n]
      else if n < 100 then [48 + n / 10, 48 + n % 10]
      else if n < 1000 then [48 + n / 100, 48 + n / 10 % 10, 48 + n % 10]
      else [48 + n / 1000, 48 + n / 100 % 10, 48 + n / 10 % 10, 48 + n % 10] := by
  unfold natToString Nat.toDigits
  by_cases h1 : n < 10
  · rw [toDigitsCore_small _ _ _ (by omega) h1]
    simp [h1, digitChar_toNat n h1]
  · rw [toDigitsCore_step _ _ _ (by omega) (by omega)]
    by_cases h2 : n < 100
    · rw [toDigitsCore_small _ _ _ (by omega) (by omega)]
      simp [h1, h2, digitChar_toNat (n / 10) (by omega), digitChar_toNat (n % 10) (by omega)]
    · rw [toDigitsCore_step _ _ _ (by omega) (by omega)]
      by_cases h3 : n < 1000
      · rw [toDigitsCore_small _ _ _ (by omega) (by omega)]
        have e : n / 10 / 10 = n / 100 := by omega
        simp [h1, h2, h3, e, digitChar_toNat (n / 100) (by omega),
          digitChar_toNat (n / 10 % 10) (by omega), digitChar_toNat (n % 10) (by omega)]
      · rw [toDigitsCore_step _ _ _ (by omega) (by omega)]
        rw [toDigitsCore_small _ _ _ (by omega) (by omega)]
        have e : n / 10 / 10 = n / 100 := by omega
        have e2 : n / 10 / 10 / 10 = n / 1000 := by omega
        have e3 : n / 10 / 10 % 10 = n / 100 % 10 := by omega
        simp [h1, h2, h3, e2, e3, digitChar_toNat (n / 1000) (by omega),
          digitChar_toNat (n / 100 % 10) (by omega), digitChar_toNat (n / 10 % 10) (by omega),
          digitChar_toNat (n % 10) (by omega)]

theorem padStart_four (n : Nat) (h : n < 10000) :
    padStart 4 n = [48 + n / 1000, 48 + n / 100 % 10, 48 + n / 10 % 10, 48 + n % 10] := by
  unfold padStart
  rw [natToString_digits n h]
  by_cases h1 : n < 10
  · have a : n / 1000 = 0 := by omega
    have b : n / 100 % 10 = 0 := by omega
    have c : n / 10 % 10 = 0 := by omega
    have d : n % 10 = n := by omega
    simp [h1, a, b, c, d, List.replicate]
  · by_cases h2 : n < 100
    · have a : n / 1000 = 0 := by omega
      have b : n / 100 % 10 = 0 := by omega
      have c : n / 10 % 10 = n / 10 := by omega
      simp [h1, h2, a, b, c, List.replicate]
    · by_cases h3 : n < 1000
      · have a : n / 1000 = 0 := by omega
        have b : n / 100 % 10 = n / 100 := by omega
        simp [h1, h2, h3, a, b, List.replicate]
      · simp [h1, h2, h3]

theorem padStart_two (n : Nat) (h : n < 100) : padStart 2 n = [48 + n / 10, 48 + n % 10] := by
  unfold padStart
  rw [natToString_digits n (by omega)]
  by_cases h1 : n < 10
  · have a : n / 10 = 0 := by omega
    have d : n % 10 = n := by omega
    simp [h1, a, d, List.replicate]
  · simp [h1, h]

/-! ## Dates written and read again -/

theorem daysFromCivil_year (y m d : Int) (hm0 : 1 ≤ m) (hm1 : m ≤ 12) (hd0 : 1 ≤ d)
    (hd1 : d ≤ 31) :
    (y ≤ -1 → daysFromCivil y m d ≤ -719529) ∧ (10000 ≤ y → 2932897 ≤ daysFromCivil y m d) := by
  unfold daysFromCivil
  simp only
  have hmc : m = 1 ∨ m = 2 ∨ m = 3 ∨ m = 4 ∨ m = 5 ∨ m = 6 ∨ m = 7 ∨ m = 8 ∨ m = 9 ∨ m = 10 ∨
      m = 11 ∨ m = 12 := by omega
  rcases hmc with h | h | h | h | h | h | h | h | h | h | h | h <;> subst h <;> norm_num <;>
    constructor <;> intro hy <;> omega

theorem digitsToNat_ten (a b c e : Nat) :
    digitsToNat [48 + a, 48 + b, 48 + c, 48 + e] = ((a * 10 + b) * 10 + c) * 10 + e ∧
      digitsToNat [48 + a, 48 + b] = a * 10 + b := by
  simp [digitsToNat]
  constructor <;> ring

theorem isDigit_add (k : Nat) (h : k < 10) : isDigit (48 + k) = true := by
  simp [isDigit]
  omega

theorem parseDate_isoDate (t : Int) (hm : t % msPerDay = 0) (h0 : -62167219200000 ≤ t)
    (h1 : t ≤ 253402214400000) : parseDate (isoDate t) = some t := by
  have hz : -719528 ≤ t / msPerDay ∧ t / msPerDay ≤ 2932896 := by
    unfold msPerDay at hm ⊢; omega
  have ht : t / msPerDay * msPerDay = t := by
    unfold msPerDay at hm ⊢; omega
  unfold isoDate
  generalize t / msPerDay = z at hz ht ⊢
  obtain ⟨v1, v2, v3, v4, v5, _, _⟩ := civilFromDays_valid z
  have hlen := daysInMonth_spec (civilFromDays z).1 (civilFromDays z).2.1
  have hyr := daysFromCivil_year (civilFromDays z).1 (civilFromDays z).2.1 (civilFromDays z).2.2
    v1 v2 v3 (by omega)
  rw [v5] at hyr
  have hy : 0 ≤ (civilFromDays z).1 ∧ (civilFromDays z).1 ≤ 9999 := by
    constructor
    · by_contra hc
      have := hyr.1 (by omega)
      omega
    · by_contra hc
      have := hyr.2 (by omega)
      omega
  generalize hciv : civilFromDays z = c at v1 v2 v3 v4 v5 hy hlen ⊢
  obtain ⟨y, m, d⟩ := c
  try simp only at v1 v2 v3 v4 v5 hy hlen ⊢
  obtain ⟨yn, rfl⟩ : ∃ n : Nat, y = (n : Int) := ⟨y.toNat, by omega⟩
  obtain ⟨mn, rfl⟩ : ∃ n : Nat, m = (n : Int) := ⟨m.toNat, by omega⟩
  obtain ⟨dn, rfl⟩ : ∃ n : Nat, d = (n : Int) := ⟨d.toNat, by omega⟩
  have hyn : yn < 10000 := by omega
  have hmn : mn < 100 := by omega
  have hdn : dn < 100 := by omega
  simp only [Int.toNat_ofNat, if_pos hy, padStart_four yn hyn, padStart_two mn hmn,
    padStart_two dn hdn, List.cons_append, List.nil_append]
  unfold parseDate
  have d1 := isDigit_add (yn / 1000) (by omega)
  have d2 := isDigit_add (yn / 100 % 10) (by omega)
  have d3 := isDigit_add (yn / 10 % 10) (by omega)
  have d4 := isDigit_add (yn % 10) (by omega)
  have d5 := isDigit_add (mn / 10) (by omega)
  have d6 := isDigit_add (mn % 10) (by omega)
  have d7 := isDigit_add (dn / 10) (by omega)
  have d8 := isDigit_add (dn % 10) (by omega)
  have e1 : digitsToNat [48 + yn / 1000, 48 + yn / 100 % 10, 48 + yn / 10 % 10, 48 + yn % 10] =
      yn := by
    rw [(digitsToNat_ten _ _ _ _).1]; omega
  have e2 : digitsToNat [48 + mn / 10, 48 + mn % 10] = mn := by
    rw [(digitsToNat_ten (mn / 10) (mn % 10) 0 0).2]; omega
  have e3 : digitsToNat [48 + dn / 10, 48 + dn % 10] = dn := by
    rw [(digitsToNat_ten (dn / 10) (dn % 10) 0 0).2]; omega
  simp only [List.all_cons, List.all_nil, d1, d2, d3, d4, d5, d6, d7, d8, Bool.and_self,
    and_self, if_true, e1, e2, e3]
  rw [if_pos ⟨v1, v2, v3, v4⟩, v5, ht]

theorem isDigit_bounds (c : Nat) (h : isDigit c = true) : 48 ≤ c ∧ c ≤ 57 := by
  simpa [isDigit] using h

theorem isoDate_parseDate (s : JSString) (t : Int) (h : parseDate s = some t) :
    isoDate t = s := by
  unfold parseDate at h
  split at h
  · rename_i y1 y2 y3 y4 s1 m1 m2 s2 d1 d2
    split at h
    · rename_i hc
      obtain ⟨hs1, hs2, hdig⟩ := hc
      simp only [List.all_cons, List.all_nil, Bool.and_true, Bool.and_eq_true] at hdig
      obtain ⟨a1, a2, a3, a4, a5, a6, a7, a8⟩ := hdig
      have b1 := isDigit_bounds _ a1
      have b2 := isDigit_bounds _ a2
      have b3 := isDigit_bounds _ a3
      have b4 := isDigit_bounds _ a4
      have b5 := isDigit_bounds _ a5
      have b6 := isDigit_bounds _ a6
      have b7 := isDigit_bounds _ a7
      have b8 := isDigit_bounds _ a8
      have ey : digitsToNat [y1, y2, y3, y4] =
          (((y1 - 48) * 10 + (y2 - 48)) * 10 + (y3 - 48)) * 10 + (y4 - 48) := by
        simp [digitsToNat]; ring
      have em : digitsToNat [m1, m2] = (m1 - 48) * 10 + (m2 - 48) := by
        simp [digitsToNat]; ring
      have ed : digitsToNat [d1, d2] = (d1 - 48) * 10 + (d2 - 48) := by
        simp [digitsToNat]; ring
      generalize hyn : digitsToNat [y1, y2, y3, y4] = yn at h ey
      generalize hmn : digitsToNat [m1, m2] = mn at h em
      generalize hdn : digitsToNat [d1, d2] = dn at h ed
      simp only at h
      split at h
      · rename_i hv
        obtain ⟨v1, v2, v3, v4⟩ := hv
        simp only [Option.some.injEq] at h
        subst h
        have hq : daysFromCivil (yn : Int) (mn : Int) (dn : Int) * msPerDay / msPerDay =
            daysFromCivil (yn : Int) (mn : Int) (dn : Int) := by
          unfold msPerDay; omega
        unfold isoDate
        rw [hq, civilFromDays_daysFromCivil _ _ _ v1 v2 v3 v4]
        have hyn2 : yn < 10000 := by omega
        have hmn2 : mn < 100 := by omega
        have hdn2 : dn < 100 := by omega
        have hy : (0 : Int) ≤ (yn : Int) ∧ (yn : Int) ≤ 9999 := by omega
        simp only [Int.toNat_ofNat, if_pos hy, padStart_four yn hyn2, padStart_two mn hmn2,
          padStart_two dn hdn2, List.cons_append, List.nil_append]
        have c1 : 48 + yn / 1000 = y1 := by omega
        have c2 : 48 + yn / 100 % 10 = y2 := by omega
        have c3 : 48 + yn / 10 % 10 = y3 := by omega
        have c4 : 48 + yn % 10 = y4 := by omega
        have c5 : 48 + mn / 10 = m1 := by omega
        have c6 : 48 + mn % 10 = m2 := by omega
        have c7 : 48 + dn / 10 = d1 := by omega
        have c8 : 48 + dn % 10 = d2 := by omega
        rw [c1, c2, c3, c4, c5, c6, c7, c8, hs1, hs2]
      · simp at h
    · simp at h
  · simp at h

/-! ## Business days added in two steps -/

theorem daysFromCivil_lower (y m d : Int) (hy : 0 ≤ y) (hm0 : 1 ≤ m) (hm1 : m ≤ 12)
    (hd0 : 1 ≤ d) : -719528 ≤ daysFromCivil y m d := by
  unfold daysFromCivil
  simp only
  have hmc : m = 1 ∨ m = 2 ∨ m = 3 ∨ m = 4 ∨ m = 5 ∨ m = 6 ∨ m = 7 ∨ m = 8 ∨ m = 9 ∨ m = 10 ∨
      m = 11 ∨ m = 12 := by omega
  rcases hmc with h | h | h | h | h | h | h | h | h | h | h | h <;> subst h <;> norm_num <;> omega

theorem parseDate_lower (s : JSString) (t : Int) (h : parseDate s = some t) :
    -62167219200000 ≤ t := by
  unfold parseDate at h
  split at h
  · rename_i y1 y2 y3 y4 s1 m1 m2 s2 d1 d2
    split at h
    · simp only at h
      split at h
      · rename_i hv
        obtain ⟨v1, v2, v3, _⟩ := hv
        simp only [Option.some.injEq] at h
        have := daysFromCivil_lower (digitsToNat [y1, y2, y3, y4]) (digitsToNat [m1, m2])
          (digitsToNat [d1, d2]) (Int.natCast_nonneg _) v1 v2 v3
        unfold msPerDay at h
        omega
      · simp at h
    · simp at h
  · simp at h

theorem getDay_range (z : Zone) (t : Int) : 0 ≤ getDay z t ∧ getDay z t < 7 := by
  unfold getDay
  omega

theorem getDay_next (tz t : Int) :
    getDay (Zone.fixed tz) (t + msPerDay) = (getDay (Zone.fixed tz) t + 1) % 7 := by
  rw [getDay_fixed, getDay_fixed]
  unfold msPerDay
  omega

theorem addLoop_finishes (tz : Int) (days : Nat) : ∀ (fuel : Nat) (t : Int) (added : Nat),
    added < days → -8640000000000000 ≤ t → t + (fuel : Int) * msPerDay ≤ 8640000000000000 →
    (if getDay (Zone.fixed tz) t = 5 then 3 else if getDay (Zone.fixed tz) t = 6 then 2 else 1) +
        3 * (days - added - 1) ≤ fuel →
    ∃ r, addLoop (Zone.fixed tz) days fuel (some t) added = some (some r) ∧ t ≤ r ∧
      r ≤ t + (fuel : Int) * msPerDay ∧ r % msPerDay = t % msPerDay := by
  intro fuel
  induction fuel with
  | zero =>
    intro t added _ _ _ hf
    split_ifs at hf <;> omega
  | succ fuel ih =>
    intro t added ha hlo hhi hf
    have hclip : timeClip (t + msPerDay) = some (t + msPerDay) := by
      unfold timeClip
      rw [if_pos]
      unfold msPerDay at hhi ⊢
      push_cast at hhi
      omega
    have hnext := getDay_next tz t
    have hrange := getDay_range (Zone.fixed tz) t
    have hstep : addLoop (Zone.fixed tz) days (fuel + 1) (some t) added =
        addLoop (Zone.fixed tz) days fuel (some (t + msPerDay))
          (if (getDay (Zone.fixed tz) (t + msPerDay) != 0 && getDay (Zone.fixed tz) (t + msPerDay) != 6) = true
            then added + 1 else added) := by
      simp only [addLoop, ha, if_true, Option.some_bind, nextDay_fixed, hclip]
    rw [hstep]
    have hhi1 : t + msPerDay + (fuel : Int) * msPerDay ≤ 8640000000000000 := by
      push_cast at hhi
      unfold msPerDay at hhi ⊢
      omega
    have hlo1 : -8640000000000000 ≤ t + msPerDay := by unfold msPerDay; omega
    by_cases hc : (getDay (Zone.fixed tz) (t + msPerDay) != 0 && getDay (Zone.fixed tz) (t + msPerDay) != 6) = true
    · rw [if_pos hc]
      have hc1 : getDay (Zone.fixed tz) (t + msPerDay) ≠ 0 ∧ getDay (Zone.fixed tz) (t + msPerDay) ≠ 6 := by
        simpa using hc
      by_cases hdone : added + 1 < days
      · have hf1 : (if getDay (Zone.fixed tz) (t + msPerDay) = 5 then 3
            else if getDay (Zone.fixed tz) (t + msPerDay) = 6 then 2 else 1) +
            3 * (days - (added + 1) - 1) ≤ fuel := by
          split_ifs at hf ⊢ <;> omega
        obtain ⟨r, hr, h1, h2, h3⟩ := ih (t + msPerDay) (added + 1) hdone hlo1 hhi1 hf1
        refine ⟨r, hr, ?_, ?_, ?_⟩
        · simp only [msPerDay] at h1; omega
        · push_cast; simp only [msPerDay] at h2 ⊢; omega
        · rw [h3]; simp only [msPerDay]; omega
      · rw [addLoop_done (Zone.fixed tz) days fuel _ _ hdone]
        refine ⟨t + msPerDay, rfl, ?_, ?_, ?_⟩
        · simp only [msPerDay]; omega
        · push_cast; simp only [msPerDay]; omega
        · simp only [msPerDay]; omega
    · rw [if_neg hc]
      have hc1 : getDay (Zone.fixed tz) (t + msPerDay) = 0 ∨ getDay (Zone.fixed tz) (t + msPerDay) = 6 := by
        by_contra hcon
        apply hc
        simp only [not_or] at hcon
        simpa using hcon
      have hf1 : (if getDay (Zone.fixed tz) (t + msPerDay) = 5 then 3
          else if getDay (Zone.fixed tz) (t + msPerDay) = 6 then 2 else 1) +
          3 * (days - added - 1) ≤ fuel := by
        split_ifs at hf ⊢ <;> omega
      obtain ⟨r, hr, h1, h2, h3⟩ := ih (t + msPerDay) added ha hlo1 hhi1 hf1
      refine ⟨r, hr, ?_, ?_, ?_⟩
      · simp only [msPerDay] at h1; omega
      · push_cast; simp only [msPerDay] at h2 ⊢; omega
      · rw [h3]; simp only [msPerDay]; omega

theorem addLoop_total (tz : Int) (days : Nat) (t : Int)
    (hlo : -8640000000000000 ≤ t) (hhi : t + ((7 * days : Nat) : Int) * msPerDay ≤ 8640000000000000) :
    ∃ r, addLoop (Zone.fixed tz) days (7 * days) (some t) 0 = some (some r) ∧ t ≤ r ∧
      r ≤ t + ((7 * days : Nat) : Int) * msPerDay ∧ r % msPerDay = t % msPerDay := by
  by_cases h : 0 < days
  · refine addLoop_finishes tz days (7 * days) t 0 h hlo hhi ?_
    split_ifs <;> omega
  · have h0 : days = 0 := by omega
    subst h0
    exact ⟨t, by simp [addLoop], le_refl _, by simp, rfl⟩

theorem addLoop_mono (z : Zone) (days : Nat) : ∀ (fuel : Nat) (date : Option Int) (added : Nat)
    (x : Option Int), addLoop z days fuel date added = some x →
    ∀ extra, addLoop z days (fuel + extra) date added = some x := by
  intro fuel
  induction fuel with
  | zero =>
    intro date added x h extra
    simp only [addLoop] at h
    split at h
    · cases h
    · rename_i hd
      rw [addLoop_done z days _ date added hd]
      exact h
  | succ fuel ih =>
    intro date added x h extra
    have e : fuel + 1 + extra = (fuel + extra) + 1 := by omega
    rw [e]
    simp only [addLoop] at h ⊢
    split at h
    · rename_i ha
      rw [if_pos ha]
      exact ih _ _ _ h extra
    · rename_i ha
      rw [if_neg ha]
      exact h

theorem addLoop_shift (z : Zone) (days c : Nat) : ∀ (fuel : Nat) (date : Option Int)
    (added : Nat), addLoop z (days + c) fuel date (added + c) = addLoop z days fuel date added := by
  intro fuel
  induction fuel with
  | zero =>
    intro date added
    simp only [addLoop, Nat.add_lt_add_iff_right]
  | succ fuel ih =>
    intro date added
    simp only [addLoop, Nat.add_lt_add_iff_right]
    split
    · split
      · have e : added + c + 1 = added + 1 + c := by omega
        rw [e, ih]
      · rw [ih]
    · rfl

theorem addLoop_split (z : Zone) (a b : Nat) : ∀ (f1 : Nat) (t : Int) (added : Nat) (t1 : Int)
    (f2 : Nat) (x : Option Int), added ≤ a →
    addLoop z a f1 (some t) added = some (some t1) →
    addLoop z (a + b) f2 (some t1) a = some x →
    addLoop z (a + b) (f1 + f2) (some t) added = some x := by
  intro f1
  induction f1 with
  | zero =>
    intro t added t1 f2 x hle h1 h2
    simp only [addLoop] at h1
    split at h1
    · cases h1
    · rename_i hd
      simp only [Option.some.injEq] at h1
      subst h1
      have : added = a := by omega
      subst this
      simpa using h2
  | succ f1 ih =>
    intro t added t1 f2 x hle h1 h2
    by_cases ha : added < a
    · have e : f1 + 1 + f2 = (f1 + f2) + 1 := by omega
      rw [e]
      have hab : added < a + b := by omega
      simp only [addLoop, ha, hab, if_true] at h1 ⊢
      cases hclip : (some t : Option Int).bind (fun t => timeClip (nextDay z t)) with
      | none =>
        rw [hclip] at h1
        exact absurd h1 (addLoop_invalid z a _ _ t1)
      | some u =>
        rw [hclip] at h1
        simp only at h1 ⊢
        refine ih u _ t1 f2 x ?_ h1 h2
        by_cases hc : (getDay z u != 0 && getDay z u != 6) = true
        · rw [if_pos hc]; omega
        · rw [if_neg hc]; omega
    · have : added = a := by omega
      subst this
      rw [addLoop_done z added _ _ _ ha] at h1
      simp only [Option.some.injEq] at h1
      subst h1
      have := addLoop_mono z (added + b) f2 _ _ x h2 (f1 + 1)
      rw [Nat.add_comm f2] at this
      exact this

/-- In a zone at a fixed offset from UTC, for every start date `d` written `YYYY-MM-DD` and
all counts `a` and `b`: `addBusinessDays` of the result for `a` and of `b` returns what
`addBusinessDays(d, a + b)` returns, and a date is returned; and `addBusinessDays(d, 0)`
returns `d` itself, whatever weekday `d` falls on. The dates reached stay within the years 0
to 9999, the ones `parseDate` reads: seven days for each day counted, from `d`, end on
9999-12-31 at the latest. -/
theorem addBusinessDays_add (tz : Int) (d : JSString) (t0 : Int) (a b : Nat)
    (hd : parseDate d = some t0)
    (hr : t0 + ((7 * (a + b) : Nat) : Int) * msPerDay ≤ 253402214400000) :
    (addBusinessDays (Zone.fixed tz) d a).bind (fun m => addBusinessDays (Zone.fixed tz) m b) =
        addBusinessDays (Zone.fixed tz) d (a + b) ∧
      (addBusinessDays (Zone.fixed tz) d (a + b)).isSome = true ∧
      addBusinessDays (Zone.fixed tz) d 0 = some d := by
  have hmid := parseDate_midnight d t0 hd
  have hlow := parseDate_lower d t0 hd
  have hnew : newDate d = some t0 := by simp [newDate, hd]
  have hback := isoDate_parseDate d t0 hd
  have hms : msPerDay = 86400000 := rfl
  have hra : t0 + ((7 * a : Nat) : Int) * msPerDay ≤ 8640000000000000 := by
    push_cast at hr ⊢
    rw [hms] at hr ⊢
    omega
  obtain ⟨t1, h1, l1, u1, m1⟩ := addLoop_total tz a t0 (by omega) hra
  have hnew1 : newDate (isoDate t1) = some t1 := by
    have : parseDate (isoDate t1) = some t1 := by
      refine parseDate_isoDate t1 (by rw [m1]; exact hmid.1) (by omega) ?_
      push_cast at hr u1 ⊢
      rw [hms] at hr u1
      omega
    simp [newDate, this]
  have hrb : t1 + ((7 * b : Nat) : Int) * msPerDay ≤ 8640000000000000 := by
    push_cast at hr u1 ⊢
    rw [hms] at hr u1 ⊢
    omega
  obtain ⟨t2, h2, l2, u2, m2⟩ := addLoop_total tz b t1 (by omega) hrb
  have h2s : addLoop (Zone.fixed tz) (a + b) (7 * b) (some t1) a = some (some t2) := by
    have := addLoop_shift (Zone.fixed tz) b a (7 * b) (some t1) 0
    rw [Nat.zero_add, Nat.add_comm b a] at this
    rw [this]
    exact h2
  have hab : addLoop (Zone.fixed tz) (a + b) (7 * (a + b)) (some t0) 0 = some (some t2) := by
    have := addLoop_split (Zone.fixed tz) a b (7 * a) t0 0 t1 (7 * b) (some t2) (Nat.zero_le _) h1 h2s
    rw [show 7 * (a + b) = 7 * a + 7 * b by omega]
    exact this
  have ea : addBusinessDays (Zone.fixed tz) d a = some (isoDate t1) := by
    simp only [addBusinessDays, hnew, h1]
  have eb : addBusinessDays (Zone.fixed tz) (isoDate t1) b = some (isoDate t2) := by
    simp only [addBusinessDays, hnew1, h2]
  have eab : addBusinessDays (Zone.fixed tz) d (a + b) = some (isoDate t2) := by
    simp only [addBusinessDays, hnew, hab]
  refine ⟨?_, ?_, ?_⟩
  · rw [ea, eab]
    exact eb
  · rw [eab]
    rfl
  · simp only [addBusinessDays, hnew, addLoop, Nat.mul_zero, Nat.lt_irrefl, if_false, hback]

/-- C30 fails on the code. In the zone Europe/Madrid, from the start date 2024-03-27,
`addBusinessDays` with the count 3 returns 2024-03-31, and from that date with the count 1 it
returns 2024-03-31 again, while with the count 4 from 2024-03-27 it returns 2024-04-01. The
date is stepped in local time across the change to daylight saving of 2024-03-31, after which
the time value is 23:00 UTC of the day before, and it is written as a UTC date. -/
theorem addBusinessDays_not_additive :
    addBusinessDays europeMadrid (utf16 "2024-03-27") 3 = some (utf16 "2024-03-31") ∧
      (addBusinessDays europeMadrid (utf16 "2024-03-27") 3).bind
          (fun m => addBusinessDays europeMadrid m 1) = some (utf16 "2024-03-31") ∧
      addBusinessDays europeMadrid (utf16 "2024-03-27") (3 + 1) = some (utf16 "2024-04-01") := by
  decide

/-! ## The rounding of numbers to doubles -/

theorem logLog_spec (n : Nat) : ∀ fuel j : Nat, n < 2 ^ 2 ^ (j + fuel) →
    n < 2 ^ 2 ^ logLog fuel j n := by
  intro fuel
  induction fuel with
  | zero => intro j h; simpa [logLog] using h
  | succ fuel ih =>
    intro j h
    simp only [logLog]
    split
    · assumption
    · exact ih (j + 1) (by rw [show j + 1 + fuel = j + (fuel + 1) by omega]; exact h)

theorem bisectLog_spec (n : Nat) : ∀ fuel lo : Nat, 2 ^ lo ≤ n → n < 2 ^ (lo + 2 ^ fuel) →
    2 ^ bisectLog fuel lo n ≤ n ∧ n < 2 ^ (bisectLog fuel lo n + 1) := by
  intro fuel
  induction fuel with
  | zero => intro lo h1 h2; simpa [bisectLog] using ⟨h1, h2⟩
  | succ fuel ih =>
    intro lo h1 h2
    simp only [bisectLog]
    split
    · rename_i h
      refine ih _ h ?_
      have e : lo + 2 ^ fuel + 2 ^ fuel = lo + 2 ^ (fuel + 1) := by rw [pow_succ]; omega
      rw [e]; exact h2
    · rename_i h
      exact ih lo h1 (by omega)

theorem bitLength_spec (n : Nat) (h : n ≠ 0) :
    1 ≤ bitLength n ∧ 2 ^ (bitLength n - 1) ≤ n ∧ n < 2 ^ bitLength n := by
  have h0 : n < 2 ^ 2 ^ (0 + n) := by
    rw [Nat.zero_add]
    exact lt_of_lt_of_le (Nat.lt_two_pow n) (Nat.pow_le_pow_right (by decide) (Nat.le_of_lt (Nat.lt_two_pow n)))
  have h1 := logLog_spec n n 0 h0
  have h2 := bisectLog_spec n (logLog n 0 n) 0 (by simpa using Nat.pos_of_ne_zero h)
    (by simpa using h1)
  unfold bitLength
  rw [if_neg h]
  simpa using h2

theorem bitLength_unique (n b : Nat) (hb : 1 ≤ b) (h1 : 2 ^ (b - 1) ≤ n) (h2 : n < 2 ^ b) :
    bitLength n = b := by
  have hn : n ≠ 0 := by
    have : 0 < 2 ^ (b - 1) := Nat.two_pow_pos _
    omega
  obtain ⟨g0, g1, g2⟩ := bitLength_spec n hn
  by_contra hne
  rcases Nat.lt_or_gt_of_ne hne with hlt | hgt
  · have : 2 ^ bitLength n ≤ 2 ^ (b - 1) := Nat.pow_le_pow_right (by decide) (by omega)
    omega
  · have : 2 ^ b ≤ 2 ^ (bitLength n - 1) := Nat.pow_le_pow_right (by decide) (by omega)
    omega

theorem bitLength_le (n b : Nat) (h : n < 2 ^ b) : bitLength n ≤ b := by
  by_cases hn : n = 0
  · subst hn; simp [bitLength]
  · obtain ⟨g0, g1, _⟩ := bitLength_spec n hn
    by_contra hc
    have : 2 ^ b ≤ 2 ^ (bitLength n - 1) := Nat.pow_le_pow_right (by decide) (by omega)
    omega

theorem bitLength_ge (n b : Nat) (h : 2 ^ b ≤ n) : b + 1 ≤ bitLength n := by
  have hn : n ≠ 0 := by
    have : 0 < 2 ^ b := Nat.two_pow_pos _
    omega
  obtain ⟨_, _, g2⟩ := bitLength_spec n hn
  by_contra hc
  have : 2 ^ bitLength n ≤ 2 ^ b := Nat.pow_le_pow_right (by decide) (by omega)
  omega

/-- A number with 53 significant binary digits at most is left as it is by the rounding. -/
theorem roundEven_fix (D den : Nat) (hd : 0 < den)
    (hr : D % 2 ^ (bitLength D - 53) = 0) : roundEven (D * den) den = D := by
  unfold roundEven
  have hq : D * den / den = D := Nat.mul_div_cancel _ hd
  simp only [hq]
  have hm : D / 2 ^ (bitLength D - 53) * 2 ^ (bitLength D - 53) = D :=
    Nat.div_mul_cancel (Nat.dvd_of_mod_eq_zero hr)
  have hu : 0 < 2 ^ (bitLength D - 53) := Nat.two_pow_pos _
  rw [hm, Nat.sub_self, Nat.mul_zero]
  have hpos : 0 < 2 ^ (bitLength D - 53) * den := Nat.mul_pos hu hd
  rw [if_neg]
  rintro (h | ⟨h, _⟩) <;> omega

theorem bitLength_mul_pow (m s : Nat) (b : Nat) (hb : 1 ≤ b) (h1 : 2 ^ (b - 1) ≤ m)
    (h2 : m < 2 ^ b) : bitLength (m * 2 ^ s) = b + s := by
  apply bitLength_unique _ _ (by omega)
  · have e : b + s - 1 = (b - 1) + s := by omega
    rw [e, pow_add]
    exact Nat.mul_le_mul_right _ h1
  · rw [pow_add]
    exact Nat.mul_lt_mul_of_pos_right h2 (Nat.two_pow_pos _)

/-- The result of the rounding has 53 significant binary digits at most. -/
theorem roundEven_representable (num den : Nat) :
    roundEven num den % 2 ^ (bitLength (roundEven num den) - 53) = 0 := by
  unfold roundEven
  simp only
  generalize hq : num / den = q
  generalize (2 * (num - q / 2 ^ (bitLength q - 53) * 2 ^ (bitLength q - 53) * den)) = twice
  by_cases hsmall : q < 2 ^ 53
  · have hb : bitLength q - 53 = 0 := by have := bitLength_le q 53 hsmall; omega
    rw [hb]
    simp only [pow_zero, Nat.div_one, Nat.mul_one]
    have key : ∀ x : Nat, x ≤ 2 ^ 53 → x % 2 ^ (bitLength x - 53) = 0 := by
      intro x hx
      rcases Nat.lt_or_ge x (2 ^ 53) with h | h
      · have : bitLength x - 53 = 0 := by have := bitLength_le x 53 h; omega
        rw [this]; simp [Nat.mod_one]
      · have e : x = 2 ^ 53 := by omega
        subst e
        have : bitLength (2 ^ 53) = 54 :=
          bitLength_unique _ 54 (by decide) (by decide) (by decide)
        rw [this]
        decide
    split
    · exact key _ (by omega)
    · exact key _ (by omega)
  · have hq0 : q ≠ 0 := by
      intro e; subst e; simp at hsmall
    obtain ⟨g0, g1, g2⟩ := bitLength_spec q hq0
    have hb54 : 54 ≤ bitLength q := bitLength_ge q 53 (by omega)
    generalize hbq : bitLength q = b at *
    obtain ⟨s, rfl⟩ : ∃ s, b = s + 53 := ⟨b - 53, by omega⟩
    have hs : 1 ≤ s := by omega
    simp only [Nat.add_sub_cancel]
    have hm1 : 2 ^ 52 ≤ q / 2 ^ s := by
      rw [Nat.le_div_iff_mul_le (Nat.two_pow_pos _), ← pow_add]
      have e : s + 53 - 1 = 52 + s := by omega
      rw [e] at g1
      exact g1
    have hm2 : q / 2 ^ s < 2 ^ 53 := by
      rw [Nat.div_lt_iff_lt_mul (Nat.two_pow_pos _), ← pow_add]
      have e : s + 53 = 53 + s := by omega
      rw [e] at g2
      exact g2
    generalize q / 2 ^ s = m at hm1 hm2
    have keyA : ∀ x : Nat, 2 ^ 52 ≤ x → x < 2 ^ 53 →
        x * 2 ^ s % 2 ^ (bitLength (x * 2 ^ s) - 53) = 0 := by
      intro x hx1 hx2
      rw [bitLength_mul_pow x s 53 (by decide) hx1 hx2]
      have e : 53 + s - 53 = s := by omega
      rw [e]
      exact Nat.mul_mod_left _ _
    have keyB : 2 ^ 53 * 2 ^ s % 2 ^ (bitLength (2 ^ 53 * 2 ^ s) - 53) = 0 := by
      rw [bitLength_mul_pow (2 ^ 53) s 54 (by decide) (by decide) (by decide)]
      have e : 54 + s - 53 = s + 1 := by omega
      rw [e, ← pow_add]
      exact Nat.mod_eq_zero_of_dvd (pow_dvd_pow 2 (by omega))
    split
    · rcases Nat.lt_or_ge (m + 1) (2 ^ 53) with h | h
      · exact keyA _ (by omega) h
      · have e : m + 1 = 2 ^ 53 := by omega
        rw [e]; exact keyB
    · exact keyA _ hm1 hm2

/-! ## The decimal digits of a number -/

theorem toDigitsCore_append : ∀ (n fuel : Nat) (ds : List Char), n < fuel →
    Nat.toDigitsCore 10 fuel n ds = Nat.toDigitsCore 10 (n + 1) n [] ++ ds := by
  intro n
  induction n using Nat.strong_induction_on with
  | _ n ih =>
    intro fuel ds hf
    by_cases h : n < 10
    · rw [toDigitsCore_small fuel n ds (by omega) h, toDigitsCore_small (n + 1) n [] (by omega) h]
      rfl
    · rw [toDigitsCore_step fuel n ds (by omega) (by omega),
        toDigitsCore_step (n + 1) n [] (by omega) (by omega)]
      rw [ih (n / 10) (by omega) (fuel - 1) _ (by omega),
        ih (n / 10) (by omega) (n + 1 - 1) _ (by omega)]
      simp

theorem natToString_small (n : Nat) (h : n < 10) : natToString n = [48 + n] := by
  unfold natToString Nat.toDigits
  rw [toDigitsCore_small _ _ _ (by omega) h]
  simp [digitChar_toNat n h]

theorem natToString_step (n : Nat) (h : 10 ≤ n) :
    natToString n = natToString (n / 10) ++ [48 + n % 10] := by
  unfold natToString Nat.toDigits
  rw [toDigitsCore_step _ _ _ (by omega) h, toDigitsCore_append (n / 10) _ _ (by omega)]
  simp [digitChar_toNat (n % 10) (by omega)]

theorem natToString_all (n : Nat) : (natToString n).all isDigit = true := by
  induction n using Nat.strong_induction_on with
  | _ n ih =>
    by_cases h : n < 10
    · rw [natToString_small n h]
      simp [isDigit]; omega
    · rw [natToString_step n (by omega)]
      have := ih (n / 10) (by omega)
      simp only [List.all_append, this, List.all_cons, List.all_nil, Bool.and_true, Bool.true_and]
      simp [isDigit]; omega

theorem digitsToNat_snoc (ds : JSString) (c : Nat) :
    digitsToNat (ds ++ [c]) = 10 * digitsToNat ds + (c - 48) := by
  simp [digitsToNat, List.foldl_append]

theorem digitsToNat_natToString (n : Nat) : digitsToNat (natToString n) = n := by
  induction n using Nat.strong_induction_on with
  | _ n ih =>
    by_cases h : n < 10
    · rw [natToString_small n h]
      simp [digitsToNat]
    · rw [natToString_step n (by omega), digitsToNat_snoc, ih (n / 10) (by omega)]
      omega

theorem natToString_head (n : Nat) (h : 0 < n) :
    ∃ c r, natToString n = c :: r ∧ 49 ≤ c ∧ c ≤ 57 := by
  induction n using Nat.strong_induction_on with
  | _ n ih =>
    by_cases h1 : n < 10
    · exact ⟨48 + n, [], natToString_small n h1, by omega, by omega⟩
    · obtain ⟨c, r, hc, h2, h3⟩ := ih (n / 10) (by omega) (by omega)
      refine ⟨c, r ++ [48 + n % 10], ?_, h2, h3⟩
      rw [natToString_step n (by omega), hc]
      rfl

theorem natToString_length (n k : Nat) (hk : 1 ≤ k) (h : n < 10 ^ k) :
    (natToString n).length ≤ k := by
  induction k generalizing n with
  | zero => omega
  | succ k ih =>
    by_cases h1 : n < 10
    · rw [natToString_small n h1]; simp
    · rw [natToString_step n (by omega)]
      have hk1 : 1 ≤ k := by
        by_contra hc
        have : k = 0 := by omega
        subst this
        simp at h
        omega
      have : n / 10 < 10 ^ k := by
        rw [Nat.div_lt_iff_lt_mul (by decide)]
        rw [pow_succ] at h
        exact h
      have := ih (n / 10) hk1 this
      simp only [List.length_append, List.length_cons, List.length_nil]
      omega

theorem natToString_pos_length (n : Nat) : 1 ≤ (natToString n).length := by
  by_cases h : n < 10
  · rw [natToString_small n h]; simp
  · rw [natToString_step n (by omega)]
    simp

theorem digitsToNat_append (a b : JSString) :
    digitsToNat (a ++ b) = digitsToNat a * 10 ^ b.length + digitsToNat b := by
  induction b using List.reverseRecOn with
  | nil => simp [digitsToNat]
  | append_singleton b c ih =>
    rw [← List.append_assoc, digitsToNat_snoc, ih, digitsToNat_snoc]
    simp only [List.length_append, List.length_cons, List.length_nil, pow_succ]
    ring

theorem digitsToNat_zeros (j : Nat) : digitsToNat (List.replicate j 48) = 0 := by
  induction j with
  | zero => rfl
  | succ j ih =>
    rw [List.replicate_succ', digitsToNat_snoc, ih]

theorem all_isDigit_zeros (j : Nat) : (List.replicate j 48).all isDigit = true := by
  simp [List.all_eq_true, isDigit]

/-! ## The digits that Number::toString chooses -/

theorem digitsAt_valid (D : Nat) (p : Int) (r : Nat × Int) (h : digitsAt D p = some r) :
    0 < r.1 ∧ (JNumber.mk false r.1 r.2).magnitude = D := by
  unfold digitsAt at h
  simp only at h
  generalize (if p < 0 then D * 10 ^ (-p).toNat else D) = num at h
  generalize (if p < 0 then 2 ^ 1074 else 2 ^ 1074 * 10 ^ p.toNat) = den at h
  generalize hc : num / den = c at h
  have hhi : ∀ x : Nat × Int,
      x = (if (c + 1) % 10 = 0 then ((c + 1) / 10, p + 1) else (c + 1, p)) → 0 < x.1 := by
    intro x hx
    subst hx
    split
    · simp only; omega
    · simp only; omega
  generalize hy : (if (c + 1) % 10 = 0 then ((c + 1) / 10, p + 1) else (c + 1, p)) = hi at h
  have hpos := hhi hi hy.symm
  split at h
  · rename_i hboth
    simp only [Bool.and_eq_true, bne_iff_ne, ne_eq, beq_iff_eq] at hboth
    split at h
    · simp only [Option.some.injEq] at h
      subst h
      exact ⟨Nat.pos_of_ne_zero hboth.1.1, hboth.1.2⟩
    · simp only [Option.some.injEq] at h
      subst h
      exact ⟨hpos, hboth.2⟩
  · split at h
    · rename_i hlo
      simp only [Bool.and_eq_true, bne_iff_ne, ne_eq, beq_iff_eq] at hlo
      simp only [Option.some.injEq] at h
      subst h
      exact ⟨Nat.pos_of_ne_zero hlo.1, hlo.2⟩
    · split at h
      · rename_i hhi2
        simp only [beq_iff_eq] at hhi2
        simp only [Option.some.injEq] at h
        subst h
        exact ⟨hpos, hhi2⟩
      · simp at h

theorem shortestFrom_valid (D : Nat) : ∀ (fuel : Nat) (p : Int) (r : Nat × Int),
    shortestFrom D fuel p = some r → 0 < r.1 ∧ (JNumber.mk false r.1 r.2).magnitude = D := by
  intro fuel
  induction fuel with
  | zero => intro p r h; simp [shortestFrom] at h
  | succ fuel ih =>
    intro p r h
    simp only [shortestFrom] at h
    split at h
    · rename_i r1 hr1
      simp only [Option.some.injEq] at h
      subst h
      exact digitsAt_valid D p _ hr1
    · exact ih _ _ h

/-- At the exponent -1074 every double is written exactly. -/
theorem digitsAt_exact (D : Nat) (h0 : D ≠ 0) (hr : D % 2 ^ (bitLength D - 53) = 0) :
    (digitsAt D (-1074)).isSome = true := by
  have hnum : D * 10 ^ 1074 / 2 ^ 1074 = D * 5 ^ 1074 := by
    have e : (10 : Nat) ^ 1074 = 5 ^ 1074 * 2 ^ 1074 := by
      rw [← Nat.mul_pow]
    rw [e, ← Nat.mul_assoc]
    exact Nat.mul_div_cancel _ (Nat.two_pow_pos _)
  have hmag : (JNumber.mk false (D * 5 ^ 1074) (-1074)).magnitude = D := by
    unfold JNumber.magnitude JNumber.ratio
    simp only [show ¬ (0 : Int) ≤ -1074 by decide, if_false,
      show (-(-1074 : Int)).toNat = 1074 by decide]
    have e : D * 5 ^ 1074 * 2 ^ 1074 = D * 10 ^ 1074 := by
      rw [Nat.mul_assoc, ← Nat.mul_pow]
    rw [e]
    exact roundEven_fix D _ (Nat.pos_pow_of_pos _ (by decide)) hr
  have hne : D * 5 ^ 1074 ≠ 0 := Nat.mul_ne_zero h0 (by positivity)
  unfold digitsAt
  simp only [show (-1074 : Int) < 0 by decide, if_true,
    show (-(-1074 : Int)).toNat = 1074 by decide, hnum]
  generalize D * 5 ^ 1074 = c at hmag hne
  have hlo : (c != 0 && (JNumber.mk false c (-1074)).magnitude == D) = true := by
    rw [hmag]
    simp [hne]
  rw [hlo]
  simp only [Bool.true_and, if_true]
  split_ifs <;> rfl

theorem shortestFrom_total (D : Nat) (p0 : Int) (h : (digitsAt D p0).isSome = true) :
    ∀ (fuel : Nat) (p : Int), p = p0 + fuel → (shortestFrom D (fuel + 1) p).isSome = true := by
  intro fuel
  induction fuel with
  | zero =>
    intro p hp
    simp only [Nat.cast_zero, add_zero] at hp
    subst hp
    simp only [shortestFrom]
    split
    · rfl
    · rename_i hn; rw [hn] at h; simp at h
  | succ fuel ih =>
    intro p hp
    rw [shortestFrom]
    split
    · rfl
    · exact ih (p - 1) (by push_cast at hp; omega)

theorem leadingExponent_ge (D : Nat) : -1074 ≤ leadingExponent D := by
  unfold leadingExponent
  split
  · have := natToString_pos_length (D / 2 ^ 1074)
    omega
  · have hlt : (2 ^ 1074 - 1) / D < 10 ^ 1074 := by
      have h1 : (2 ^ 1074 - 1) / D ≤ 2 ^ 1074 - 1 := Nat.div_le_self _ _
      have h2 : (2 : Nat) ^ 1074 ≤ 10 ^ 1074 := Nat.pow_le_pow_left (by decide) _
      have h3 : 0 < (2 : Nat) ^ 1074 := Nat.two_pow_pos _
      omega
    have := natToString_length _ 1074 (by decide) hlt
    omega

/-- The search for the digits of a double other than 0 succeeds, and the digits found are
rounded to the double. -/
theorem shortestDigits_spec (D : Nat) (h0 : D ≠ 0) (hr : D % 2 ^ (bitLength D - 53) = 0) :
    ∃ r, shortestDigits D = some r ∧ 0 < r.1 ∧ (JNumber.mk false r.1 r.2).magnitude = D := by
  have hge := leadingExponent_ge D
  have htot := shortestFrom_total D (-1074) (digitsAt_exact D h0 hr)
    (leadingExponent D + 1074).toNat (leadingExponent D) (by omega)
  unfold shortestDigits
  cases hs : shortestFrom D ((leadingExponent D + 1074).toNat + 1) (leadingExponent D) with
  | none => rw [hs] at htot; simp at htot
  | some r => exact ⟨r, rfl, shortestFrom_valid D _ _ r hs⟩

theorem magnitude_representable (n : JNumber) :
    n.magnitude % 2 ^ (bitLength n.magnitude - 53) = 0 :=
  roundEven_representable _ _

theorem magnitude_neg (neg : Bool) (s : Nat) (p : Int) :
    (JNumber.mk neg s p).magnitude = (JNumber.mk false s p).magnitude := rfl

theorem magnitude_zeros (neg : Bool) (s : Nat) (p : Int) (hp : 0 ≤ p) :
    (JNumber.mk neg (s * 10 ^ p.toNat) 0).magnitude = (JNumber.mk false s p).magnitude := by
  unfold JNumber.magnitude JNumber.ratio
  simp [hp]

/-! ## Reading back the text of a number -/

theorem takeWhile_stop (p : Nat → Bool) (l t : JSString) (hl : l.all p = true)
    (ht : ∀ c ∈ t.head?, p c = false) : (l ++ t).takeWhile p = l := by
  induction l with
  | nil =>
    cases t with
    | nil => rfl
    | cons c r => simp [List.takeWhile, ht c (by simp)]
  | cons a l ih =>
    simp only [List.all_cons, Bool.and_eq_true] at hl
    simp [List.takeWhile, hl.1, ih hl.2]

theorem dropWhile_stop (p : Nat → Bool) (l t : JSString) (hl : l.all p = true)
    (ht : ∀ c ∈ t.head?, p c = false) : (l ++ t).dropWhile p = t := by
  induction l with
  | nil =>
    cases t with
    | nil => rfl
    | cons c r => simp [List.dropWhile, ht c (by simp)]
  | cons a l ih =>
    simp only [List.all_cons, Bool.and_eq_true] at hl
    simp [List.dropWhile, hl.1, ih hl.2]

theorem parseFraction_digits (F t : JSString) (hF : F.all isDigit = true) (hne : F ≠ [])
    (ht : ∀ c ∈ t.head?, isDigit c = false) : parseFraction (46 :: (F ++ t)) = (F, t) := by
  unfold parseFraction
  simp only [takeWhile_stop isDigit F t hF ht, dropWhile_stop isDigit F t hF ht, true_and]
  cases F with
  | nil => exact absurd rfl hne
  | cons a F => simp

theorem parseFraction_none (t : JSString) (ht : ∀ c ∈ t.head?, c ≠ 46) :
    parseFraction t = ([], t) := by
  unfold parseFraction
  cases t with
  | nil => rfl
  | cons c r =>
    have : c ≠ 46 := ht c (by simp)
    simp [this]

theorem parseExponent_digits (sg : Bool) (e : Nat) (rest : JSString)
    (hr : ∀ c ∈ rest.head?, isDigit c = false) :
    parseExponent ((if sg then 45 else 43) :: (natToString e ++ rest)) =
      some (if sg then -(e : Int) else e, rest) := by
  have hall := natToString_all e
  have hpos := natToString_pos_length e
  have htw := takeWhile_stop isDigit (natToString e) rest hall hr
  have hdw := dropWhile_stop isDigit (natToString e) rest hall hr
  have hne : (natToString e).isEmpty = false := by
    cases h : natToString e with
    | nil => rw [h] at hpos; simp at hpos
    | cons a l => rfl
  unfold parseExponent
  cases sg with
  | true =>
    simp only [if_true, List.head?_cons, Option.some.injEq, show (45 : Nat) ≠ 43 by decide,
      false_or, List.drop_succ_cons, List.drop_zero, htw, hdw, hne, Bool.false_eq_true,
      if_false, digitsToNat_natToString]
  | false =>
    simp only [Bool.false_eq_true, if_false, List.head?_cons, Option.some.injEq, true_or,
      if_true, List.drop_succ_cons, List.drop_zero, htw, hdw, hne,
      show (43 : Nat) ≠ 45 by decide, digitsToNat_natToString]

/-- What follows the text of a value starts neither a fraction nor an exponent. -/
theorem delimited_head (rest : JSString) (h : Delimited rest) :
    ∀ c ∈ rest.head?, isDigit c = false ∧ c ≠ 46 ∧ c ≠ 101 ∧ c ≠ 69 := by
  intro c hc
  rcases h with h | ⟨d, r, h, hd⟩
  · subst h; simp at hc
  · subst h
    simp only [List.head?_cons, Option.mem_def, Option.some.injEq] at hc
    subst hc
    rcases hd with h | h | h <;> subst h <;> decide

/-- A number text made of a sign, a first digit `c` with further digits `r0`, a fraction `F`
and an exponent `ex`, the last two possibly absent, is read by `parseNumber` as the literal
of these parts. -/
theorem parseNumber_general (neg : Bool) (c : Nat) (r0 F : JSString) (ex : Option (Bool × Nat))
    (rest : JSString) (hc : isDigit c = true) (hr0 : r0.all isDigit = true)
    (hzero : c = 48 → r0 = []) (hF : F.all isDigit = true) (hrest : Delimited rest) :
    parseNumber ((if neg then [45] else []) ++ (c :: r0) ++
        (if F = [] then [] else 46 :: F) ++
        (match ex with
          | none => []
          | some x => [101, if x.1 then 45 else 43] ++ natToString x.2) ++ rest) =
      some (⟨neg, digitsToNat (c :: r0 ++ F),
        (match ex with
          | none => 0
          | some x => if x.1 then -(x.2 : Int) else x.2) - F.length⟩, rest) := by
  have hdel := delimited_head rest hrest
  -- what follows the fraction
  generalize ht2 : (match ex with
      | none => []
      | some x => [101, if x.1 then 45 else 43] ++ natToString x.2) ++ rest = tail2
  have h2head : ∀ d ∈ tail2.head?, isDigit d = false ∧ d ≠ 46 := by
    intro d hd
    cases ex with
    | none =>
      simp only [List.nil_append] at ht2
      subst ht2
      exact ⟨(hdel d hd).1, (hdel d hd).2.1⟩
    | some x =>
      simp only [List.cons_append, List.nil_append] at ht2
      subst ht2
      simp only [List.head?_cons, Option.mem_def, Option.some.injEq] at hd
      subst hd
      decide
  -- what follows the integer part
  generalize ht1 : (if F = [] then [] else 46 :: F) ++ tail2 = tail1
  have h1head : ∀ d ∈ tail1.head?, isDigit d = false := by
    intro d hd
    by_cases hFe : F = []
    · rw [if_pos hFe, List.nil_append] at ht1
      subst ht1
      exact (h2head d hd).1
    · rw [if_neg hFe] at ht1
      subst ht1
      simp only [List.cons_append, List.head?_cons, Option.mem_def, Option.some.injEq] at hd
      subst hd
      decide
  have hfrac : parseFraction tail1 = (F, tail2) := by
    by_cases hFe : F = []
    · rw [if_pos hFe, List.nil_append] at ht1
      subst ht1
      subst hFe
      exact parseFraction_none _ (fun d hd => (h2head d hd).2)
    · rw [if_neg hFe] at ht1
      subst ht1
      exact parseFraction_digits F tail2 hF hFe (fun d hd => (h2head d hd).1)
  have hbody : (if neg then [45] else []) ++ (c :: r0) ++ (if F = [] then [] else 46 :: F) ++
      (match ex with
        | none => []
        | some x => [101, if x.1 then 45 else 43] ++ natToString x.2) ++ rest =
      (if neg then [45] else []) ++ (c :: (r0 ++ tail1)) := by
    rw [← ht1, ← ht2]
    simp only [List.append_assoc, List.cons_append]
  rw [hbody]
  have hc45 : c ≠ 45 := by
    intro e; subst e; simp [isDigit] at hc
  have hstrip : (if ((if neg then [45] else []) ++ (c :: (r0 ++ tail1))).head? = some 45
      then ((if neg then [45] else []) ++ (c :: (r0 ++ tail1))).drop 1
      else (if neg then [45] else []) ++ (c :: (r0 ++ tail1))) = c :: (r0 ++ tail1) := by
    cases neg <;> simp [hc45]
  have hneg : decide (((if neg then [45] else []) ++ (c :: (r0 ++ tail1))).head? = some 45) =
      neg := by
    cases neg <;> simp [hc45]
  unfold parseNumber
  rw [hstrip]
  simp only [hc, Bool.not_true, Bool.false_eq_true, if_false, hneg]
  have hint : (if c = 48 then [c] else c :: (r0 ++ tail1).takeWhile isDigit) = c :: r0 := by
    by_cases h0 : c = 48
    · rw [if_pos h0, hzero h0]
    · rw [if_neg h0, takeWhile_stop isDigit r0 tail1 hr0 h1head]
  have hfr : parseFraction (if c = 48 then r0 ++ tail1 else (r0 ++ tail1).dropWhile isDigit) =
      (F, tail2) := by
    by_cases h0 : c = 48
    · rw [if_pos h0, hzero h0, List.nil_append, hfrac]
    · rw [if_neg h0, dropWhile_stop isDigit r0 tail1 hr0 h1head, hfrac]
  rw [hint, hfr]
  simp only
  cases ex with
  | none =>
    simp only [List.nil_append] at ht2
    subst ht2
    simp only [zero_sub]
    rcases hrest with h | ⟨d, r, h, hd⟩
    · subst h; rfl
    · subst h
      have hd2 : ¬ (d = 101 ∨ d = 69) := by
        rcases hd with h | h | h <;> subst h <;> decide
      simp only [hd2, if_false]
  | some x =>
    simp only [List.cons_append, List.nil_append] at ht2
    subst ht2
    simp only [true_or, if_true]
    rw [parseExponent_digits x.1 x.2 rest (fun d hd => (hdel d hd).1)]

/-- The text of Number::toString is read back by `parseNumber` as the digits and the exponent
it was written from; in the form with final zeros, as the digits followed by the zeros. -/
theorem parseNumber_digitsText (neg : Bool) (s : Nat) (p : Int) (hs : 0 < s) (rest : JSString)
    (hrest : Delimited rest) :
    parseNumber ((if neg then [45] else []) ++ digitsText s p ++ rest) =
      some (if 0 ≤ p ∧ p + (natToString s).length ≤ 21 then ⟨neg, s * 10 ^ p.toNat, 0⟩
        else ⟨neg, s, p⟩, rest) := by
  obtain ⟨c, r, hd, h49, h57⟩ := natToString_head s hs
  have hall := natToString_all s
  have hval := digitsToNat_natToString s
  rw [hd] at hall hval
  have hcd : isDigit c = true := by simp [isDigit]; omega
  have hr : r.all isDigit = true := by
    simp only [List.all_cons, Bool.and_eq_true] at hall
    exact hall.2
  have hc48 : c = 48 → ∀ l : JSString, l = [] := by intro h; omega
  unfold digitsText
  simp only [hd, List.length_cons]
  by_cases h1 : ((r.length + 1 : Nat) : Int) ≤ p + ((r.length + 1 : Nat) : Int) ∧
      p + ((r.length + 1 : Nat) : Int) ≤ 21
  · -- the digits followed by zeros
    have hp : 0 ≤ p := by omega
    have hcond : 0 ≤ p ∧ p + ((r.length + 1 : Nat) : Int) ≤ 21 := ⟨hp, h1.2⟩
    rw [if_pos h1, if_pos hcond]
    have hg := parseNumber_general neg c (r ++ List.replicate p.toNat 48) [] none rest hcd
      (by simp only [List.all_append, hr, all_isDigit_zeros, Bool.and_self])
      (fun h => hc48 h _) (by rfl) hrest
    simp only [if_true, List.append_nil, List.length_nil, Nat.cast_zero, sub_zero] at hg
    have e : (if neg = true then [45] else []) ++ (c :: r ++ List.replicate p.toNat 48) ++ rest =
        (if neg = true then [45] else []) ++ c :: (r ++ List.replicate p.toNat 48) ++ rest := by
      simp
    rw [e, hg]
    have hm : digitsToNat (c :: (r ++ List.replicate p.toNat 48)) = s * 10 ^ p.toNat := by
      have := digitsToNat_append (c :: r) (List.replicate p.toNat 48)
      rw [List.cons_append] at this
      rw [this, hval, digitsToNat_zeros, List.length_replicate, Nat.add_zero]
    rw [hm]
  · rw [if_neg h1]
    have hnot : ¬ (0 ≤ p ∧ p + ((r.length + 1 : Nat) : Int) ≤ 21) := by
      intro h; exact h1 ⟨by omega, h.2⟩
    rw [if_neg hnot]
    by_cases h2 : 0 < p + ((r.length + 1 : Nat) : Int) ∧ p + ((r.length + 1 : Nat) : Int) ≤ 21
    · -- the digits with a point
      rw [if_pos h2]
      obtain ⟨m, hm⟩ : ∃ m : Nat, (p + ((r.length + 1 : Nat) : Int)).toNat = m + 1 :=
        ⟨(p + ((r.length + 1 : Nat) : Int)).toNat - 1, by omega⟩
      have hmr : m < r.length := by omega
      rw [hm]
      simp only [List.take_succ_cons, List.drop_succ_cons]
      have hFne : r.drop m ≠ [] := by
        intro h
        have := congrArg List.length h
        simp only [List.length_drop, List.length_nil] at this
        omega
      have hg := parseNumber_general neg c (r.take m) (r.drop m) none rest hcd
        (by
          rw [List.all_eq_true] at hr ⊢
          intro x hx
          exact hr x (List.mem_of_mem_take hx))
        (fun h => hc48 h _)
        (by
          rw [List.all_eq_true] at hr ⊢
          intro x hx
          exact hr x (List.mem_of_mem_drop hx))
        hrest
      rw [if_neg hFne] at hg
      simp only [List.append_nil, zero_sub] at hg
      have e : (if neg = true then [45] else []) ++ (c :: List.take m r ++ [46] ++ List.drop m r) ++
          rest =
          (if neg = true then [45] else []) ++ c :: List.take m r ++ 46 :: List.drop m r ++
            rest := by
        simp
      rw [e, hg]
      have hmant : digitsToNat (c :: List.take m r ++ List.drop m r) = s := by
        rw [List.cons_append, List.take_append_drop, hval]
      have hexp : -((List.drop m r).length : Int) = p := by
        simp only [List.length_drop]
        omega
      rw [hmant, hexp]
    · rw [if_neg h2]
      by_cases h3 : -6 < p + ((r.length + 1 : Nat) : Int) ∧ p + ((r.length + 1 : Nat) : Int) ≤ 0
      · -- zeros before the digits
        rw [if_pos h3]
        have hg := parseNumber_general neg 48 []
          (List.replicate (-(p + ((r.length + 1 : Nat) : Int))).toNat 48 ++ c :: r) none rest
          (by decide) (by rfl) (fun _ => rfl)
          (by
            simp only [List.all_append, all_isDigit_zeros, Bool.true_and]
            exact hall)
          hrest
        have hFne : ¬ (List.replicate (-(p + ((r.length + 1 : Nat) : Int))).toNat 48 ++ c :: r =
            []) := by simp
        rw [if_neg hFne] at hg
        simp only [List.append_nil, zero_sub] at hg
        have e : (if neg = true then [45] else []) ++
            ([48, 46] ++ List.replicate (-(p + ((r.length + 1 : Nat) : Int))).toNat 48 ++ c :: r) ++
            rest =
            (if neg = true then [45] else []) ++ [48] ++
              46 :: (List.replicate (-(p + ((r.length + 1 : Nat) : Int))).toNat 48 ++ c :: r) ++
              rest := by
          simp
        rw [e, hg]
        have hmant : digitsToNat ([48] ++
            (List.replicate (-(p + ((r.length + 1 : Nat) : Int))).toNat 48 ++ c :: r)) = s := by
          rw [← List.append_assoc, digitsToNat_append, hval]
          have : [48] ++ List.replicate (-(p + ((r.length + 1 : Nat) : Int))).toNat 48 =
              List.replicate ((-(p + ((r.length + 1 : Nat) : Int))).toNat + 1) 48 := by
            rw [List.replicate_succ]; rfl
          rw [this, digitsToNat_zeros]
          simp
        have hexp : -((List.replicate (-(p + ((r.length + 1 : Nat) : Int))).toNat 48 ++
            c :: r).length : Int) = p := by
          simp only [List.length_append, List.length_replicate, List.length_cons]
          omega
        rw [hmant, hexp]
      · -- the exponential form
        rw [if_neg h3]
        have hsign : ∀ x : Int, (if decide (x < 0) = true then -((x.natAbs : Nat) : Int)
            else ((x.natAbs : Nat) : Int)) = x := by
          intro x
          by_cases hx : x < 0
          · simp only [hx, decide_True, if_true]; omega
          · simp only [hx, decide_False, Bool.false_eq_true, if_false]; omega
        by_cases hk : r.length + 1 = 1
        · have hr0 : r = [] := List.eq_nil_of_length_eq_zero (by omega)
          subst hr0
          rw [if_pos hk]
          have hg := parseNumber_general neg c [] []
            (some (decide (p + ((0 + 1 : Nat) : Int) - 1 < 0),
              (p + ((0 + 1 : Nat) : Int) - 1).natAbs)) rest hcd (by rfl) (fun _ => rfl) (by rfl)
            hrest
          simp only [if_true, List.append_nil, List.length_nil, Nat.cast_zero, sub_zero,
            hsign] at hg
          have e : (if neg = true then [45] else []) ++
              ([c] ++ [101, if p + ((([] : JSString).length + 1 : Nat) : Int) - 1 < 0 then 45
                else 43] ++
                natToString (p + ((([] : JSString).length + 1 : Nat) : Int) - 1).natAbs) ++ rest =
              (if neg = true then [45] else []) ++ [c] ++
                ([101, if decide (p + ((0 + 1 : Nat) : Int) - 1 < 0) = true then 45 else 43] ++
                  natToString (p + ((0 + 1 : Nat) : Int) - 1).natAbs) ++ rest := by
            simp
          rw [e, hg]
          have hmant : digitsToNat [c] = s := hval
          rw [hmant]
          simp
        · rw [if_neg hk]
          have hrne : r ≠ [] := by
            intro h; subst h; simp at hk
          have hg := parseNumber_general neg c [] r
            (some (decide (p + ((r.length + 1 : Nat) : Int) - 1 < 0),
              (p + ((r.length + 1 : Nat) : Int) - 1).natAbs)) rest hcd (by rfl) (fun _ => rfl) hr
            hrest
          rw [if_neg hrne] at hg
          simp only [hsign] at hg
          have e : (if neg = true then [45] else []) ++
              (List.take 1 (c :: r) ++ [46] ++ List.drop 1 (c :: r) ++
                [101, if p + ((r.length + 1 : Nat) : Int) - 1 < 0 then 45 else 43] ++
                natToString (p + ((r.length + 1 : Nat) : Int) - 1).natAbs) ++ rest =
              (if neg = true then [45] else []) ++ [c] ++ 46 :: r ++
                ([101, if decide (p + ((r.length + 1 : Nat) : Int) - 1 < 0) = true then 45
                  else 43] ++
                  natToString (p + ((r.length + 1 : Nat) : Int) - 1).natAbs) ++ rest := by
            simp
          rw [e, hg]
          have hmant : digitsToNat ([c] ++ r) = s := hval
          rw [hmant]
          have hexp : p + ((r.length + 1 : Nat) : Int) - 1 - (r.length : Int) = p := by
            push_cast; omega
          rw [hexp]

theorem digitsText_head (s : Nat) (p : Int) (hs : 0 < s) :
    ∃ c r, digitsText s p = c :: r ∧ isDigit c = true := by
  obtain ⟨c, r, hd, h49, h57⟩ := natToString_head s hs
  have hcd : isDigit c = true := by simp [isDigit]; omega
  unfold digitsText
  simp only [hd]
  split
  · exact ⟨c, _, rfl, hcd⟩
  · split
    · rename_i h
      obtain ⟨m, hm⟩ : ∃ m : Nat, (p + ((c :: r).length : Int)).toNat = m + 1 :=
        ⟨(p + ((c :: r).length : Int)).toNat - 1, by omega⟩
      rw [hm]
      exact ⟨c, _, rfl, hcd⟩
    · split
      · exact ⟨48, _, rfl, by decide⟩
      · split
        · exact ⟨c, _, rfl, hcd⟩
        · exact ⟨c, _, rfl, hcd⟩

theorem parseValue_number (fuel : Nat) (c : Nat) (r : JSString)
    (hc : c = 45 ∨ isDigit c = true) :
    parseValue (fuel + 1) (c :: r) =
      match parseNumber (c :: r) with
      | some (n, rest) => some (JSON.num n, rest)
      | none => none := by
  have e0 : utf16 "null" = [110, 117, 108, 108] := by decide
  have e1 : utf16 "true" = [116, 114, 117, 101] := by decide
  have e2 : utf16 "false" = [102, 97, 108, 115, 101] := by decide
  have h123 : c ≠ 123 := by rcases hc with h | h <;> (intro e; subst e; simp [isDigit] at h)
  have h91 : c ≠ 91 := by rcases hc with h | h <;> (intro e; subst e; simp [isDigit] at h)
  have h34 : c ≠ 34 := by rcases hc with h | h <;> (intro e; subst e; simp [isDigit] at h)
  have h116 : c ≠ 116 := by rcases hc with h | h <;> (intro e; subst e; simp [isDigit] at h)
  have h102 : c ≠ 102 := by rcases hc with h | h <;> (intro e; subst e; simp [isDigit] at h)
  have h110 : c ≠ 110 := by rcases hc with h | h <;> (intro e; subst e; simp [isDigit] at h)
  unfold parseValue
  simp only [h123, h91, h34, if_false, e0, e1, e2]
  have t1 : ¬ List.take 4 (c :: r) = [116, 114, 117, 101] := by
    intro h; simp only [List.take_succ_cons] at h; exact h116 (List.cons.inj h).1
  have t2 : ¬ List.take 5 (c :: r) = [102, 97, 108, 115, 101] := by
    intro h; simp only [List.take_succ_cons] at h; exact h102 (List.cons.inj h).1
  have t3 : ¬ List.take 4 (c :: r) = [110, 117, 108, 108] := by
    intro h; simp only [List.take_succ_cons] at h; exact h110 (List.cons.inj h).1
  simp only [t1, t2, t3, if_false]

/-- The text that `JSON.stringify` writes for a number is read back as `null` when the double
is infinite and as the literal `JNumber.canon` otherwise. -/
theorem roundtrip_number (n : JNumber) :
    ∃ t, numberText n = some t ∧ ValueStart t ∧
      ∀ (fuel : Nat) (rest : JSString), Delimited rest →
        parseValue (fuel + 1) (t ++ rest) = some ((JSON.num n).canon, rest) := by
  unfold numberText JSON.canon
  by_cases hov : n.overflows = true
  · simp only [hov, if_true]
    exact ⟨_, rfl, ⟨110, [117, 108, 108], by decide, Or.inl rfl⟩,
      fun fuel rest _ => parseValue_null fuel rest⟩
  · simp only [hov, Bool.false_eq_true, if_false]
    by_cases hz : n.magnitude = 0
    · simp only [hz, if_true]
      refine ⟨_, rfl, ⟨48, [], rfl, by right; right; right; right; right; right; right; decide⟩,
        ?_⟩
      intro fuel rest hrest
      have hg := parseNumber_general false 48 [] [] none rest (by decide) (by rfl) (fun _ => rfl)
        (by rfl) hrest
      simp only [Bool.false_eq_true, if_false, if_true, List.nil_append, List.append_nil,
        List.length_nil, Nat.cast_zero, sub_zero] at hg
      have hcanon : n.canon = ⟨false, 0, 0⟩ := by unfold JNumber.canon; rw [if_pos hz]
      rw [hcanon]
      have hv := parseValue_number fuel 48 rest (Or.inr (by decide))
      rw [show [48] ++ rest = 48 :: rest by rfl] at hg ⊢
      rw [hv, hg]
      rfl
    · simp only [hz, if_false]
      obtain ⟨r, hr, hpos, hmag⟩ := shortestDigits_spec n.magnitude hz (magnitude_representable n)
      rw [hr]
      obtain ⟨c, tl, hhead, hcd⟩ := digitsText_head r.1 r.2 hpos
      refine ⟨_, rfl, ?_, ?_⟩
      · cases n.neg with
        | true => exact ⟨45, digitsText r.1 r.2, by simp, by simp⟩
        | false => exact ⟨c, tl, by simp [hhead], by simp [hcd]⟩
      · intro fuel rest hrest
        have hp := parseNumber_digitsText n.neg r.1 r.2 hpos rest hrest
        have hcanon : n.canon =
            (if 0 ≤ r.2 ∧ r.2 + (natToString r.1).length ≤ 21 then
              ⟨n.neg, r.1 * 10 ^ r.2.toNat, 0⟩ else ⟨n.neg, r.1, r.2⟩) := by
          unfold JNumber.canon
          rw [if_neg hz, hr]
        rw [hcanon]
        cases hneg : n.neg with
        | true =>
          rw [hneg] at hp
          simp only [if_true, List.cons_append, List.nil_append] at hp ⊢
          rw [parseValue_number fuel 45 _ (Or.inl rfl), hp]
        | false =>
          rw [hneg] at hp
          simp only [Bool.false_eq_true, if_false, List.nil_append] at hp ⊢
          rw [hhead] at hp ⊢
          rw [List.cons_append] at hp ⊢
          rw [parseValue_number fuel c _ (Or.inr hcd), hp]

/-! ## The order in which properties are enumerated -/

theorem propertyOrder_perm {α : Type} (l : List (JSString × α)) : (propertyOrder l).Perm l := by
  unfold propertyOrder
  refine List.Perm.trans (List.Perm.append_right _ (List.perm_insertionSort _ _)) ?_
  exact List.filter_append_perm _ l

theorem mem_propertyOrder {α : Type} (l : List (JSString × α)) (x : JSString × α) :
    x ∈ propertyOrder l ↔ x ∈ l :=
  (propertyOrder_perm l).mem_iff

theorem propertyOrder_map {α β : Type} (g : α → β) (l : List (JSString × α)) :
    propertyOrder (l.map (fun x => (x.1, g x.2))) =
      (propertyOrder l).map (fun x => (x.1, g x.2)) := by
  unfold propertyOrder
  rw [List.map_append, List.filter_map, List.filter_map]
  congr 1
  rw [List.map_insertionSort _ (fun a b : JSString × β => digitsToNat a.1 ≤ digitsToNat b.1)]
  · rfl
  · intro a _ b _
    rfl

theorem keys_propertyOrder {α β : Type} (l1 : List (JSString × α)) (l2 : List (JSString × β))
    (h : l1.map Prod.fst = l2.map Prod.fst) :
    (propertyOrder l1).map Prod.fst = (propertyOrder l2).map Prod.fst := by
  have e1 := propertyOrder_map (fun _ : α => ()) l1
  have e2 := propertyOrder_map (fun _ : β => ()) l2
  have hu : l1.map (fun x => (x.1, ())) = l2.map (fun x => (x.1, ())) := by
    have a1 : l1.map (fun x => (x.1, ())) = (l1.map Prod.fst).map (fun k => (k, ())) := by
      simp [List.map_map]
    have a2 : l2.map (fun x => (x.1, ())) = (l2.map Prod.fst).map (fun k => (k, ())) := by
      simp [List.map_map]
    rw [a1, a2, h]
  rw [hu] at e1
  have e3 := e1.symm.trans e2
  have := congrArg (List.map Prod.fst) e3
  simpa [List.map_map] using this

theorem propertyOrder_idem {α : Type} (l : List (JSString × α)) :
    propertyOrder (propertyOrder l) = propertyOrder l := by
  haveI : IsTotal (JSString × α) (fun a b => digitsToNat a.1 ≤ digitsToNat b.1) :=
    ⟨fun a b => Nat.le_total _ _⟩
  haveI : IsTrans (JSString × α) (fun a b => digitsToNat a.1 ≤ digitsToNat b.1) :=
    ⟨fun a b c h1 h2 => Nat.le_trans h1 h2⟩
  have hA : ∀ x ∈ (l.filter (fun p => isArrayIndex p.1)).insertionSort
      (fun a b => digitsToNat a.1 ≤ digitsToNat b.1), isArrayIndex x.1 = true := by
    intro x hx
    rw [List.mem_insertionSort] at hx
    exact (List.mem_filter.mp hx).2
  have hB : ∀ x ∈ l.filter (fun p => !isArrayIndex p.1), isArrayIndex x.1 = false := by
    intro x hx
    simpa using (List.mem_filter.mp hx).2
  have hs := List.sorted_insertionSort (fun a b : JSString × α => digitsToNat a.1 ≤ digitsToNat b.1)
    (l.filter (fun p => isArrayIndex p.1))
  unfold propertyOrder at *
  generalize (l.filter (fun p => isArrayIndex p.1)).insertionSort
    (fun a b => digitsToNat a.1 ≤ digitsToNat b.1) = A at hA hs
  generalize l.filter (fun p => !isArrayIndex p.1) = B at hB
  have f1 : (A ++ B).filter (fun p => isArrayIndex p.1) = A := by
    rw [List.filter_append, List.filter_eq_self.mpr hA,
      List.filter_eq_nil_iff.mpr (by intro x hx; simp [hB x hx]), List.append_nil]
  have f2 : (A ++ B).filter (fun p => !isArrayIndex p.1) = B := by
    rw [List.filter_append, List.filter_eq_nil_iff.mpr (by intro x hx; simp [hA x hx]),
      List.filter_eq_self.mpr (by intro x hx; simp [hB x hx]), List.nil_append]
  rw [f1, f2, List.Sorted.insertionSort_eq hs]

theorem canonFields_eq_map (fields : List (JSString × JSON)) :
    JSON.canonFields fields = fields.map (fun x => (x.1, x.2.canon)) := by
  induction fields with
  | nil => rfl
  | cons p rest ih =>
    obtain ⟨k, v⟩ := p
    simp [JSON.canonFields, ih]

theorem lookup_of_mem {α : Type} (l : List (JSString × α)) (k : JSString) (v : α)
    (hnd : (l.map Prod.fst).Nodup) (h : (k, v) ∈ l) : l.lookup k = some v := by
  induction l with
  | nil => simp at h
  | cons p rest ih =>
    obtain ⟨k1, v1⟩ := p
    simp only [List.map_cons, List.nodup_cons] at hnd
    rcases List.mem_cons.mp h with h1 | h1
    · simp only [Prod.mk.injEq] at h1
      obtain ⟨rfl, rfl⟩ := h1
      simp [List.lookup]
    · have hne : k ≠ k1 := by
        intro e
        subst e
        exact hnd.1 (List.mem_map_of_mem Prod.fst h1)
      have : (k == k1) = false := by simpa using hne
      simp only [List.lookup, this]
      exact ih hnd.2 h1

/-! ## The texts of arrays and objects read back -/

theorem skipWs_of_valueStart (t rest : JSString) (h : ValueStart t) :
    skipWs (t ++ rest) = t ++ rest := by
  obtain ⟨c, r, ht, hc⟩ := h
  subst ht
  have : isJsonSpace c = false := by
    rcases hc with h | h | h | h | h | h | h | h
    any_goals (subst h; rfl)
    simp only [isDigit, Bool.and_eq_true, decide_eq_true_eq] at h
    simp only [isJsonSpace, Bool.or_eq_false_iff, beq_eq_false_iff_ne, ne_eq]
    omega
  simp [skipWs, List.dropWhile, this]

theorem valueStart_ne (t : JSString) (h : ValueStart t) :
    ∃ c r, t = c :: r ∧ c ≠ 93 ∧ c ≠ 125 ∧ c ≠ 44 := by
  obtain ⟨c, r, ht, hc⟩ := h
  refine ⟨c, r, ht, ?_⟩
  rcases hc with h | h | h | h | h | h | h | h
  any_goals (subst h; decide)
  simp only [isDigit, Bool.and_eq_true, decide_eq_true_eq] at h
  omega

theorem parseElements_texts : ∀ tr : List (JSString × JSON),
    (∀ x ∈ tr, ReadsBack x.1 x.2) → tr ≠ [] →
    ∃ f0, ∀ fuel, f0 ≤ fuel → ∀ rest acc,
      parseElements fuel (joinComma (tr.map Prod.fst) ++ 93 :: rest) acc =
        some (JSON.arr (acc ++ tr.map Prod.snd), rest)
  | [], _, h => absurd rfl h
  | [x], hall, _ => by
    obtain ⟨hst, fv, hv⟩ := hall x (List.mem_cons_self _ _)
    refine ⟨fv + 1, ?_⟩
    intro fuel hf rest acc
    obtain ⟨f, rfl⟩ : ∃ f, fuel = f + 1 := ⟨fuel - 1, by omega⟩
    unfold parseElements
    simp only [List.map_cons, List.map_nil, joinComma]
    rw [hv f (by omega) (93 :: rest) (Or.inr ⟨93, rest, rfl, Or.inr (Or.inl rfl)⟩)]
    simp [skipWs, List.dropWhile, isJsonSpace]
  | x :: y :: tr, hall, _ => by
    obtain ⟨hst, fv, hv⟩ := hall x (List.mem_cons_self _ _)
    obtain ⟨fr, hr⟩ := parseElements_texts (y :: tr)
      (fun z hz => hall z (List.mem_cons_of_mem _ hz)) (by simp)
    obtain ⟨hst2, _⟩ := hall y (List.mem_cons_of_mem _ (List.mem_cons_self _ _))
    have hstj : ValueStart (joinComma ((y :: tr).map Prod.fst)) := by
      obtain ⟨c, r, hc, hcv⟩ := hst2
      cases tr with
      | nil => exact ⟨c, r, by simp [joinComma, hc], hcv⟩
      | cons u us => exact ⟨c, r ++ [44] ++ joinComma ((u :: us).map Prod.fst),
          by simp [joinComma, hc], hcv⟩
    refine ⟨max fv fr + 1, ?_⟩
    intro fuel hf rest acc
    obtain ⟨f, rfl⟩ : ∃ f, fuel = f + 1 := ⟨fuel - 1, by omega⟩
    unfold parseElements
    simp only [List.map_cons]
    rw [joinComma_cons, if_neg (by simp)]
    rw [hv f (by omega) _ (Or.inr ⟨44, _, rfl, Or.inl rfl⟩)]
    have hsk := skipWs_of_valueStart (joinComma ((y :: tr).map Prod.fst)) (93 :: rest) hstj
    simp only [List.map_cons] at hsk
    simp only [skipWs, List.dropWhile, show isJsonSpace 44 = false by decide, if_true]
    simp only [skipWs] at hsk
    rw [hsk]
    have := hr f (by omega) rest (acc ++ [x.2])
    simp only [List.map_cons] at this
    rw [this]
    simp

theorem parseMembers_texts : ∀ tr : List (JSString × (JSString × JSON)),
    (∀ x ∈ tr, ReadsBack x.2.1 x.2.2) → tr ≠ [] → (tr.map Prod.fst).Nodup →
    ∃ f0, ∀ fuel, f0 ≤ fuel → ∀ rest acc,
      (∀ k ∈ tr.map Prod.fst, k ∉ acc.map Prod.fst) →
      parseMembers fuel
          (joinComma (tr.map (fun x => memberText (x.1, x.2.1))) ++ 125 :: rest) acc =
        some (JSON.obj (acc ++ tr.map (fun x => (x.1, x.2.2))), rest)
  | [], _, h, _ => absurd rfl h
  | [x], hall, _, _ => by
    obtain ⟨hst, fv, hv⟩ := hall x (List.mem_cons_self _ _)
    obtain ⟨k, t, cv⟩ := x
    refine ⟨fv + 1, ?_⟩
    intro fuel hf rest acc hdis
    obtain ⟨f, rfl⟩ : ∃ f, fuel = f + 1 := ⟨fuel - 1, by omega⟩
    have hk : k ∉ acc.map Prod.fst := hdis k (by simp)
    have hmem : ∀ X : JSString, memberText (k, t) ++ X =
        34 :: (quoteBody k ++ 34 :: 58 :: (t ++ X)) := by
      intro X
      simp [memberText, quote]
    unfold parseMembers
    simp only [List.map_cons, List.map_nil, joinComma]
    rw [hmem]
    simp only [if_true, parseStringBody_quote]
    simp only [skipWs, List.dropWhile, show isJsonSpace 58 = false by decide, if_true]
    have hsk := skipWs_of_valueStart t (125 :: rest) hst
    simp only [skipWs] at hsk
    rw [hsk, hv f (by omega) _ (Or.inr ⟨125, rest, rfl, Or.inr (Or.inr rfl)⟩)]
    simp [List.dropWhile, isJsonSpace, setProp_of_not_mem acc k cv hk]
  | x :: y :: tr, hall, _, hnd => by
    obtain ⟨hst, fv, hv⟩ := hall x (List.mem_cons_self _ _)
    have hnd1 : x.1 ∉ (y :: tr).map Prod.fst ∧ ((y :: tr).map Prod.fst).Nodup := by
      simpa using hnd
    obtain ⟨fr, hr⟩ := parseMembers_texts (y :: tr)
      (fun z hz => hall z (List.mem_cons_of_mem _ hz)) (by simp) hnd1.2
    obtain ⟨k, t, cv⟩ := x
    have hst2 : ∃ r2, joinComma ((y :: tr).map (fun x => memberText (x.1, x.2.1))) = 34 :: r2 := by
      cases tr with
      | nil => exact ⟨_, by simp [joinComma, memberText, quote]; rfl⟩
      | cons u us => exact ⟨_, by simp [joinComma, memberText, quote]; rfl⟩
    obtain ⟨r2, hst2⟩ := hst2
    refine ⟨max fv fr + 1, ?_⟩
    intro fuel hf rest acc hdis
    obtain ⟨f, rfl⟩ : ∃ f, fuel = f + 1 := ⟨fuel - 1, by omega⟩
    have hk : k ∉ acc.map Prod.fst := hdis k (by simp)
    have hdis1 : ∀ k1 ∈ (y :: tr).map Prod.fst, k1 ∉ (acc ++ [(k, cv)]).map Prod.fst := by
      intro k1 hk1
      have := hdis k1 (by simp only [List.map_cons, List.mem_cons]; right; simpa using hk1)
      simp only [List.map_append, List.map_cons, List.map_nil, List.mem_append,
        List.mem_singleton, not_or]
      refine ⟨this, ?_⟩
      intro e
      subst e
      exact hnd1.1 hk1
    have hmem : ∀ X : JSString, memberText (k, t) ++ X =
        34 :: (quoteBody k ++ 34 :: 58 :: (t ++ X)) := by
      intro X
      simp [memberText, quote]
    unfold parseMembers
    simp only [List.map_cons]
    rw [joinComma_cons, if_neg (by simp), hmem]
    simp only [if_true, parseStringBody_quote]
    simp only [skipWs, List.dropWhile, show isJsonSpace 58 = false by decide, if_true]
    have hsk := skipWs_of_valueStart t
      (44 :: (joinComma ((y :: tr).map (fun x => memberText (x.1, x.2.1))) ++ 125 :: rest)) hst
    simp only [skipWs, List.map_cons] at hsk
    rw [hsk, hv f (by omega) _ (Or.inr ⟨44, _, rfl, Or.inl rfl⟩)]
    simp only [List.dropWhile, show isJsonSpace 44 = false by decide, if_true]
    simp only [List.map_cons] at hst2
    rw [hst2]
    simp only [List.cons_append, List.dropWhile, show isJsonSpace 34 = false by decide]
    have hr1 := hr f (by omega) rest (acc ++ [(k, cv)]) hdis1
    simp only [List.map_cons] at hr1
    rw [hst2] at hr1
    rw [setProp_of_not_mem acc k cv hk]
    simpa using hr1

mutual

theorem roundtrip_value : ∀ v : JSON, v.keysDistinct = true →
    ∃ t, v.stringify = some t ∧ ReadsBack t v.canon
  | JSON.null, _ =>
    ⟨utf16 "null", rfl, ⟨110, [117, 108, 108], by decide, Or.inl rfl⟩, 1, by
      intro fuel hf rest _
      obtain ⟨f, rfl⟩ : ∃ f, fuel = f + 1 := ⟨fuel - 1, by omega⟩
      exact parseValue_null f rest⟩
  | JSON.bool true, _ =>
    ⟨utf16 "true", rfl, ⟨116, [114, 117, 101], by decide, Or.inr (Or.inl rfl)⟩, 1, by
      intro fuel hf rest _
      obtain ⟨f, rfl⟩ : ∃ f, fuel = f + 1 := ⟨fuel - 1, by omega⟩
      exact parseValue_true f rest⟩
  | JSON.bool false, _ =>
    ⟨utf16 "false", rfl, ⟨102, [97, 108, 115, 101], by decide, Or.inr (Or.inr (Or.inl rfl))⟩, 1,
      by
      intro fuel hf rest _
      obtain ⟨f, rfl⟩ : ∃ f, fuel = f + 1 := ⟨fuel - 1, by omega⟩
      exact parseValue_false f rest⟩
  | JSON.num n, _ => by
    obtain ⟨t, ht, hst, hp⟩ := roundtrip_number n
    refine ⟨t, ht, hst, 1, ?_⟩
    intro fuel hf rest hrest
    obtain ⟨f, rfl⟩ : ∃ f, fuel = f + 1 := ⟨fuel - 1, by omega⟩
    exact hp f rest hrest
  | JSON.str s, _ =>
    ⟨quote s, rfl, ⟨34, quoteBody s ++ [34], by simp [quote], by simp⟩, 1, by
      intro fuel hf rest _
      obtain ⟨f, rfl⟩ : ∃ f, fuel = f + 1 := ⟨fuel - 1, by omega⟩
      exact parseValue_quote f s rest⟩
  | JSON.arr items, h => by
    have h1 : JSON.everyItem (fun _ => true) (fun keys => decide keys.Nodup) items = true := by
      simpa [JSON.keysDistinct, JSON.every] using h
    obtain ⟨tr, hts, hcanon, hall⟩ := roundtrip_items items h1
    refine ⟨[91] ++ joinComma (tr.map Prod.fst) ++ [93], by simp [JSON.stringify, hts],
      ⟨91, joinComma (tr.map Prod.fst) ++ [93], by simp, by simp⟩, ?_⟩
    simp only [JSON.canon, hcanon]
    by_cases hnil : tr = []
    · subst hnil
      refine ⟨1, ?_⟩
      intro fuel hf rest _
      obtain ⟨f, rfl⟩ : ∃ f, fuel = f + 1 := ⟨fuel - 1, by omega⟩
      unfold parseValue
      simp [joinComma, skipWs, List.dropWhile, isJsonSpace]
    · obtain ⟨f0, hparse⟩ := parseElements_texts tr hall hnil
      have hstart : ValueStart (joinComma (tr.map Prod.fst)) := by
        cases tr with
        | nil => exact absurd rfl hnil
        | cons x tr1 =>
          obtain ⟨⟨c, r, hc, hcv⟩, _⟩ := hall x (List.mem_cons_self _ _)
          cases tr1 with
          | nil => exact ⟨c, r, by simp [joinComma, hc], hcv⟩
          | cons u us => exact ⟨c, r ++ [44] ++ joinComma ((u :: us).map Prod.fst),
              by simp [joinComma, hc], hcv⟩
      refine ⟨f0 + 1, ?_⟩
      intro fuel hf rest _
      obtain ⟨f, rfl⟩ : ∃ f, fuel = f + 1 := ⟨fuel - 1, by omega⟩
      have e : [91] ++ joinComma (tr.map Prod.fst) ++ [93] ++ rest =
          91 :: (joinComma (tr.map Prod.fst) ++ 93 :: rest) := by
        simp
      rw [e]
      have hsk := skipWs_of_valueStart (joinComma (tr.map Prod.fst)) (93 :: rest) hstart
      obtain ⟨c, r, hc, hne, _, _⟩ := valueStart_ne _ hstart
      have hp := hparse f (by omega) rest []
      rw [hc] at hsk hp
      unfold parseValue
      rw [hc]
      simp only [show (91 : Nat) ≠ 123 by decide, if_false, if_true]
      rw [hsk]
      simp only [List.cons_append, hne, if_false]
      simpa using hp
  | JSON.obj fields, h => by
    have h0 : (fields.map Prod.fst).Nodup ∧
        JSON.everyField (fun _ => true) (fun keys => decide keys.Nodup) fields = true := by
      simpa [JSON.keysDistinct, JSON.every] using h
    obtain ⟨hnd, h1⟩ := h0
    obtain ⟨tr, hms, hcanon, hall⟩ := roundtrip_fields fields h1
    have hkeys : tr.map Prod.fst = fields.map Prod.fst := by
      have := congrArg (List.map Prod.fst) hcanon
      rw [canonFields_eq_map] at this
      simpa [List.map_map, Function.comp] using this.symm
    have e1 := propertyOrder_map (fun y : JSString × JSON => y.1) tr
    have e2 := propertyOrder_map (fun y : JSString × JSON => y.2) tr
    have hstr : (JSON.obj fields).stringify = some ([123] ++
        joinComma ((propertyOrder tr).map (fun x => memberText (x.1, x.2.1))) ++ [125]) := by
      simp only [JSON.stringify, hms, e1, List.map_map]
      rfl
    refine ⟨_, hstr,
      ⟨123, joinComma ((propertyOrder tr).map (fun x => memberText (x.1, x.2.1))) ++ [125],
        by simp, by simp⟩, ?_⟩
    simp only [JSON.canon, hcanon, e2]
    by_cases hnil : tr = []
    · subst hnil
      refine ⟨1, ?_⟩
      intro fuel hf rest _
      obtain ⟨f, rfl⟩ : ∃ f, fuel = f + 1 := ⟨fuel - 1, by omega⟩
      unfold parseValue
      simp [propertyOrder, joinComma, skipWs, List.dropWhile, isJsonSpace]
    · have hperm := propertyOrder_perm tr
      have hnil2 : propertyOrder tr ≠ [] := by
        intro e
        rw [e] at hperm
        exact hnil (List.Perm.nil_eq hperm).symm
      have hnd2 : ((propertyOrder tr).map Prod.fst).Nodup := by
        rw [(hperm.map Prod.fst).nodup_iff, hkeys]
        exact hnd
      obtain ⟨f0, hparse⟩ := parseMembers_texts (propertyOrder tr)
        (fun x hx => hall x ((mem_propertyOrder tr x).mp hx)) hnil2 hnd2
      have hstart : ∃ r, joinComma ((propertyOrder tr).map (fun x => memberText (x.1, x.2.1))) =
          34 :: r := by
        cases hpo : propertyOrder tr with
        | nil => exact absurd hpo hnil2
        | cons x tr1 =>
          cases tr1 with
          | nil => exact ⟨_, by simp [joinComma, memberText, quote]; rfl⟩
          | cons u us => exact ⟨_, by simp [joinComma, memberText, quote]; rfl⟩
      refine ⟨f0 + 1, ?_⟩
      intro fuel hf rest _
      obtain ⟨f, rfl⟩ : ∃ f, fuel = f + 1 := ⟨fuel - 1, by omega⟩
      have e : [123] ++ joinComma ((propertyOrder tr).map (fun x => memberText (x.1, x.2.1))) ++
          [125] ++ rest =
          123 :: (joinComma ((propertyOrder tr).map (fun x => memberText (x.1, x.2.1))) ++
            125 :: rest) := by
        simp
      rw [e]
      obtain ⟨r, hc⟩ := hstart
      have hp := hparse f (by omega) rest [] (by simp)
      rw [hc] at hp
      unfold parseValue
      rw [hc]
      simp only [if_true]
      have hsk : skipWs (34 :: r ++ 125 :: rest) = 34 :: r ++ 125 :: rest := by
        simp [skipWs, List.dropWhile, isJsonSpace]
      rw [hsk]
      simp only [List.cons_append, show (34 : Nat) ≠ 125 by decide, if_false]
      simpa using hp

theorem roundtrip_items : ∀ items : List JSON,
    JSON.everyItem (fun _ => true) (fun keys => decide keys.Nodup) items = true →
    ∃ tr : List (JSString × JSON), JSON.itemTexts items = some (tr.map Prod.fst) ∧
      JSON.canonItems items = tr.map Prod.snd ∧ ∀ x ∈ tr, ReadsBack x.1 x.2
  | [], _ => ⟨[], rfl, rfl, by intro x hx; cases hx⟩
  | v :: rest1, h => by
    have h0 : v.keysDistinct = true ∧
        JSON.everyItem (fun _ => true) (fun keys => decide keys.Nodup) rest1 = true := by
      simpa [JSON.everyItem, JSON.keysDistinct] using h
    obtain ⟨t, ht, hrb⟩ := roundtrip_value v h0.1
    obtain ⟨tr, hts, hcanon, hall⟩ := roundtrip_items rest1 h0.2
    refine ⟨(t, v.canon) :: tr, by simp [JSON.itemTexts, ht, hts],
      by simp [JSON.canonItems, hcanon], ?_⟩
    intro x hx
    rcases List.mem_cons.mp hx with h1 | h1
    · subst h1; exact hrb
    · exact hall x h1

theorem roundtrip_fields : ∀ fields : List (JSString × JSON),
    JSON.everyField (fun _ => true) (fun keys => decide keys.Nodup) fields = true →
    ∃ tr : List (JSString × (JSString × JSON)),
      JSON.memberTexts fields = some (tr.map (fun x => (x.1, x.2.1))) ∧
      JSON.canonFields fields = tr.map (fun x => (x.1, x.2.2)) ∧
      ∀ x ∈ tr, ReadsBack x.2.1 x.2.2
  | [], _ => ⟨[], rfl, rfl, by intro x hx; cases hx⟩
  | (k, v) :: rest1, h => by
    have h0 : v.keysDistinct = true ∧
        JSON.everyField (fun _ => true) (fun keys => decide keys.Nodup) rest1 = true := by
      simpa [JSON.everyField, JSON.keysDistinct] using h
    obtain ⟨t, ht, hrb⟩ := roundtrip_value v h0.1
    obtain ⟨tr, hms, hcanon, hall⟩ := roundtrip_fields rest1 h0.2
    refine ⟨(k, (t, v.canon)) :: tr, by simp [JSON.memberTexts, ht, hms],
      by simp [JSON.canonFields, hcanon], ?_⟩
    intro x hx
    rcases List.mem_cons.mp hx with h1 | h1
    · subst h1; exact hrb
    · exact hall x h1

end

/-- The text that `JSON.stringify` writes for a value made by `JSON.parse` is parsed back to
the value `canon`. -/
theorem parse_stringify (v : JSON) (hk : v.keysDistinct = true) :
    ∃ text, v.stringify = some text ∧ JSON.parse text = some v.canon := by
  obtain ⟨t, ht, hst, f0, hparse⟩ := roundtrip_value v hk
  refine ⟨t, ht, ?_⟩
  have h1 := hparse (2 * t.length + 1 + f0) (by omega) [] (Or.inl rfl)
  have hsk := skipWs_of_valueStart t [] hst
  rw [List.append_nil] at h1 hsk
  have h2 := JSON.parse_fuel t f0
  rw [hsk, h1] at h2
  rw [← h2]
  rfl

/-! ## The value read back is identical, infinite numbers and negative zero apart -/

theorem double_canon (n : JNumber) (hz : n.isNegativeZero = false) :
    n.canon.double = n.double := by
  have hmag : n.canon.magnitude = n.magnitude ∧ n.canon.neg = n.neg := by
    unfold JNumber.canon
    by_cases h0 : n.magnitude = 0
    · rw [if_pos h0, h0]
      refine ⟨by decide, ?_⟩
      simp only [JNumber.isNegativeZero, h0, beq_self_eq_true, Bool.and_true] at hz
      exact hz.symm
    · rw [if_neg h0]
      obtain ⟨r, hr, _, hm⟩ := shortestDigits_spec n.magnitude h0 (magnitude_representable n)
      rw [hr]
      simp only
      split
      · rename_i hc
        exact ⟨by rw [magnitude_zeros n.neg r.1 r.2 hc.1, hm], rfl⟩
      · exact ⟨by rw [magnitude_neg, hm], rfl⟩
  unfold JNumber.double JNumber.overflows
  rw [hmag.1, hmag.2]

mutual

theorem same_canon : ∀ v : JSON, v.keysDistinct = true → v.finiteNumbers = true →
    v.same v.canon = true
  | JSON.null, _, _ => rfl
  | JSON.bool _, _, _ => by simp [JSON.same, JSON.canon]
  | JSON.num n, _, hf => by
    have h : n.overflows = false ∧ n.isNegativeZero = false := by
      simpa [JSON.finiteNumbers, JSON.every] using hf
    simp only [JSON.canon, h.1, Bool.false_eq_true, if_false, JSON.same, double_canon n h.2,
      beq_self_eq_true]
  | JSON.str _, _, _ => by simp [JSON.same, JSON.canon]
  | JSON.arr items, hk, hf => by
    have h1 : JSON.everyItem (fun _ => true) (fun keys => decide keys.Nodup) items = true := by
      simpa [JSON.keysDistinct, JSON.every] using hk
    have h2 : JSON.everyItem (fun n => !n.overflows && !n.isNegativeZero) (fun _ => true) items =
        true := by
      simpa [JSON.finiteNumbers, JSON.every] using hf
    simp only [JSON.canon, JSON.same]
    exact sameItems_canon items h1 h2
  | JSON.obj fields, hk, hf => by
    have h0 : (fields.map Prod.fst).Nodup ∧
        JSON.everyField (fun _ => true) (fun keys => decide keys.Nodup) fields = true := by
      simpa [JSON.keysDistinct, JSON.every] using hk
    have h2 : JSON.everyField (fun n => !n.overflows && !n.isNegativeZero) (fun _ => true)
        fields = true := by
      simpa [JSON.finiteNumbers, JSON.every] using hf
    have hkeys : (JSON.canonFields fields).map Prod.fst = fields.map Prod.fst := by
      rw [canonFields_eq_map]
      simp [List.map_map, Function.comp]
    have hperm := propertyOrder_perm (JSON.canonFields fields)
    have hnd : ((propertyOrder (JSON.canonFields fields)).map Prod.fst).Nodup := by
      rw [(hperm.map Prod.fst).nodup_iff, hkeys]
      exact h0.1
    simp only [JSON.canon, JSON.same, Bool.and_eq_true, beq_iff_eq]
    refine ⟨?_, ?_⟩
    · rw [propertyOrder_idem]
      exact keys_propertyOrder _ _ hkeys.symm
    · refine sameFields_canon fields (propertyOrder (JSON.canonFields fields)) ?_ h0.2 h2
      intro k v hmem
      refine lookup_of_mem _ k v.canon hnd ?_
      rw [mem_propertyOrder, canonFields_eq_map]
      exact List.mem_map.mpr ⟨(k, v), hmem, rfl⟩

theorem sameItems_canon : ∀ items : List JSON,
    JSON.everyItem (fun _ => true) (fun keys => decide keys.Nodup) items = true →
    JSON.everyItem (fun n => !n.overflows && !n.isNegativeZero) (fun _ => true) items = true →
    JSON.sameItems items (JSON.canonItems items) = true
  | [], _, _ => rfl
  | v :: rest, h1, h2 => by
    have a1 : v.keysDistinct = true ∧
        JSON.everyItem (fun _ => true) (fun keys => decide keys.Nodup) rest = true := by
      simpa [JSON.everyItem, JSON.keysDistinct] using h1
    have a2 : v.finiteNumbers = true ∧
        JSON.everyItem (fun n => !n.overflows && !n.isNegativeZero) (fun _ => true) rest =
          true := by
      simpa [JSON.everyItem, JSON.finiteNumbers] using h2
    simp only [JSON.canonItems, JSON.sameItems, Bool.and_eq_true]
    exact ⟨same_canon v a1.1 a2.1, sameItems_canon rest a1.2 a2.2⟩

theorem sameFields_canon : ∀ (fields fb : List (JSString × JSON)),
    (∀ k v, (k, v) ∈ fields → fb.lookup k = some v.canon) →
    JSON.everyField (fun _ => true) (fun keys => decide keys.Nodup) fields = true →
    JSON.everyField (fun n => !n.overflows && !n.isNegativeZero) (fun _ => true) fields = true →
    JSON.sameFields fields fb = true
  | [], _, _, _, _ => rfl
  | (k, v) :: rest, fb, hl, h1, h2 => by
    have a1 : v.keysDistinct = true ∧
        JSON.everyField (fun _ => true) (fun keys => decide keys.Nodup) rest = true := by
      simpa [JSON.everyField, JSON.keysDistinct] using h1
    have a2 : v.finiteNumbers = true ∧
        JSON.everyField (fun n => !n.overflows && !n.isNegativeZero) (fun _ => true) rest =
          true := by
      simpa [JSON.everyField, JSON.finiteNumbers] using h2
    simp only [JSON.sameFields, hl k v (List.mem_cons_self _ _), Bool.and_eq_true]
    exact ⟨same_canon v a1.1 a2.1,
      sameFields_canon rest fb (fun k1 v1 hm => hl k1 v1 (List.mem_cons_of_mem _ hm)) a1.2 a2.2⟩

end

/-! ## The stored document written and read again -/

theorem participantesOf_distinct (col : Option JSString) :
    JSON.everyItem (fun _ => true) (fun keys => decide keys.Nodup) (participantesOf col) =
      true := by
  unfold participantesOf
  split
  · rename_i items h
    have := keysDistinct_of_parse _ _ h
    simpa [JSON.keysDistinct, JSON.every] using this
  · rfl

theorem buildMeta_distinct (z : Zone) (meeting : MeetingRow) (ident : Identificacion)
    (h : buildMeta z meeting = some ident) : ident.toJSON.keysDistinct = true := by
  have hp : ident.participantes = participantesOf meeting.participantes := by
    unfold buildMeta at h
    simp only at h
    split at h
    · simp at h
    · simp only [Option.some.injEq] at h
      rw [← h]
  have := participantesOf_distinct meeting.participantes
  rw [← hp] at this
  simp only [Identificacion.toJSON, JSON.keysDistinct, JSON.every, JSON.everyField, this,
    Bool.and_true, Bool.true_and, List.map_cons, List.map_nil, decide_eq_true_eq]
  decide

theorem repair_distinct (today content : JSString) :
    (repair today content).keysDistinct = true := by
  unfold repair
  split
  · rename_i v hv
    exact keysDistinct_of_parse _ v hv
  · split
    · rename_i v hv
      exact keysDistinct_of_parse _ v hv
    · rfl

theorem stored_distinct (doc ident : JSON) (acta : Acta) (hd : doc.keysDistinct = true)
    (hi : ident.keysDistinct = true) (ha : assignIdentificacion doc ident = some acta) :
    acta.stored.keysDistinct = true := by
  unfold assignIdentificacion at ha
  split at ha
  · simp at ha
  · rename_i fields
    simp only [Option.some.injEq] at ha
    subst ha
    have h0 : (fields.map Prod.fst).Nodup ∧
        JSON.everyField (fun _ => true) (fun keys => decide keys.Nodup) fields = true := by
      simpa [JSON.keysDistinct, JSON.every] using hd
    simp only [Acta.stored, JSON.keysDistinct, JSON.every, Bool.and_eq_true, decide_eq_true_eq]
    exact ⟨nodup_setProp _ _ _ h0.1, everyField_setProp _ _ _ _ _ h0.2 hi⟩
  · simp only [Option.some.injEq] at ha
    subst ha
    exact hd
  · simp only [Option.some.injEq] at ha
    subst ha
    exact hd

/-- C26, amended: for every document that the repair yields, by the parse of the prepared
text, by the parse after the removal of comments or as the default document, taken as line 412
serializes it, after the identification overwrite: if it holds no number that is rounded to an
infinite double and no negative zero, `JSON.stringify` writes a text for it and `JSON.parse`
of that text yields a structurally identical document (`JSON.same`). -/
theorem stored_roundtrip (z : Zone) (meeting : MeetingRow) (ident : Identificacion)
    (today content : JSString) (acta : Acta)
    (hi : buildMeta z meeting = some ident)
    (ha : assignIdentificacion (repair today content) ident.toJSON = some acta)
    (hn : acta.stored.finiteNumbers = true) :
    ∃ text v, acta.stored.stringify = some text ∧ JSON.parse text = some v ∧
      acta.stored.same v = true := by
  have hk := stored_distinct _ _ acta (repair_distinct today content)
    (buildMeta_distinct z meeting ident hi) ha
  obtain ⟨text, ht, hp⟩ := parse_stringify acta.stored hk
  exact ⟨text, acta.stored.canon, ht, hp, same_canon acta.stored hk hn⟩

/-- C26 amended, on a completion text whose document holds an integer, a fraction, a number
written with an exponent, a negative number and two properties named by array indices. -/
theorem stored_roundtrip_witness :
    numbersActa.stored.stringify =
        some (utf16 ("\x7b\"2\":[1e+21,-4.35],\"10\":0.1,\"resumen_reunion\":\"ok\"," ++
          "\"duracion\":45,\"tareas_nuevas\":[],\"identificacion\":\x7b\"cliente\":\"ACME\"," ++
          "\"proyecto\":\"\",\"responsable\":\"\",\"participantes\":[\"Ana\"]," ++
          "\"fecha\":\"2024-01-05\",\"hora_inicio\":\"10:00\",\"hora_fin\":\"\"\x7d\x7d")) ∧
      ∃ text v, numbersActa.stored.stringify = some text ∧ JSON.parse text = some v ∧
        numbersActa.stored.same v = true :=
  ⟨by decide,
    stored_roundtrip (Zone.fixed 0)
      { cliente := some (utf16 "ACME"), proyecto := none, responsable := none,
        participantes := some (utf16 "[\"Ana\"]"),
        started_at := some (utf16 "2024-01-05T10:00:00.000Z"), ended_at := none }
      sampleIdent (utf16 "2024-01-05") numbersContent numbersActa (by decide) (by decide)
      (by decide)⟩

/-- C26 fails on the code. The number `1e999` of `overflowContent` is beyond the range of the
doubles and is parsed to `Infinity`, which `JSON.stringify` writes as `null`: the stored text is
parsed back to a document whose property `duracion` is `null`, not a number. And the negative
zero of `negativeZeroContent` is written as `0`: it is parsed back as positive zero. -/
theorem stored_roundtrip_fails :
    (storedAndReadBack overflowContent).map
        (fun d => (d.1.get (utf16 "duracion"), d.2.get (utf16 "duracion"), d.1.same d.2)) =
        some (some (JSON.num ⟨false, 1, 999⟩), some JSON.null, false) ∧
      (storedAndReadBack negativeZeroContent).map
        (fun d => (d.1.get (utf16 "saldo"), d.2.get (utf16 "saldo"), d.1.same d.2)) =
        some (some (JSON.num ⟨true, 0, 0⟩), some (JSON.num ⟨false, 0, 0⟩), false) := by
  decide

end Meeting
